import Mathlib

/-! Cooldown prediction engine of `arcdps_cooldowns.cpp`.

A shallow embedding of the per-skill timer (`SlotTimer`), of the base
cooldown resolver (`get_base_cd_for_skill`), of the timer table query
(`compute_left_for`), of the reconciliation of the group order and the merge
of a remote snapshot (`ensure_group_membership_locked`,
`parse_peers_from_json_locked`, `inject_self_if_missing_locked`), of the
display order (`draw_group_table`) and of the combat event classifier
(`on_combat`), followed by the properties established for them.

Conventions of the embedding:

* `float` and `double` values are read as exact rationals (`ℚ`), so every
  statement below is a statement in exact arithmetic; rounding of the
  machine formats is outside the model.  The constants `3.5`, `1.5` and
  `1.25` are exactly representable, `0.60` is read as `3/5`.
* `uint32_t` skill ids are natural numbers; no arithmetic is done on them.
* A member function that mutates the timer becomes a function returning the
  new timer; `predict_left`, which both mutates and returns a value, returns
  the pair (value, new timer).
* Process wide tables read by a function are passed to it as arguments and
  the ones it writes are returned.
* JSON values (`json.hpp`) and the event records of `arcdps_structs.h` are not
  among the sources; they are modelled by the types `Json`, `Ag` and
  `CbtEvent`, and a thrown exception is the value `none` or a flag.
-/

namespace Cooldowns

/-! ## Constants and global tables -/

/-- Network latency compensation, `NET_OFFSET = 3.5f`. -/
def NET_OFFSET : ℚ := 7 / 2

/-- Length of the fake cooldown after a cancelled cast, `CANCEL_COOLDOWN = 1.5f`. -/
def CANCEL_COOLDOWN : ℚ := 3 / 2

/-- The table `g_hard_override_cd` (skill id, cooldown in seconds).  It is
only ever read by the program. -/
def g_hard_override_cd : List (Nat × ℚ) :=
  [(12569, 120), (62965, 20), (10545, 40)]

/-! ## SlotTimer -/

/-- The record `SlotTimer`, with the default member initialisers of the source. -/
structure SlotTimer where
  skillid : Nat := 0
  name : String := ""
  base_cd : ℚ := 0
  last_cast_s : ℚ := -1
  last_update_s : ℚ := -1
  elapsed : ℚ := 0
  cancel_active : Bool := false
  cancel_start_s : ℚ := -1
deriving DecidableEq

/-- `SlotTimer::on_cast`: a real cast starts the normal cooldown. -/
def SlotTimer.on_cast (st : SlotTimer) (now_s_val : ℚ) : SlotTimer :=
  { st with
    last_cast_s := now_s_val
    last_update_s := now_s_val
    elapsed := 0
    cancel_active := false
    cancel_start_s := -1 }

/-- `SlotTimer::start_cancel_cd`: a cancelled cast starts the short fake cooldown. -/
def SlotTimer.start_cancel_cd (st : SlotTimer) (now_s_val : ℚ) : SlotTimer :=
  { st with
    last_cast_s := -1
    last_update_s := -1
    elapsed := 0
    cancel_active := true
    cancel_start_s := now_s_val }

/-- `SlotTimer::advance`.  The early returns of the source are the `then`
branches; note that the return on `dt <= 0` happens after `last_update_s`
has been repaired from `last_cast_s`. -/
def SlotTimer.advance (st : SlotTimer) (now_s_val : ℚ) (has_alac has_chill : Bool) :
    SlotTimer :=
  if st.cancel_active then st
  else if st.last_cast_s < 0 ∨ st.base_cd ≤ 0 then st
  else
    let st1 : SlotTimer :=
      if st.last_update_s < 0 then { st with last_update_s := st.last_cast_s } else st
    let dt : ℚ := now_s_val - st1.last_update_s
    if dt ≤ 0 then st1
    else
      let speed : ℚ := 1
      let speed : ℚ := if has_alac then speed * (5 / 4) else speed
      let speed : ℚ := if has_chill then speed * (3 / 5) else speed
      let elapsed : ℚ := st1.elapsed + dt * speed
      let elapsed : ℚ := if elapsed > st1.base_cd then st1.base_cd else elapsed
      { st1 with elapsed := elapsed, last_update_s := now_s_val }

/-- `SlotTimer::predict_left`: the returned value paired with the timer as
the call leaves it (the normal path runs `advance` on the timer). -/
def SlotTimer.predict_left (st : SlotTimer) (now_s_val : ℚ) (has_alac has_chill : Bool) :
    ℚ × SlotTimer :=
  if st.cancel_active then
    if st.cancel_start_s < 0 then (0, st)
    else
      let dt : ℚ := now_s_val - st.cancel_start_s
      if dt ≥ CANCEL_COOLDOWN then (0, st)
      else
        let left : ℚ := CANCEL_COOLDOWN - dt
        let left : ℚ := if left < 0 then 0 else left
        (left, st)
  else
    let st1 : SlotTimer := st.advance now_s_val has_alac has_chill
    if st1.last_cast_s < 0 ∨ st1.base_cd ≤ 0 then (-1, st1)
    else
      let remaining : ℚ := st1.base_cd - st1.elapsed
      if remaining ≤ 0 then (0, st1)
      else
        let left : ℚ := remaining - NET_OFFSET
        (if left < 0 then 0 else left, st1)

/-! ## Sequences of calls on one timer -/

/-- One call made on a timer between two cast or cancel events. -/
inductive TimerOp where
  | advance (t : ℚ) (has_alac has_chill : Bool)
  | predict_left (t : ℚ) (has_alac has_chill : Bool)
deriving DecidableEq

/-- Timestamp passed to the call. -/
def TimerOp.time : TimerOp → ℚ
  | .advance t _ _ => t
  | .predict_left t _ _ => t

/-- Whether the call is made with both speed flags off. -/
def TimerOp.noModifier : TimerOp → Bool
  | .advance _ a c => !a && !c
  | .predict_left _ a c => !a && !c

/-- The timer after the call (the returned value of `predict_left` is dropped). -/
def TimerOp.run (st : SlotTimer) : TimerOp → SlotTimer
  | .advance t a c => st.advance t a c
  | .predict_left t a c => (st.predict_left t a c).2

/-- The timer after a sequence of calls, made in list order. -/
def runOps (st : SlotTimer) (ops : List TimerOp) : SlotTimer :=
  ops.foldl TimerOp.run st

/-- The timer after a sequence of `advance` calls (time, has_alac, has_chill). -/
def advanceSeq (st : SlotTimer) (calls : List (ℚ × Bool × Bool)) : SlotTimer :=
  calls.foldl (fun s c => s.advance c.1 c.2.1 c.2.2) st

/-! ## Base cooldown resolver -/

/-- `request_cd_fetch`: insertion into the set `g_cd_pending`. -/
def request_cd_fetch (g_cd_pending : Finset Nat) (sid : Nat) : Finset Nat :=
  insert sid g_cd_pending

/-- `get_base_cd_for_skill`.  The map `g_api_cd_cache` is given by its lookup
function and the set `g_cd_pending` is threaded through: the result is the
returned cooldown and the pending set after the call. -/
def get_base_cd_for_skill (g_api_cd_cache : Nat → Option ℚ) (g_cd_pending : Finset Nat)
    (sid : Nat) (row_base : ℚ) : ℚ × Finset Nat :=
  match g_hard_override_cd.lookup sid with
  | some v => (v, g_cd_pending)
  | none =>
    if row_base > 0 then (row_base, g_cd_pending)
    else
      match g_api_cd_cache sid with
      | some v => (v, g_cd_pending)
      | none => (0, request_cd_fetch g_cd_pending sid)

/-! ## Records of the engine state -/

/-- The record `TrackedEntry`: one user configured skill slot. -/
structure TrackedEntry where
  enabled : Bool := true
  skillid : Nat := 0
  base_cd : ℚ := 0
  label : String := "Label"
deriving DecidableEq

/-- The record `SelfContext`: state of the local actor. -/
structure SelfContext where
  self_instid : Nat := 0
  has_alacrity : Bool := false
  has_chill : Bool := false
  subgroup : Nat := 0
deriving DecidableEq

/-- The record `PeerEntry`: one shared skill of a peer. -/
structure PeerEntry where
  label : String := ""
  ready : Bool := false
  left : ℚ := -1
deriving DecidableEq

/-- The record `Peer`: one participant of the room. -/
structure Peer where
  id : String := ""
  name : String := ""
  account : String := ""
  prof : Nat := 0
  subgroup : Nat := 0
  entries : List PeerEntry := []
deriving DecidableEq

/-- The process wide variables read or written by the functions embedded
below.  The maps `g_by_skill`, `g_api_cd_cache` and `g_group_order` are given
by their lookup functions (`none`: no entry for the key), the set
`g_cd_pending` is a finite set, the vectors are lists. -/
structure Globals where
  g_self : SelfContext := {}
  g_by_skill : Nat → Option SlotTimer := fun _ => none
  g_api_cd_cache : Nat → Option ℚ := fun _ => none
  g_cd_pending : Finset Nat := ∅
  g_tracked : List TrackedEntry := []
  g_client_id : String := ""
  g_assigned_name : String := "cds"
  g_self_charname : String := ""
  g_self_prof : Nat := 0
  g_room : String := "bags"
  g_peers : List Peer := []
  g_group_order : Nat → Option (List String) := fun _ => none

/-! ## TimerTable query -/

/-- `compute_left_for`: the returned value and the globals after the call.
`st` is a reference into `g_by_skill`, so what `predict_left` does to the timer
is written back to the table. -/
def compute_left_for (g : Globals) (sid : Nat) (row_base now : ℚ) : ℚ × Globals :=
  match g.g_by_skill sid with
  | none => (-1, g)
  | some st =>
    if st.cancel_active then
      let r : ℚ × SlotTimer := st.predict_left now false false
      (r.1, { g with g_by_skill := Function.update g.g_by_skill sid (some r.2) })
    else
      let rb : ℚ × Finset Nat :=
        get_base_cd_for_skill g.g_api_cd_cache g.g_cd_pending sid row_base
      let g1 : Globals := { g with g_cd_pending := rb.2 }
      if rb.1 ≤ 0 then (-1, g1)
      else
        let st1 : SlotTimer := { st with base_cd := rb.1 }
        let r : ℚ × SlotTimer :=
          st1.predict_left now g.g_self.has_alacrity g.g_self.has_chill
        (r.1, { g1 with g_by_skill := Function.update g1.g_by_skill sid (some r.2) })

/-! ## Group order reconciliation -/

/-- Body of the loop over `g_peers` in `ensure_group_membership_locked`, on the
pair (`g_group_order`, `have`): the group of the peer is created when absent
and the peer id is appended to it unless the set `have[pr]` holds it. -/
def ensure_add_peer (acc : (Nat → Option (List String)) × (Nat → Finset String))
    (p : Peer) : (Nat → Option (List String)) × (Nat → Finset String) :=
  let order : Nat → Option (List String) :=
    if acc.1 p.prof = none then Function.update acc.1 p.prof (some []) else acc.1
  if p.id ∈ acc.2 p.prof then (order, acc.2)
  else
    (Function.update order p.prof (some ((order p.prof).getD [] ++ [p.id])),
     Function.update acc.2 p.prof (insert p.id (acc.2 p.prof)))

/-- `ensure_group_membership_locked`: `have` starts as the set of ids of each
group, every peer is added to the group of its `prof`, then every id that is
not the id of a current peer is erased from every group. -/
def ensure_group_membership_locked (g : Globals) : Globals :=
  let have0 : Nat → Finset String := fun k => ((g.g_group_order k).getD []).toFinset
  let order : Nat → Option (List String) :=
    (g.g_peers.foldl ensure_add_peer (g.g_group_order, have0)).1
  let all_ids_now : Finset String := (g.g_peers.map Peer.id).toFinset
  { g with
    g_group_order := fun k =>
      (order k).map (fun vec => vec.filter (fun id => decide (id ∈ all_ids_now))) }

/-! ## JSON values

The parser works on values of the JSON library `json.hpp` (nlohmann), which is
not part of the program text.  The operations the parser uses are given here
with the behaviour the library documents; `none` stands for a thrown
exception. -/

/-- A JSON value.  The three number kinds of the library are one constructor:
the parser only asks `is_number` and converts. -/
inductive Json where
  | null
  | bool (b : Bool)
  | num (q : ℚ)
  | str (s : String)
  | arr (xs : List Json)
  | obj (kvs : List (String × Json))

/-- `j.contains(key)` together with `j[key]`: the member of an object, `none`
when `j` is not an object or has no such member. -/
def Json.find? (j : Json) (key : String) : Option Json :=
  match j with
  | .obj kvs => kvs.lookup key
  | _ => none

/-- The values a range `for` over `j` visits: the elements of an array, the
member values of an object, nothing for `null`, the value itself otherwise. -/
def Json.elems : Json → List Json
  | .arr xs => xs
  | .obj kvs => kvs.map Prod.snd
  | .null => []
  | j => [j]

/-- `j.get<std::string>()`: throws unless `j` is a string. -/
def Json.get_string : Json → Option String
  | .str s => some s
  | _ => none

/-- `j.get<unsigned>()`: numbers are converted (truncated toward zero, modulo
`2^32`), booleans become 0 or 1, every other kind throws. -/
def Json.get_u32 : Json → Option Nat
  | .num q => some ((Int.tdiv q.num q.den % 4294967296).toNat)
  | .bool b => some (if b then 1 else 0)
  | _ => none

/-- `j.get<bool>()`: throws unless `j` is a boolean. -/
def Json.get_bool : Json → Option Bool
  | .bool b => some b
  | _ => none

/-- `j.value(key, dflt)` at type `unsigned`: throws when `j` is not an object,
gives `dflt` when the member is missing, converts the member otherwise. -/
def Json.value_u32 (j : Json) (key : String) (dflt : Nat) : Option Nat :=
  match j with
  | .obj kvs =>
    match kvs.lookup key with
    | some v => v.get_u32
    | none => some dflt
  | _ => none

/-- `j.value(key, dflt)` at type `bool`. -/
def Json.value_bool (j : Json) (key : String) (dflt : Bool) : Option Bool :=
  match j with
  | .obj kvs =>
    match kvs.lookup key with
    | some v => v.get_bool
    | none => some dflt
  | _ => none

/-- `j[key] = v` on a mutable value: `null` becomes an object, an object gets
or replaces the member, every other kind throws. -/
def Json.assign (j : Json) (key : String) (v : Json) : Option Json :=
  match j with
  | .null => some (.obj [(key, v)])
  | .obj kvs => some (.obj ((key, v) :: kvs.filter (fun kv => kv.1 ≠ key)))
  | _ => none

/-! ## Parsing a remote snapshot -/

/-- Body of the loop over `pj["entries"]` in `parse_one`. -/
def parse_entry (ej : Json) : Option PeerEntry :=
  let label : String :=
    match ej.find? "label" with
    | some (.str s) => s
    | _ => ""
  match ej.value_bool "ready" false with
  | none => none
  | some ready =>
    let left : ℚ :=
      match ej.find? "left" with
      | some (.num q) => q
      | _ => -1
    some { label := label, ready := ready, left := left }

/-- The loop over `pj["entries"]`: stops at the first entry that throws. -/
def parse_entries : List Json → Option (List PeerEntry)
  | [] => some []
  | ej :: rest =>
    match parse_entry ej with
    | none => none
    | some e =>
      match parse_entries rest with
      | none => none
      | some es => some (e :: es)

/-- The peer `parse_one` builds from `pj`, before the test on its id. -/
def parse_peer (pj : Json) : Option Peer :=
  let id : String :=
    match pj.find? "clientId" with
    | some (.str s) => s
    | _ =>
      match pj.find? "id" with
      | some (.str s) => s
      | _ => ""
  match pj.value_u32 "prof" 0 with
  | none => none
  | some prof =>
    match pj.value_u32 "subgroup" 0 with
    | none => none
    | some subgroup =>
      let name : String :=
        match pj.find? "name" with
        | some (.str s) => s
        | _ => "unknown"
      let account : String :=
        match pj.find? "account" with
        | some (.str s) => s
        | _ => ""
      let entries : Option (List PeerEntry) :=
        match pj.find? "entries" with
        | some (.arr es) => parse_entries es
        | _ => some []
      match entries with
      | none => none
      | some es =>
        some { id := id, name := name, account := account, prof := prof,
               subgroup := subgroup, entries := es }

/-- The lambda `parse_one` of `parse_peers_from_json_locked`, on the local
vector `peers`: the peer is pushed when its id is not empty. -/
def parse_one (peers : List Peer) (pj : Json) : Option (List Peer) :=
  match parse_peer pj with
  | none => none
  | some p => if p.id ≠ "" then some (peers ++ [p]) else some peers

/-- The loops `for (auto& pj : ...) parse_one(pj)`. -/
def parse_all (peers : List Peer) : List Json → Option (List Peer)
  | [] => some peers
  | pj :: rest =>
    match parse_one peers pj with
    | none => none
    | some peers1 => parse_all peers1 rest

/-- The loop over `px.items()` for peers given as a map keyed by id. -/
def parse_keyed (peers : List Peer) : List (String × Json) → Option (List Peer)
  | [] => some peers
  | kv :: rest =>
    match kv.2.assign "clientId" (.str kv.1) with
    | none => none
    | some pj =>
      match parse_one peers pj with
      | none => none
      | some peers1 => parse_keyed peers1 rest

/-- The loop `for (auto& v : kv.value()) order.push_back(v.get<std::string>())`. -/
def parse_order_ids : List Json → Option (List String)
  | [] => some []
  | v :: rest =>
    match v.get_string with
    | none => none
    | some s =>
      match parse_order_ids rest with
      | none => none
      | some ss => some (s :: ss)

/-- The loop over `jr["groupOrder"].items()` on `g_group_order`; the second
component tells whether the loop threw.  The standard library conversion
`(uint32_t)std::stoul(key)` is the parameter `stoul` (`none`: it throws). -/
def parse_group_order (stoul : String → Option Nat) (order : Nat → Option (List String)) :
    List (String × Json) → (Nat → Option (List String)) × Bool
  | [] => (order, false)
  | kv :: rest =>
    match stoul kv.1 with
    | none => (order, true)
    | some prof =>
      match parse_order_ids kv.2.elems with
      | none => (order, true)
      | some ids => parse_group_order stoul (Function.update order prof (some ids)) rest

/-- The peers selected by the shape of the snapshot, parsed into the local
vector `peers` (`none`: an exception left the function). -/
def parse_shapes (g_room : String) (jr : Json) : Option (List Peer) :=
  match jr.find? "peers" with
  | some (.arr xs) => parse_all [] xs
  | some (.obj kvs) => parse_keyed [] kvs
  | some _ => some []
  | none =>
    match jr.find? "clients" with
    | some (.arr xs) => parse_all [] xs
    | _ =>
      match jr with
      | .arr xs => parse_all [] xs
      | _ =>
        match jr.find? "rooms" with
        | some (.obj rooms) =>
          match rooms.lookup g_room with
          | some (.arr xs) => parse_all [] xs
          | _ => some []
        | _ => some []

/-- The first block of `parse_peers_from_json_locked`: when the snapshot has
an object `groupOrder`, `g_group_order` is cleared and filled from it; the
second component tells whether the block threw. -/
def replace_group_order (stoul : String → Option Nat)
    (g_group_order : Nat → Option (List String)) (jr : Json) :
    (Nat → Option (List String)) × Bool :=
  match jr.find? "groupOrder" with
  | some (.obj kvs) => parse_group_order stoul (fun _ => none) kvs
  | _ => (g_group_order, false)

/-- `parse_peers_from_json_locked`: the globals when the function is left and
whether it was left by an exception.  `g_peers` is only replaced at the end. -/
def parse_peers_from_json_locked (stoul : String → Option Nat) (g : Globals) (jr : Json) :
    Globals × Bool :=
  let r : (Nat → Option (List String)) × Bool :=
    replace_group_order stoul g.g_group_order jr
  let g1 : Globals := { g with g_group_order := r.1 }
  if r.2 then (g1, true)
  else
    match parse_shapes g.g_room jr with
    | none => (g1, true)
    | some peers => (ensure_group_membership_locked { g1 with g_peers := peers }, false)

/-! ## Injection of the local peer -/

/-- The loop over `g_tracked` in `inject_self_if_missing_locked`: the entries
pushed to `self.entries` and the globals after the calls of `compute_left_for`. -/
def inject_entries (now : ℚ) : Globals → List TrackedEntry → List PeerEntry × Globals
  | g, [] => ([], g)
  | g, e :: es =>
    if !e.enabled || e.skillid == 0 then inject_entries now g es
    else
      let r : ℚ × Globals := compute_left_for g e.skillid e.base_cd now
      let pe : PeerEntry :=
        { label := e.label
          ready := decide ((r.1 ≥ 0 ∧ r.1 ≤ 1 / 2) ∨ r.2.g_by_skill e.skillid = none)
          left := if r.1 < 0 then -1 else r.1 }
      let rest : List PeerEntry × Globals := inject_entries now r.2 es
      (pe :: rest.1, rest.2)

/-- `inject_self_if_missing_locked`, with the clock reading `now_s()` as `now`. -/
def inject_self_if_missing_locked (g : Globals) (now : ℚ) : Globals :=
  let have_self : Bool := g.g_peers.any (fun p => p.id == g.g_client_id)
  if have_self then g
  else
    let name : String :=
      if g.g_self_charname ≠ "" then g.g_self_charname
      else if g.g_assigned_name = "" then "me" else g.g_assigned_name
    let r : List PeerEntry × Globals := inject_entries now g g.g_tracked
    let self : Peer :=
      { id := g.g_client_id, name := name, prof := g.g_self_prof,
        subgroup := g.g_self.subgroup, entries := r.1 }
    ensure_group_membership_locked { r.2 with g_peers := r.2.g_peers ++ [self] }

/-- The merge of one pulled snapshot in `net_loop`: the parse, then the
injection unless the parse threw (the `catch` of `net_loop` then only logs). -/
def net_loop_merge (stoul : String → Option Nat) (g : Globals) (jr : Json) (now : ℚ) :
    Globals :=
  let r : Globals × Bool := parse_peers_from_json_locked stoul g jr
  if r.2 then r.1 else inject_self_if_missing_locked r.1 now

/-! ## Display order of a group -/

/-- The comparator passed to `std::sort` in `draw_group_table`. -/
def peer_less (a b : Peer) : Bool :=
  let an : String := if a.name = "" then a.id else a.name
  let bn : String := if b.name = "" then b.id else b.name
  if an ≠ bn then decide (an < bn) else decide (a.id < b.id)

/-- Body of the loop over `order` in `draw_group_table`, on the pair
(`ordered`, `by_id`): a peer found under the id is pushed and erased from
`by_id`. -/
def draw_pick (acc : List Peer × AList (fun _ : String => Peer)) (id : String) :
    List Peer × AList (fun _ : String => Peer) :=
  match acc.2.lookup id with
  | some p => (acc.1 ++ [p], acc.2.erase id)
  | none => acc

/-- The vector `ordered` that `draw_group_table` computes and then draws row by
row (empty when the group has no peer and nothing is drawn).  The map `by_id`
is an association list with distinct keys; `std::sort` is modelled by a sort
that puts no element after one the comparator calls greater than it. -/
def draw_group_table (g_group_order : Nat → Option (List String)) (prof : Nat)
    (peers_snapshot : List Peer) : List Peer :=
  let peers : List Peer :=
    peers_snapshot.filter
      (fun p => if prof = 0 then decide (p.prof = 0) else decide (p.prof = prof))
  if peers.isEmpty then []
  else
    let order : List String :=
      match g_group_order prof with
      | some v => v
      | none => []
    let by_id : AList (fun _ : String => Peer) :=
      peers.foldl (fun m p => m.insert p.id p) ∅
    let r : List Peer × AList (fun _ : String => Peer) := order.foldl draw_pick ([], by_id)
    if r.2.entries.isEmpty then r.1
    else
      r.1 ++ (r.2.entries.map Sigma.snd).insertionSort (fun a b => peer_less b a = false)

/-! ## Combat event classifier -/

/-- State change code `CBTS_CHANGEDEAD` (fallback definition of the source). -/
def CBTS_CHANGEDEAD : Nat := 4

/-- State change code `CBTS_CHANGEDOWN` (fallback definition of the source). -/
def CBTS_CHANGEDOWN : Nat := 5

/-- State change code `CBTS_EXITCOMBAT` (fallback definition of the source). -/
def CBTS_EXITCOMBAT : Nat := 2

/-- State change code `CBTS_LOGEND` (fallback definition of the source). -/
def CBTS_LOGEND : Nat := 10

/-- Activation kind `ACTV_START`. -/
def ACTV_START : Nat := 1

/-- Activation kind `ACTV_CANCEL_FIRE`. -/
def ACTV_CANCEL_FIRE : Nat := 2

/-- Activation kind `ACTV_CANCEL_CANCEL`. -/
def ACTV_CANCEL_CANCEL : Nat := 3

/-- Activation kind `ACTV_RESET`. -/
def ACTV_RESET : Nat := 4

/-- Skill id of the alacrity buff, `BUFF_ALACRITY`. -/
def BUFF_ALACRITY : Nat := 30328

/-- Skill id of the chill buff, `BUFF_CHILL`. -/
def BUFF_CHILL : Nat := 722

/-- Modelled from the spec: the actor descriptor `ag`, declared in
`arcdps_structs.h`, which is not among the sources.  It carries the identity,
the name (a C string, `none` for the null pointer), the class, the "is local
actor" flag `self` and the team (subgroup) tag that `on_combat` reads. -/
structure Ag where
  name : Option String := none
  id : Nat := 0
  prof : Nat := 0
  self : Nat := 0
  team : Nat := 0
deriving DecidableEq

/-- Modelled from the spec: the event record `cbtevent`, declared in
`arcdps_structs.h`, which is not among the sources.  It carries the event
timestamp, the state change classifier, the buff flag and the buff removal
flag, the activation kind and the skill id that `on_combat` reads. -/
structure CbtEvent where
  time : Nat := 0
  is_statechange : Nat := 0
  is_buff : Nat := 0
  is_activation : Nat := 0
  is_buffremove : Nat := 0
  skillid : Nat := 0
deriving DecidableEq

/-- The process wide variables of `Globals` together with the further ones
that `on_combat` reads or writes. -/
structure EventGlobals extends Globals where
  g_in_map_change : Bool := false
  g_self_accountname : String := ""
  g_squad_accounts : Finset String := ∅
  g_dead_accounts : Finset String := ∅
  g_last_ev_ms : Nat := 0
  g_pick_row : Int := -1
  g_pick_armed_until_s : ℚ := 0
  g_pick_not_before_ms : Nat := 0
  g_settings_dirty : Bool := false

/-- The names in the table `bads` of `is_probable_junk_name`. -/
def junk_names : List String :=
  ["Weapon Draw", "Weapon Stow", "Weapon Swap", "Dodge", "Mount", "Dismount",
   "Aura", "Swiftness", "Superspeed", "Regeneration", "Resolution", "Vigor",
   "Protection", "Might", "Fury", "Quickness", "Alacrity", "Stability",
   "Resistance", "Aegis", "Barrier", "Stow Weapon", "Draw Weapon",
   "Leader of The Pact III", "Leader of The Pact II", "Leader of The Pact I"]

/-- `is_probable_junk_name`: whether the name contains one of the junk names
(`strstr`); a null or empty name is no junk. -/
def is_probable_junk_name (nm : Option String) : Bool :=
  match nm with
  | none => false
  | some s =>
    if s = "" then false
    else junk_names.any (fun b => decide (b.toList <:+: s.toList))

/-- The test `a && a->self` of `on_combat`. -/
def ag_is_self : Option Ag → Bool
  | none => false
  | some a => a.self != 0

/-- The test `s && *s` on a C string. -/
def cstr_nonempty : Option String → Bool
  | none => false
  | some s => s != ""

/-- The lambda `record_member` of `on_combat`, on the set `g_squad_accounts`. -/
def record_member (accounts : Finset String) : Option Ag → Finset String
  | none => accounts
  | some a =>
    match a.name with
    | none => accounts
    | some nm =>
      if nm = "" then accounts
      else if a.team ≠ 0 then insert nm accounts else accounts

/-- The name `on_combat` gives a timer or a picked row: the skill name, or
`"skill "` followed by the skill id when the name is null or empty. -/
def skill_label (skillname : Option String) (sid : Nat) : String :=
  match skillname with
  | none => "skill " ++ toString sid
  | some s => if s ≠ "" then s else "skill " ++ toString sid

/-- The part of `on_combat` that handles agent information for the local actor
(a null event whose `dst` has the `self` flag). -/
def on_agent_info (g : EventGlobals) (src : Option Ag) (d : Ag) : EventGlobals :=
  let g1 : EventGlobals :=
    { g with
      g_self_prof := d.prof
      g_self := { g.g_self with self_instid := d.id, subgroup := d.team } }
  let src_name : Option String := src.bind (fun s => s.name)
  let g2 : EventGlobals :=
    if cstr_nonempty src_name then { g1 with g_self_charname := src_name.getD "" }
    else if cstr_nonempty d.name then { g1 with g_self_charname := d.name.getD "" }
    else g1
  if cstr_nonempty d.name then
    { g2 with
      g_self_accountname := d.name.getD ""
      g_squad_accounts := insert (d.name.getD "") g2.g_squad_accounts }
  else g2

/-- The pick mode block of `on_combat`: the globals afterwards and the flag
`picked`. -/
def on_pick (g : EventGlobals) (e : CbtEvent) (skillname : Option String) (now : ℚ) :
    EventGlobals × Bool :=
  if 0 ≤ g.g_pick_row ∧ g.g_pick_row < (g.g_tracked.length : Int) then
    if now ≤ g.g_pick_armed_until_s then
      if e.skillid ≠ 0 ∧ e.is_buff = 0 ∧ e.time > g.g_pick_not_before_ms ∧
          is_probable_junk_name skillname = false then
        let row : TrackedEntry := (g.g_tracked.get? g.g_pick_row.toNat).getD {}
        let row : TrackedEntry :=
          { row with skillid := e.skillid, label := skill_label skillname e.skillid }
        let row : TrackedEntry :=
          match g_hard_override_cd.lookup e.skillid with
          | some v => { row with base_cd := v }
          | none => row
        ({ g with
           g_tracked := g.g_tracked.set g.g_pick_row.toNat row
           g_pick_row := -1
           g_pick_armed_until_s := 0 }, true)
      else (g, false)
    else ({ g with g_pick_row := -1, g_pick_armed_until_s := 0 }, false)
  else (g, false)

/-- The cooldown block of `on_combat`: an event with a skill id, no buff flag
and no junk name starts the cooldown or the fake cancel cooldown of the timer
of its skill, which `g_by_skill[sid]` creates when absent. -/
def on_activation (g : EventGlobals) (e : CbtEvent) (skillname : Option String) (now : ℚ) :
    EventGlobals :=
  if e.skillid ≠ 0 ∧ e.is_buff = 0 ∧ is_probable_junk_name skillname = false then
    let sid : Nat := e.skillid
    let st : SlotTimer := (g.g_by_skill sid).getD {}
    let st : SlotTimer := { st with skillid := sid, name := skill_label skillname sid }
    if e.is_activation = ACTV_START ∨ e.is_activation = ACTV_CANCEL_FIRE then
      { g with g_by_skill := Function.update g.g_by_skill sid (some (st.on_cast now)) }
    else if e.is_activation = ACTV_CANCEL_CANCEL ∨ e.is_activation = ACTV_RESET then
      { g with g_by_skill := Function.update g.g_by_skill sid (some (st.start_cancel_cd now)) }
    else g
  else g

/-- The blocks of `on_combat` that every event passes through: squad
membership tracking, the event timestamp, the clearing of both speed flags on
down, dead, combat exit and log end of the local actor, and the tracking of
the alacrity and chill buffs. -/
def on_event_state (CBTS_NONE : Nat) (g : EventGlobals) (e : CbtEvent)
    (src dst : Option Ag) : EventGlobals :=
  let g1 : EventGlobals :=
    { g with
      g_in_map_change := false
      g_squad_accounts := record_member (record_member g.g_squad_accounts src) dst }
  let g2 : EventGlobals := { g1 with g_last_ev_ms := e.time }
  let g3 : EventGlobals :=
    if (e.is_statechange = CBTS_CHANGEDOWN ∨ e.is_statechange = CBTS_CHANGEDEAD) ∧
        ag_is_self dst then
      { g2 with g_self := { g2.g_self with has_alacrity := false, has_chill := false } }
    else g2
  let g4 : EventGlobals :=
    if (e.is_statechange = CBTS_EXITCOMBAT ∨ e.is_statechange = CBTS_LOGEND) ∧
        ag_is_self dst then
      { g3 with g_self := { g3.g_self with has_alacrity := false, has_chill := false } }
    else g3
  if e.is_statechange = CBTS_NONE ∧ e.is_buff = 1 ∧ ag_is_self dst then
    if e.skillid = BUFF_ALACRITY then
      { g4 with g_self := { g4.g_self with has_alacrity := decide (e.is_buffremove = 0) } }
    else if e.skillid = BUFF_CHILL then
      { g4 with g_self := { g4.g_self with has_chill := decide (e.is_buffremove = 0) } }
    else g4
  else g4

/-- The block of `on_combat` under `if (is_self)`, with the store to
`g_settings_dirty` that follows it: the subgroup is kept up to date, then the
pick mode block and the cooldown block run. -/
def on_self_event (g : EventGlobals) (e : CbtEvent) (src dst : Option Ag)
    (skillname : Option String) (now : ℚ) : EventGlobals :=
  let team_src : Nat := (src.map Ag.team).getD 0
  let team_dst : Nat := (dst.map Ag.team).getD 0
  let new_team : Nat := if team_src ≠ 0 then team_src else team_dst
  let g6 : EventGlobals :=
    if new_team ≠ 0 then { g with g_self := { g.g_self with subgroup := new_team } }
    else g
  let r : EventGlobals × Bool := on_pick g6 e skillname now
  let g8 : EventGlobals := on_activation r.1 e skillname now
  if r.2 then { g8 with g_settings_dirty := true } else g8

/-- `on_combat`, with the clock reading `now_s()` as `now` and the state change
code `CBTS_NONE` of `arcdps_structs.h` (not among the sources) as a parameter.
The parameters `id` and `rev` of the source are not read. -/
def on_combat (CBTS_NONE : Nat) (g : EventGlobals) (ev : Option CbtEvent)
    (src dst : Option Ag) (skillname : Option String) (now : ℚ) : EventGlobals :=
  match ev with
  | none =>
    if src.isNone ∧ dst.isNone then
      { g with
        g_in_map_change := true
        g_squad_accounts := ∅
        g_self_accountname := ""
        g_dead_accounts := ∅
        g_self := { g.g_self with has_alacrity := false, has_chill := false } }
    else
      match dst with
      | some d => if d.self ≠ 0 then on_agent_info g src d else g
      | none => g
  | some e =>
    let g5 : EventGlobals := on_event_state CBTS_NONE g e src dst
    let is_self : Bool := ag_is_self src || ag_is_self dst
    if is_self then on_self_event g5 e src dst skillname now else g5

/-! ## Vocabulary of the statements -/

/-- Normal mode: the fake cancel cooldown is off and a cast has been recorded. -/
def SlotTimer.inNormalMode (st : SlotTimer) : Prop :=
  st.cancel_active = false ∧ 0 ≤ st.last_cast_s

/-- Cancel mode: the fake cancel cooldown is on. -/
def SlotTimer.inCancelMode (st : SlotTimer) : Prop :=
  st.cancel_active = true

/-- The time `advance` measures from: `last_update_s`, or `last_cast_s` when
`last_update_s` is unset (negative). -/
def SlotTimer.updateOrigin (st : SlotTimer) : ℚ :=
  if st.last_update_s < 0 then st.last_cast_s else st.last_update_s

/-- State of a timer whose last event was a cast at `t0` and which has since
only been advanced without speed modifiers, under the fixed base `b`. -/
def SlotTimer.castInv (b t0 : ℚ) (st : SlotTimer) : Prop :=
  st.cancel_active = false ∧ st.last_cast_s = t0 ∧ st.base_cd = b ∧
  t0 ≤ st.last_update_s ∧ st.elapsed = min b (st.last_update_s - t0)

/-- A sample timer: skill 100 with base 20, 6 seconds into a cooldown cast at 0. -/
def sampleRunning : SlotTimer :=
  { skillid := 100, name := "Well", base_cd := 20, last_cast_s := 0, last_update_s := 6,
    elapsed := 6 }

/-- The ids that reconciliation appends to group `k`: the ids of the peers of
class `k`, in peer list order, that are not in `seen`, each once. -/
def newIds (k : Nat) : Finset String → List Peer → List String
  | _, [] => []
  | seen, p :: ps =>
    if p.prof = k ∧ p.id ∉ seen then p.id :: newIds k (insert p.id seen) ps
    else newIds k seen ps

/-- Sample globals: skill 100 was cast at time 0 and no base cooldown has been
stored on its timer yet; one peer `a` of class 1 is known. -/
def sampleGlobals : Globals :=
  { g_by_skill := fun k =>
      if k = 100 then some (({ skillid := 100 } : SlotTimer).on_cast 0) else none
    g_client_id := "me-1"
    g_peers := [{ id := "a", name := "Ann", prof := 1 }]
    g_group_order := fun k => if k = 1 then some ["a"] else none }

/-- Sample globals for reconciliation: peers `a`, `b`, `a` again (class 1) and
`c` (class 2); group 1 is ordered `z`, `b`, where `z` is no current peer. -/
def sampleSquad : Globals :=
  { g_peers := [{ id := "a", prof := 1 }, { id := "b", prof := 1 }, { id := "a", prof := 1 },
      { id := "c", prof := 2 }]
    g_group_order := fun k => if k = 1 then some ["z", "b"] else none }

/-- The string member `key` of an object, when it has one. -/
def stringField (kvs : List (String × Json)) (key : String) : Option String :=
  match kvs.lookup key with
  | some (.str s) => some s
  | _ => none

/-- The number member `key` of an object, when it has one. -/
def numberField (kvs : List (String × Json)) (key : String) : Option ℚ :=
  match kvs.lookup key with
  | some (.num q) => some q
  | _ => none

/-- A member that `value(key, 0u)` accepts: missing, a number or a boolean. -/
def okUnsigned (kvs : List (String × Json)) (key : String) : Bool :=
  match kvs.lookup key with
  | none => true
  | some (.num _) => true
  | some (.bool _) => true
  | some _ => false

/-- An entry the parser accepts: an object whose `ready` is missing or a boolean. -/
def okEntry : Json → Bool
  | .obj kvs =>
    match kvs.lookup "ready" with
    | none => true
    | some (.bool _) => true
    | some _ => false
  | _ => false

/-- A peer element the parser accepts: an object whose `prof` and `subgroup`
are missing, numbers or booleans and whose `entries`, when an array, holds
accepted entries. -/
def okPeer : Json → Bool
  | .obj kvs =>
    okUnsigned kvs "prof" && okUnsigned kvs "subgroup" &&
      (match kvs.lookup "entries" with
       | some (.arr es) => es.all okEntry
       | _ => true)
  | _ => false

/-- The entries of the injected local peer in the words of the specification:
one entry per given tracked entry, in order, with its label, `left` the result
of `compute_left_for` and `ready` when that result is within `[0, 0.5]` or the
timer table (`present`) has no entry for the skill. -/
def selfEntries (now : ℚ) (present : Nat → Bool) : Globals → List TrackedEntry → List PeerEntry
  | _, [] => []
  | g, e :: es =>
    { label := e.label
      ready := decide ((0 ≤ (compute_left_for g e.skillid e.base_cd now).1 ∧
        (compute_left_for g e.skillid e.base_cd now).1 ≤ 1 / 2) ∨ present e.skillid = false)
      left := (compute_left_for g e.skillid e.base_cd now).1 } ::
      selfEntries now present (compute_left_for g e.skillid e.base_cd now).2 es

/-- The conversion `std::stoul` on the keys used in the samples. -/
def sampleStoul (key : String) : Option Nat :=
  if key = "1" then some 1 else if key = "2" then some 2 else none

/-- A sample batch of three peer elements: `a` with only an id; one without an
id; `b` with a legacy `id`, a name that is not a string and one entry whose
`left` is not a number. -/
def sampleBatch : List Json :=
  [.obj [("clientId", .str "a")],
   .obj [("name", .str "Nobody"), ("prof", .num 3)],
   .obj [("id", .str "b"), ("name", .num 5), ("prof", .num 2),
         ("entries", .arr [.obj [("left", .str "soon")]])]]

/-- A sample batch whose first element has a `prof` of the wrong JSON type and
whose second element is well formed. -/
def sampleBadBatch : List Json :=
  [.obj [("clientId", .str "x"), ("prof", .str "guardian")],
   .obj [("clientId", .str "b"), ("prof", .num 1)]]

/-- A sample snapshot whose group order lists peer `a` twice in group 1. -/
def sampleDupSnapshot : Json :=
  .obj [("groupOrder", .obj [("1", .arr [.str "a", .str "a"])]),
        ("peers", .arr [.obj [("clientId", .str "a"), ("prof", .num 1)]])]

/-- A sample snapshot whose group order mentions group 2 only; its peers are
`a` and `b` of class 1 and `c` of class 2. -/
def sampleOrderSnapshot : Json :=
  .obj [("groupOrder", .obj [("2", .arr [.str "c"])]),
        ("peers", .arr [.obj [("clientId", .str "a"), ("prof", .num 1)],
                        .obj [("clientId", .str "b"), ("prof", .num 1)],
                        .obj [("clientId", .str "c"), ("prof", .num 2)]])]

/-- Sample globals of the local client `a`, who ordered group 1 as `b`, `a`. -/
def sampleLocal : Globals :=
  { g_client_id := "a"
    g_peers := [{ id := "a", name := "unknown", prof := 1 },
                { id := "b", name := "unknown", prof := 1 }]
    g_group_order := fun k => if k = 1 then some ["b", "a"] else none }

/-- The peer that `inject_self_if_missing_locked` builds for the local client. -/
def selfPeer (g : Globals) (now : ℚ) : Peer :=
  { id := g.g_client_id
    name :=
      if g.g_self_charname ≠ "" then g.g_self_charname
      else if g.g_assigned_name = "" then "me" else g.g_assigned_name
    prof := g.g_self_prof
    subgroup := g.g_self.subgroup
    entries := (inject_entries now g g.g_tracked).1 }

/-- The first occurrences of the ids of a sequence, in sequence order. -/
def keepFirst : List String → List String
  | [] => []
  | x :: xs => x :: (keepFirst xs).filter (fun i => decide (i ≠ x))

/-- The peers the loop over `order` in `draw_group_table` pushes, from the map
`m`: for each id found in the map its peer, the id being erased on the way. -/
def picks (m : AList (fun _ : String => Peer)) : List String → List Peer
  | [] => []
  | id :: rest =>
    match m.lookup id with
    | some p => p :: picks (m.erase id) rest
    | none => picks m rest

/-- The sort key of the comparator of `draw_group_table`: the name, or the id
when the name is empty, then the id, compared in this order. -/
def displayKey (p : Peer) : Lex (String × String) :=
  toLex (if p.name = "" then p.id else p.name, p.id)

/-- The peers of class `prof` in a snapshot, in snapshot order. -/
def groupPeers (prof : Nat) (peers_snapshot : List Peer) : List Peer :=
  peers_snapshot.filter (fun p => decide (p.prof = prof))

/-- The map `by_id` that `draw_group_table` builds from the peers of a group. -/
def byIdOf (peers : List Peer) : AList (fun _ : String => Peer) :=
  peers.foldl (fun m p => m.insert p.id p) ∅

/-- The map `by_id` after the loop over `order`: every id of `order` is erased. -/
def eraseAll (m : AList (fun _ : String => Peer)) (order : List String) :
    AList (fun _ : String => Peer) :=
  order.foldl (fun m id => m.erase id) m

/-- What `compute_left_for` does with a timer it found, given the resolved
base `b`: the returned value and the timer afterwards. -/
def timerQuery (now : ℚ) (a c : Bool) (st : SlotTimer) (b : ℚ) : ℚ × SlotTimer :=
  if st.cancel_active then st.predict_left now false false
  else if b ≤ 0 then (-1, st)
  else ({ st with base_cd := b } : SlotTimer).predict_left now a c

/-- A timer on which `advance` at time `now` accrues nothing, whatever the base. -/
def SlotTimer.settled (now : ℚ) (st : SlotTimer) : Prop :=
  st.cancel_active = true ∨ st.last_cast_s < 0 ∨ now ≤ st.updateOrigin

/-- Two timers that agree on all that a query reads, the base apart. -/
def SlotTimer.sim (st st' : SlotTimer) : Prop :=
  st.cancel_active = st'.cancel_active ∧ st.cancel_start_s = st'.cancel_start_s ∧
  st.last_cast_s = st'.last_cast_s ∧ st.elapsed = st'.elapsed ∧
  st.updateOrigin = st'.updateOrigin

/-- The relation `sim` on table entries: both absent, or both present and `sim`. -/
def simO : Option SlotTimer → Option SlotTimer → Prop
  | none, none => True
  | some st, some st' => st.sim st'
  | _, _ => False

/-- The value a query at `now` with resolved base `b` reads off a timer on
which `advance` accrues nothing. -/
def settledValue (now : ℚ) (st : SlotTimer) (b : ℚ) : ℚ :=
  if st.cancel_active then
    if st.cancel_start_s < 0 then 0
    else if now - st.cancel_start_s ≥ CANCEL_COOLDOWN then 0
    else if CANCEL_COOLDOWN - (now - st.cancel_start_s) < 0 then 0
    else CANCEL_COOLDOWN - (now - st.cancel_start_s)
  else if b ≤ 0 then -1
  else if st.last_cast_s < 0 then -1
  else if b - st.elapsed ≤ 0 then 0
  else if b - st.elapsed - NET_OFFSET < 0 then 0 else b - st.elapsed - NET_OFFSET

/-- What a pass of queries at `now` keeps of a table entry: its presence, its
mode, and all that a query reads once the timer is settled. -/
def keeps (now : ℚ) : Option SlotTimer → Option SlotTimer → Prop
  | none, none => True
  | some st, some st' =>
    st.cancel_active = st'.cancel_active ∧ (st.settled now → st.sim st')
  | _, _ => False

/-- The group order that reconciliation with the peer list `peers` makes of
the group order `o`, group by group. -/
def ensureOrder (peers : List Peer) (o : Nat → Option (List String)) :
    Nat → Option (List String) :=
  fun k =>
    if o k = none ∧ ∀ p ∈ peers, p.prof ≠ k then none
    else some (((o k).getD [] ++ newIds k ((o k).getD []).toFinset peers).filter
      (fun id => decide (id ∈ peers.map Peer.id)))

/-- A group order that reconciliation with `peers` leaves as it is: every
class of a peer has a group, and a group holds ids of peers only, among them
the ids of all peers of its class. -/
def stableFor (peers : List Peer) (o : Nat → Option (List String)) : Prop :=
  ∀ k, (o k = none → ∀ p ∈ peers, p.prof ≠ k) ∧
    ∀ l, o k = some l → (∀ i ∈ l, i ∈ peers.map Peer.id) ∧
      ∀ p ∈ peers, p.prof = k → p.id ∈ l

/-- Two states with the same configuration: all that the merge reads apart from
the peer list, the group order, the timer table and the pending set. -/
def sameConfig (g g' : Globals) : Prop :=
  g'.g_self = g.g_self ∧ g'.g_api_cd_cache = g.g_api_cd_cache ∧
  g'.g_tracked = g.g_tracked ∧ g'.g_client_id = g.g_client_id ∧
  g'.g_assigned_name = g.g_assigned_name ∧ g'.g_self_charname = g.g_self_charname ∧
  g'.g_self_prof = g.g_self_prof ∧ g'.g_room = g.g_room

/-- Sample globals with two tracked skills: 100, whose timer was cast at time
0, with manual base 20, and 7, which has no timer. -/
def sampleTracking : Globals :=
  { sampleGlobals with
    g_tracked := [{ skillid := 100, base_cd := 20, label := "Well" },
                  { skillid := 7, label := "Heal" }] }

/-- One thing the program does to the timer of a skill: a call of a member
function of `SlotTimer`, the assignment of `skillid` and `name` that
`on_combat` makes before `on_cast` and `start_cancel_cd`, or a call of
`compute_left_for` that finds the timer, with the value `base` resolved by
`get_base_cd_for_skill` and the flags of `g_self`. -/
inductive TimerCall where
  | assign_name (skillid : Nat) (name : String)
  | on_cast (t : ℚ)
  | start_cancel_cd (t : ℚ)
  | advance (t : ℚ) (has_alac has_chill : Bool)
  | predict_left (t : ℚ) (has_alac has_chill : Bool)
  | compute_left_for (base now : ℚ) (has_alac has_chill : Bool)
deriving DecidableEq

/-- Timestamp passed to the call (0 for the assignment, which takes none). -/
def TimerCall.time : TimerCall → ℚ
  | .assign_name _ _ => 0
  | .on_cast t => t
  | .start_cancel_cd t => t
  | .advance t _ _ => t
  | .predict_left t _ _ => t
  | .compute_left_for _ now _ _ => now

/-- The timer after the call (returned values are dropped). -/
def TimerCall.run (st : SlotTimer) : TimerCall → SlotTimer
  | .assign_name sid nm => { st with skillid := sid, name := nm }
  | .on_cast t => st.on_cast t
  | .start_cancel_cd t => st.start_cancel_cd t
  | .advance t a c => st.advance t a c
  | .predict_left t a c => (st.predict_left t a c).2
  | .compute_left_for b now a c => (timerQuery now a c st b).2

/-- Whether the call is `on_cast` or `start_cancel_cd`. -/
def TimerCall.isCastOrCancel : TimerCall → Bool
  | .on_cast _ => true
  | .start_cancel_cd _ => true
  | _ => false

/-- The timer after a sequence of calls, made in list order. -/
def runCalls (st : SlotTimer) (calls : List TimerCall) : SlotTimer :=
  calls.foldl TimerCall.run st

/-- A timer state the program can reach with timestamps that are not negative:
the state after some sequence of such calls on a fresh timer (the value
initialised timer that `g_by_skill[sid]` creates). -/
def SlotTimer.Reachable (st : SlotTimer) : Prop :=
  ∃ calls : List TimerCall, (∀ call ∈ calls, 0 ≤ call.time) ∧ runCalls {} calls = st

/-- The condition of the branch of `predict_left` marked as one that should not
happen: cancel mode with an unset start of the fake cooldown. -/
def SlotTimer.unsetCancelBranch (st : SlotTimer) : Prop :=
  st.cancel_active = true ∧ st.cancel_start_s < 0

/-- A call of `compute_left_for` that stores a base below the `elapsed` of the
timer it is made on. -/
def TimerCall.storesBelowElapsed (st : SlotTimer) : TimerCall → Prop
  | .compute_left_for b _ _ _ => st.cancel_active = false ∧ 0 < b ∧ b < st.elapsed
  | _ => False

/-- A sequence of calls, made on `st` in list order, none of which stores a
base below the `elapsed` the timer has at that call. -/
def baseKept : SlotTimer → List TimerCall → Prop
  | _, [] => True
  | st, call :: rest => ¬ call.storesBelowElapsed st ∧ baseKept (call.run st) rest

/-- The calls of two table rows of skill 100 with manual bases 20 and 5, after
a cast at time 0: the first row is drawn at time 10 and the second at 11. -/
def sampleTwoRows : List TimerCall :=
  [.assign_name 100 "Well", .on_cast 0, .compute_left_for 20 10 false false,
   .compute_left_for 5 11 false false]

/-- The calls of one table row of skill 100 with manual base 20, after a cast
at time 0, drawn at times 10 and 11. -/
def sampleOneRow : List TimerCall :=
  [.assign_name 100 "Well", .on_cast 0, .compute_left_for 20 10 false false,
   .compute_left_for 20 11 false false]

/-- What every reachable timer state satisfies: cancel mode is on exactly when
the start of the fake cooldown is set, cancel mode resets `elapsed`,
`last_cast_s` and `last_update_s`, and a recorded cast has a recorded update. -/
def SlotTimer.wellFormed (st : SlotTimer) : Prop :=
  (st.cancel_active = true ↔ 0 ≤ st.cancel_start_s) ∧
  (st.cancel_active = true →
    st.elapsed = 0 ∧ st.last_cast_s = -1 ∧ st.last_update_s = -1) ∧
  (0 ≤ st.last_cast_s → 0 ≤ st.last_update_s)

/-- Sample globals with alacrity on, whose timer of the hard override skill
62965 is in cancel mode since time 5 and whose cache holds 30 for that skill. -/
def sampleCancelled : Globals :=
  { g_self := { has_alacrity := true }
    g_by_skill := fun k =>
      if k = 62965 then some (({ skillid := 62965 } : SlotTimer).start_cancel_cd 5) else none
    g_api_cd_cache := fun k => if k = 62965 then some 30 else none }

/-- The sequence the specification gives group `k` after reconciliation: the
ids of the old sequence that are the id of a current peer, in their old order,
then the ids of the current peers of class `k` that the old sequence lacks,
each once (at its first occurrence), in peer list order. -/
def specGroupSequence (peers : List Peer) (old : List String) (k : Nat) : List String :=
  old.filter (fun id => decide (id ∈ peers.map Peer.id)) ++
    keepFirst (((groupPeers k peers).map Peer.id).filter (fun id => decide (id ∉ old)))

/-- The timer `on_combat` makes its call on: the timer of the skill in the
table, or a fresh one when the table has none, with `skillid` and `name`
assigned. -/
def eventTimer (g : EventGlobals) (sid : Nat) (skillname : Option String) : SlotTimer :=
  { (g.g_by_skill sid).getD {} with skillid := sid, name := skill_label skillname sid }

/-- The local actor as an agent information event describes it: in-session id
7, class 2, subgroup 3, account name `Acc.1234`. -/
def sampleSelfAgent : Ag :=
  { name := some "Acc.1234", id := 7, prof := 2, self := 1, team := 3 }

/-- Sample globals of the event handler: skill 100 was cast at time 0, skill 7
has no timer, alacrity and chill are both on and the account `Dead.5678` is in
the set of dead accounts. -/
def sampleEventGlobals : EventGlobals :=
  { g_self := { has_alacrity := true, has_chill := true }
    g_by_skill := fun k =>
      if k = 100 then some (({ skillid := 100 } : SlotTimer).on_cast 0) else none
    g_dead_accounts := {"Dead.5678"} }

/-- Speed factor named by the specification for each pair of flags. -/
def specSpeed : Bool → Bool → ℚ
  | false, false => 1
  | true, false => 5 / 4
  | false, true => 3 / 5
  | true, true => 3 / 4

/-! ## Helper lemmas on SlotTimer -/

theorem specSpeed_pos (a c : Bool) : 0 < specSpeed a c := by
  cases a <;> cases c <;> norm_num [specSpeed]

theorem advance_of_cancel (st : SlotTimer) (t : ℚ) (a c : Bool)
    (h : st.cancel_active = true) : st.advance t a c = st := by
  simp [SlotTimer.advance, h]

theorem predict_left_of_cancel (st : SlotTimer) (t : ℚ) (a c : Bool)
    (h : st.cancel_active = true) (h0 : 0 ≤ st.cancel_start_s) :
    st.predict_left t a c = (max 0 (CANCEL_COOLDOWN - (t - st.cancel_start_s)), st) := by
  have h1 : ¬ st.cancel_start_s < 0 := not_lt.mpr h0
  simp only [SlotTimer.predict_left, h, if_true, h1, if_false]
  by_cases hd : t - st.cancel_start_s ≥ CANCEL_COOLDOWN
  · rw [if_pos hd, max_eq_left (by linarith)]
  · rw [if_neg hd]
    have h2 : ¬ CANCEL_COOLDOWN - (t - st.cancel_start_s) < 0 := by
      push_neg at hd ⊢; linarith
    rw [if_neg h2, max_eq_right (by push_neg at h2; exact h2)]

theorem predict_left_snd_of_cancel (st : SlotTimer) (t : ℚ) (a c : Bool)
    (h : st.cancel_active = true) : (st.predict_left t a c).2 = st := by
  simp only [SlotTimer.predict_left, h, if_true]
  split_ifs <;> rfl

theorem predict_left_snd_of_not_cancel (st : SlotTimer) (t : ℚ) (a c : Bool)
    (h : st.cancel_active = false) : (st.predict_left t a c).2 = st.advance t a c := by
  simp only [SlotTimer.predict_left, h]
  split_ifs <;> simp_all

/-- The speed computed by `advance` is the factor named by the specification. -/
theorem speed_eq_specSpeed (a c : Bool) :
    (if c = true then (if a = true then (1 : ℚ) * (5 / 4) else 1) * (3 / 5)
      else (if a = true then (1 : ℚ) * (5 / 4) else 1)) = specSpeed a c := by
  cases a <;> cases c <;> norm_num [specSpeed]

/-- The clamp of `advance` is a minimum. -/
theorem clamp_eq_min (e b : ℚ) : (if e > b then b else e) = min b e := by
  rw [min_def]
  by_cases h : e > b
  · rw [if_pos h, if_pos (le_of_lt h)]
  · rw [if_neg h]
    rcases eq_or_lt_of_le (not_lt.mp h) with heq | hlt
    · rw [if_pos (le_of_eq heq.symm)]; exact heq
    · rw [if_neg (not_le.mpr hlt)]

/-- Closed form of `advance` in every mode. -/
theorem advance_eq (st : SlotTimer) (t : ℚ) (a c : Bool) :
    st.advance t a c =
      if st.cancel_active = true ∨ st.last_cast_s < 0 ∨ st.base_cd ≤ 0 then st
      else if t ≤ st.updateOrigin then { st with last_update_s := st.updateOrigin }
      else
        { st with
          elapsed := min st.base_cd (st.elapsed + (t - st.updateOrigin) * specSpeed a c)
          last_update_s := t } := by
  obtain ⟨sid, nm, b, lc, lu, e, ca, cs⟩ := st
  simp only [SlotTimer.advance, SlotTimer.updateOrigin, sub_nonpos, speed_eq_specSpeed,
    clamp_eq_min]
  cases ca
  · by_cases h1 : lc < 0 ∨ b ≤ 0
    · simp [h1]
    · simp only [h1, if_false, Bool.false_eq_true, false_or]
      by_cases h2 : lu < 0
      · simp only [h2, if_true]
      · simp only [h2, if_false]
  · simp

/-- Closed form of `advance` on a running normal cooldown. -/
theorem advance_running (st : SlotTimer) (t : ℚ) (a c : Bool)
    (hc : st.cancel_active = false) (hl : 0 ≤ st.last_cast_s)
    (hu : 0 ≤ st.last_update_s) (hb : 0 < st.base_cd) :
    st.advance t a c =
      if t ≤ st.last_update_s then st
      else { st with
             elapsed := min st.base_cd (st.elapsed + (t - st.last_update_s) * specSpeed a c)
             last_update_s := t } := by
  have h1 : ¬ (st.cancel_active = true ∨ st.last_cast_s < 0 ∨ st.base_cd ≤ 0) := by
    rw [hc]; push_neg; exact ⟨by simp, hl, hb⟩
  have h2 : st.updateOrigin = st.last_update_s := by
    simp [SlotTimer.updateOrigin, not_lt.mpr hu]
  rw [advance_eq, h2]
  simp only [h1, if_false]

/-- One `advance` call, in any mode: the base, the mode and the cast time are
kept, and if `elapsed` was at most the base it grows and stays at most the base. -/
theorem advance_step_bounds (st : SlotTimer) (t : ℚ) (a c : Bool)
    (he : st.elapsed ≤ st.base_cd) :
    (st.advance t a c).base_cd = st.base_cd ∧
    (st.advance t a c).cancel_active = st.cancel_active ∧
    (st.advance t a c).last_cast_s = st.last_cast_s ∧
    st.elapsed ≤ (st.advance t a c).elapsed ∧
    (st.advance t a c).elapsed ≤ st.base_cd := by
  rw [advance_eq]
  split_ifs with h1 h2
  · exact ⟨rfl, rfl, rfl, le_refl _, he⟩
  · exact ⟨rfl, rfl, rfl, le_refl _, he⟩
  · refine ⟨rfl, rfl, rfl, ?_, min_le_left _ _⟩
    have hs := specSpeed_pos a c
    push_neg at h2
    exact le_min he (by nlinarith [mul_pos (sub_pos.mpr h2) hs])

/-- A sequence of `advance` calls keeps the base and keeps `elapsed` at most the base. -/
theorem advanceSeq_bounds (calls : List (ℚ × Bool × Bool)) (st : SlotTimer)
    (he : st.elapsed ≤ st.base_cd) :
    (advanceSeq st calls).base_cd = st.base_cd ∧
    (advanceSeq st calls).elapsed ≤ st.base_cd := by
  induction calls generalizing st with
  | nil => exact ⟨rfl, he⟩
  | cons x xs ih =>
    obtain ⟨hb, -, -, -, h5⟩ := advance_step_bounds st x.1 x.2.1 x.2.2 he
    have := ih (st.advance x.1 x.2.1 x.2.2) (by rw [hb]; exact h5)
    simp only [advanceSeq, List.foldl_cons] at this ⊢
    rw [hb] at this
    exact this

theorem advanceSeq_append (st : SlotTimer) (xs ys : List (ℚ × Bool × Bool)) :
    advanceSeq st (xs ++ ys) = advanceSeq (advanceSeq st xs) ys := by
  simp [advanceSeq, List.foldl_append]

/-- With a positive base, `advance` keeps `elapsed` non-negative. -/
theorem advance_elapsed_nonneg (st : SlotTimer) (t : ℚ) (a c : Bool)
    (hb : 0 < st.base_cd) (he : 0 ≤ st.elapsed) :
    0 ≤ (st.advance t a c).elapsed ∧ (st.advance t a c).base_cd = st.base_cd ∧
    (st.advance t a c).last_cast_s = st.last_cast_s := by
  rw [advance_eq]
  split_ifs with h1 h2
  · exact ⟨he, rfl, rfl⟩
  · exact ⟨he, rfl, rfl⟩
  · refine ⟨?_, rfl, rfl⟩
    have hs := specSpeed_pos a c
    push_neg at h2
    exact le_min (le_of_lt hb) (by nlinarith [mul_pos (sub_pos.mpr h2) hs])

/-- Value returned by `predict_left` on the normal path, in terms of the
timer left by `advance`. -/
theorem predict_left_fst_running (st : SlotTimer) (t : ℚ) (a c : Bool)
    (hc : st.cancel_active = false)
    (hl : 0 ≤ (st.advance t a c).last_cast_s) (hb : 0 < (st.advance t a c).base_cd) :
    (st.predict_left t a c).1 =
      if (st.advance t a c).base_cd - (st.advance t a c).elapsed ≤ 0 then 0
      else max 0 ((st.advance t a c).base_cd - (st.advance t a c).elapsed - NET_OFFSET) := by
  have h1 : ¬ ((st.advance t a c).last_cast_s < 0 ∨ (st.advance t a c).base_cd ≤ 0) := by
    push_neg; exact ⟨hl, hb⟩
  simp only [SlotTimer.predict_left, hc, h1, if_false, Bool.false_eq_true]
  split_ifs with h2 h3
  · rfl
  · exact (max_eq_left (le_of_lt h3)).symm
  · exact (max_eq_right (not_lt.mp h3)).symm

/-- Calls made on a timer in cancel mode leave it as it is. -/
theorem runOps_of_cancel (ops : List TimerOp) (st : SlotTimer)
    (h : st.cancel_active = true) : runOps st ops = st := by
  induction ops with
  | nil => rfl
  | cons op ops ih =>
    have h1 : TimerOp.run st op = st := by
      cases op with
      | advance t a c => exact advance_of_cancel st t a c h
      | predict_left t a c => exact predict_left_snd_of_cancel st t a c h
    simp only [runOps, List.foldl_cons, h1] at ih ⊢
    exact ih

/-- An unmodified `advance` at a time not before the cast keeps `castInv` and
moves `last_update_s` to the later of the two times. -/
theorem castInv_advance (b t0 u : ℚ) (st : SlotTimer) (hb : 0 < b) (ht0 : 0 ≤ t0)
    (hu : t0 ≤ u) (h : st.castInv b t0) :
    (st.advance u false false).castInv b t0 ∧
    (st.advance u false false).last_update_s = max st.last_update_s u := by
  obtain ⟨hc, hl, hbase, hlu, hel⟩ := h
  rw [advance_running st u false false hc (by rw [hl]; exact ht0) (le_trans ht0 hlu)
    (by rw [hbase]; exact hb)]
  by_cases h1 : u ≤ st.last_update_s
  · rw [if_pos h1]
    exact ⟨⟨hc, hl, hbase, hlu, hel⟩, (max_eq_left h1).symm⟩
  · rw [if_neg h1]
    push_neg at h1
    refine ⟨⟨hc, hl, hbase, hu, ?_⟩, (max_eq_right (le_of_lt h1)).symm⟩
    show min st.base_cd (st.elapsed + (u - st.last_update_s) * specSpeed false false)
      = min b (u - t0)
    rw [hbase, hel]
    simp only [specSpeed, mul_one]
    rcases le_total b (st.last_update_s - t0) with h2 | h2
    · rw [min_eq_left h2, min_eq_left (by linarith), min_eq_left (by linarith)]
    · rw [min_eq_right h2]
      congr 1
      ring

/-- One unmodified call at a time in `[t0, t]` keeps `castInv` and keeps
`last_update_s` at most `t`. -/
theorem castInv_run (b t0 t : ℚ) (st : SlotTimer) (op : TimerOp) (hb : 0 < b)
    (ht0 : 0 ≤ t0) (hop : op.noModifier = true ∧ t0 ≤ op.time ∧ op.time ≤ t)
    (h : st.castInv b t0) (hle : st.last_update_s ≤ t) :
    (TimerOp.run st op).castInv b t0 ∧ (TimerOp.run st op).last_update_s ≤ t := by
  obtain ⟨hno, h1, h2⟩ := hop
  cases op with
  | advance u a c =>
    simp only [TimerOp.noModifier, Bool.and_eq_true, Bool.not_eq_true'] at hno
    obtain ⟨rfl, rfl⟩ := hno
    obtain ⟨hi, hlu⟩ := castInv_advance b t0 u st hb ht0 h1 h
    exact ⟨hi, by rw [TimerOp.run, hlu]; exact max_le hle h2⟩
  | predict_left u a c =>
    simp only [TimerOp.noModifier, Bool.and_eq_true, Bool.not_eq_true'] at hno
    obtain ⟨rfl, rfl⟩ := hno
    obtain ⟨hi, hlu⟩ := castInv_advance b t0 u st hb ht0 h1 h
    simp only [TimerOp.run, predict_left_snd_of_not_cancel st u false false h.1]
    exact ⟨hi, by rw [hlu]; exact max_le hle h2⟩

/-- Any sequence of unmodified calls at times in `[t0, t]` keeps `castInv`. -/
theorem castInv_runOps (b t0 t : ℚ) (ops : List TimerOp) (st : SlotTimer) (hb : 0 < b)
    (ht0 : 0 ≤ t0) (hops : ∀ op ∈ ops, op.noModifier = true ∧ t0 ≤ op.time ∧ op.time ≤ t)
    (h : st.castInv b t0) (hle : st.last_update_s ≤ t) :
    (runOps st ops).castInv b t0 ∧ (runOps st ops).last_update_s ≤ t := by
  induction ops generalizing st with
  | nil => exact ⟨h, hle⟩
  | cons op ops ih =>
    obtain ⟨h1, h2⟩ := castInv_run b t0 t st op hb ht0 (hops op (List.mem_cons_self _ _)) h hle
    exact ih (TimerOp.run st op) (fun o ho => hops o (List.mem_cons_of_mem _ ho)) h1 h2

/-- Value predicted at `t` from a `castInv` state whose last update is not after `t`. -/
theorem castInv_predict (b t0 t : ℚ) (st : SlotTimer) (hb : 0 < b) (ht0 : 0 ≤ t0)
    (ht : t0 ≤ t) (h : st.castInv b t0) (hle : st.last_update_s ≤ t) :
    (st.predict_left t false false).1 = max 0 (b - (t - t0) - NET_OFFSET) := by
  obtain ⟨⟨hc, hl, hbase, hlu, hel⟩, hmax⟩ := castInv_advance b t0 t st hb ht0 ht h
  rw [max_eq_right hle] at hmax
  rw [predict_left_fst_running st t false false h.1 (by rw [hl]; exact ht0)
    (by rw [hbase]; exact hb), hbase, hel, hmax]
  have hN : (0 : ℚ) < NET_OFFSET := by norm_num [NET_OFFSET]
  rcases le_total b (t - t0) with h2 | h2
  · rw [min_eq_left h2, if_pos (by linarith), max_eq_left (by linarith)]
  · rw [min_eq_right h2]
    by_cases h3 : b - (t - t0) ≤ 0
    · rw [if_pos h3, max_eq_left (by linarith)]
    · rw [if_neg h3]

/-! ## Helper lemmas on the resolver -/

/-- A skill id that is none of the three table keys has no hard override. -/
theorem lookup_hard_override_none (sid : Nat)
    (hs : sid ∉ g_hard_override_cd.map Prod.fst) : g_hard_override_cd.lookup sid = none := by
  simp only [g_hard_override_cd, List.map_cons, List.map_nil, List.mem_cons,
    List.mem_singleton, List.not_mem_nil, or_false, not_or] at hs
  obtain ⟨h1, h2, h3⟩ := hs
  have e1 : (sid == 12569) = false := by simpa using h1
  have e2 : (sid == 62965) = false := by simpa using h2
  have e3 : (sid == 10545) = false := by simpa using h3
  simp only [g_hard_override_cd, List.lookup, e1, e2, e3]

/-- The table maps each of its keys to the value listed with it. -/
theorem lookup_hard_override_some (sid : Nat) (v : ℚ)
    (h : (sid, v) ∈ g_hard_override_cd) : g_hard_override_cd.lookup sid = some v := by
  simp only [g_hard_override_cd, List.mem_cons, Prod.mk.injEq, List.mem_singleton,
    List.not_mem_nil, or_false] at h
  rcases h with ⟨rfl, rfl⟩ | ⟨rfl, rfl⟩ | ⟨rfl, rfl⟩ <;>
    simp [g_hard_override_cd, List.lookup]

/-! ## SlotTimer: the claims -/

/-- Claim C1.  After `on_cast` at a time `t0 ≥ 0` on any timer whose base
cooldown is `b > 0`, and after any sequence of `advance` and `predict_left`
calls made without speed modifiers at times between `t0` and `t`,
`predict_left` at `t ≥ t0` without modifiers returns
`max 0 (b - (t - t0) - 3.5)`. -/
theorem predict_left_after_cast (st : SlotTimer) (t0 t : ℚ) (ops : List TimerOp)
    (hb : 0 < st.base_cd) (ht0 : 0 ≤ t0) (ht : t0 ≤ t)
    (hops : ∀ op ∈ ops, op.noModifier = true ∧ t0 ≤ op.time ∧ op.time ≤ t) :
    ((runOps (st.on_cast t0) ops).predict_left t false false).1 =
      max 0 (st.base_cd - (t - t0) - 7 / 2) := by
  have hinit : (st.on_cast t0).castInv st.base_cd t0 := by
    refine ⟨rfl, rfl, rfl, le_refl _, ?_⟩
    show (0 : ℚ) = min st.base_cd (t0 - t0)
    rw [sub_self, min_eq_right (le_of_lt hb)]
  obtain ⟨h1, h2⟩ := castInv_runOps st.base_cd t0 t ops (st.on_cast t0) hb ht0 hops hinit ht
  have h3 := castInv_predict st.base_cd t0 t _ hb ht0 ht h1 h2
  rw [h3, NET_OFFSET]

/-- The scenario of claim C1: base 20, cast at 0, gives 1.5 at 15 (after an
`advance` at 5 and a `predict_left` at 10) and 0 at 17. -/
theorem predict_left_after_cast_witness :
    ((runOps (({ base_cd := 20 } : SlotTimer).on_cast 0)
        [TimerOp.advance 5 false false, TimerOp.predict_left 10 false false]).predict_left
          15 false false).1 = 3 / 2 ∧
    ((runOps (({ base_cd := 20 } : SlotTimer).on_cast 0) []).predict_left
          17 false false).1 = 0 := by
  constructor
  · rw [predict_left_after_cast { base_cd := 20 } 0 15
      [TimerOp.advance 5 false false, TimerOp.predict_left 10 false false]
      (by norm_num) (by norm_num) (by norm_num)
      (by
        intro op hop
        simp only [List.mem_cons, List.mem_singleton, List.not_mem_nil, or_false] at hop
        rcases hop with rfl | rfl <;> norm_num [TimerOp.noModifier, TimerOp.time])]
    norm_num
  · rw [predict_left_after_cast { base_cd := 20 } 0 17 [] (by norm_num) (by norm_num)
      (by norm_num) (by simp)]
    norm_num

/-- Counterexample to claim C2 as stated: a timer cast at 0 with base 2 is in
normal mode with a positive base and `elapsed = 0`, and `predict_left` at 1
returns 0, which exceeds `base - 3.5 = -1.5`. -/
theorem predict_left_exceeds_base_minus_offset :
    (({ base_cd := 2 } : SlotTimer).on_cast 0).inNormalMode ∧
    0 < (({ base_cd := 2 } : SlotTimer).on_cast 0).base_cd ∧
    0 ≤ (({ base_cd := 2 } : SlotTimer).on_cast 0).elapsed ∧
    ((({ base_cd := 2 } : SlotTimer).on_cast 0).predict_left 1 false false).1 = 0 ∧
    ¬ ((({ base_cd := 2 } : SlotTimer).on_cast 0).predict_left 1 false false).1 ≤
        (({ base_cd := 2 } : SlotTimer).on_cast 0).base_cd - 7 / 2 := by
  have hv : ((({ base_cd := 2 } : SlotTimer).on_cast 0).predict_left 1 false false).1 = 0 := by
    simp [SlotTimer.on_cast, SlotTimer.predict_left, SlotTimer.advance, NET_OFFSET]
    norm_num
  refine ⟨⟨rfl, ?_⟩, ?_, ?_, hv, ?_⟩
  · simp [SlotTimer.on_cast]
  · simp [SlotTimer.on_cast]
  · simp [SlotTimer.on_cast]
  · rw [hv]
    simp [SlotTimer.on_cast]
    norm_num

/-- Claim C2, amended.  For every timer in normal mode with base `b > 0` and
`0 ≤ elapsed`, every time and every flag pair, the value returned by
`predict_left` is never negative and never exceeds `max 0 (b - 3.5)`; so it
never exceeds `b - 3.5` whenever `b ≥ 3.5`. -/
theorem predict_left_normal_range (st : SlotTimer) (t : ℚ) (a c : Bool)
    (hn : st.inNormalMode) (hb : 0 < st.base_cd) (he : 0 ≤ st.elapsed) :
    0 ≤ (st.predict_left t a c).1 ∧
    (st.predict_left t a c).1 ≤ max 0 (st.base_cd - 7 / 2) ∧
    (7 / 2 ≤ st.base_cd → (st.predict_left t a c).1 ≤ st.base_cd - 7 / 2) := by
  obtain ⟨hc, hl⟩ := hn
  obtain ⟨h1, h2, h3⟩ := advance_elapsed_nonneg st t a c hb he
  have hval := predict_left_fst_running st t a c hc (by rw [h3]; exact hl)
    (by rw [h2]; exact hb)
  rw [h2, NET_OFFSET] at hval
  have hrange : 0 ≤ (st.predict_left t a c).1 ∧
      (st.predict_left t a c).1 ≤ max 0 (st.base_cd - 7 / 2) := by
    rw [hval]
    split_ifs with h4
    · exact ⟨le_refl _, le_max_left _ _⟩
    · exact ⟨le_max_left _ _, max_le_max (le_refl _) (by linarith)⟩
  refine ⟨hrange.1, hrange.2, fun h5 => ?_⟩
  have := hrange.2
  rwa [max_eq_right (by linarith)] at this

/-- The amended bound of claim C2 on a timer cast at 0 with base 20, asked at 15
with alacrity on. -/
theorem predict_left_normal_range_witness :
    0 ≤ ((({ base_cd := 20 } : SlotTimer).on_cast 0).predict_left 15 true false).1 ∧
    ((({ base_cd := 20 } : SlotTimer).on_cast 0).predict_left 15 true false).1 ≤
      max 0 ((({ base_cd := 20 } : SlotTimer).on_cast 0).base_cd - 7 / 2) ∧
    (7 / 2 ≤ (({ base_cd := 20 } : SlotTimer).on_cast 0).base_cd →
      ((({ base_cd := 20 } : SlotTimer).on_cast 0).predict_left 15 true false).1 ≤
        (({ base_cd := 20 } : SlotTimer).on_cast 0).base_cd - 7 / 2) :=
  predict_left_normal_range (({ base_cd := 20 } : SlotTimer).on_cast 0) 15 true false
    ⟨rfl, by simp [SlotTimer.on_cast]⟩ (by simp [SlotTimer.on_cast])
    (by simp [SlotTimer.on_cast])

/-- Claim C3.  From any timer state, after `start_cancel_cd` at `t0 ≥ 0` and
any further `advance` / `predict_left` calls, the timer is still the one
`start_cancel_cd` produced (in cancel mode), and `predict_left` at `t ≥ t0`
returns `max 0 (1.5 - (t - t0))` for every flag pair and leaves the timer
unchanged: 1.5 at `t0`, and 0 from `t0 + 1.5` on. -/
theorem predict_left_after_cancel (st : SlotTimer) (t0 t : ℚ) (a c : Bool)
    (ops : List TimerOp) (ht0 : 0 ≤ t0) (_ht : t0 ≤ t) :
    (st.start_cancel_cd t0).inCancelMode ∧
    runOps (st.start_cancel_cd t0) ops = st.start_cancel_cd t0 ∧
    (runOps (st.start_cancel_cd t0) ops).predict_left t a c =
      (max 0 (3 / 2 - (t - t0)), st.start_cancel_cd t0) ∧
    ((st.start_cancel_cd t0).predict_left t0 a c).1 = 3 / 2 ∧
    (t0 + 3 / 2 ≤ t → ((runOps (st.start_cancel_cd t0) ops).predict_left t a c).1 = 0) := by
  have hrun := runOps_of_cancel ops (st.start_cancel_cd t0) rfl
  have hp : ∀ u : ℚ, (st.start_cancel_cd t0).predict_left u a c =
      (max 0 (3 / 2 - (u - t0)), st.start_cancel_cd t0) := by
    intro u
    have := predict_left_of_cancel (st.start_cancel_cd t0) u a c rfl ht0
    rw [CANCEL_COOLDOWN] at this
    exact this
  refine ⟨rfl, hrun, ?_, ?_, ?_⟩
  · rw [hrun]; exact hp t
  · rw [hp t0, sub_self, sub_zero]
    exact max_eq_right (by norm_num)
  · intro h
    rw [hrun, hp t]
    exact max_eq_left (by linarith)

/-- The scenario of claim C3: a cancel at 5 gives 0.5 at 6 and 0 at 7, also
after intermediate calls with speed flags set. -/
theorem predict_left_after_cancel_witness :
    ((runOps (({ base_cd := 20 } : SlotTimer).start_cancel_cd 5)
        [TimerOp.advance (11 / 2) true false]).predict_left 6 true true).1 = 1 / 2 ∧
    ((runOps (({ base_cd := 20 } : SlotTimer).start_cancel_cd 5)
        [TimerOp.predict_left 6 false true]).predict_left 7 false false).1 = 0 := by
  constructor
  · rw [(predict_left_after_cancel { base_cd := 20 } 5 6 true true
      [TimerOp.advance (11 / 2) true false] (by norm_num) (by norm_num)).2.2.1]
    norm_num
  · exact (predict_left_after_cancel { base_cd := 20 } 5 7 false false
      [TimerOp.predict_left 6 false true] (by norm_num) (by norm_num)).2.2.2.2 (by norm_num)

/-- Claim C4.  For a timer in normal mode with a positive base and
`0 ≤ elapsed ≤ base`, and a sequence `pre ++ call :: rest` of `advance` calls
with strictly increasing timestamps and arbitrary flags: `elapsed` after
`call` is at least `elapsed` before it and at most the base, which no call
changes. -/
theorem advance_seq_elapsed_monotone_bounded (st : SlotTimer)
    (pre rest : List (ℚ × Bool × Bool)) (call : ℚ × Bool × Bool)
    (_hn : st.inNormalMode) (_hb : 0 < st.base_cd) (_h0 : 0 ≤ st.elapsed)
    (h1 : st.elapsed ≤ st.base_cd)
    (_hinc : ((pre ++ call :: rest).map Prod.fst).Pairwise (fun x y => x < y)) :
    (advanceSeq st pre).elapsed ≤ (advanceSeq st (pre ++ [call])).elapsed ∧
    (advanceSeq st (pre ++ [call])).elapsed ≤ st.base_cd ∧
    (advanceSeq st (pre ++ [call])).base_cd = st.base_cd := by
  obtain ⟨hb1, he1⟩ := advanceSeq_bounds pre st h1
  obtain ⟨hb2, he2⟩ := advanceSeq_bounds (pre ++ [call]) st h1
  refine ⟨?_, he2, hb2⟩
  rw [advanceSeq_append]
  exact (advance_step_bounds (advanceSeq st pre) call.1 call.2.1 call.2.2
    (by rw [hb1]; exact he1)).2.2.2.1

/-- Claim C4 on a timer cast at 0 with base 20, for the second of three calls
at times 4, 10 and 30 with mixed flags. -/
theorem advance_seq_elapsed_monotone_bounded_witness :
    (advanceSeq (({ base_cd := 20 } : SlotTimer).on_cast 0) [(4, true, false)]).elapsed ≤
      (advanceSeq (({ base_cd := 20 } : SlotTimer).on_cast 0)
        ([(4, true, false)] ++ [(10, false, true)])).elapsed ∧
    (advanceSeq (({ base_cd := 20 } : SlotTimer).on_cast 0)
        ([(4, true, false)] ++ [(10, false, true)])).elapsed ≤
      (({ base_cd := 20 } : SlotTimer).on_cast 0).base_cd ∧
    (advanceSeq (({ base_cd := 20 } : SlotTimer).on_cast 0)
        ([(4, true, false)] ++ [(10, false, true)])).base_cd =
      (({ base_cd := 20 } : SlotTimer).on_cast 0).base_cd :=
  advance_seq_elapsed_monotone_bounded (({ base_cd := 20 } : SlotTimer).on_cast 0)
    [(4, true, false)] [(30, true, true)] (10, false, true)
    ⟨rfl, by simp [SlotTimer.on_cast]⟩ (by simp [SlotTimer.on_cast])
    (by simp [SlotTimer.on_cast]) (by simp [SlotTimer.on_cast]) (by norm_num)

/-- Claim C5.  For a timer in normal mode (cast and update times set) with a
positive base and a time `t > last_update_s`, `advance` sets `elapsed` to
`min base (elapsed + (t - last_update_s) * s)` and `last_update_s` to `t` and
changes no other field, where `s` is 1 with neither flag, 1.25 with alacrity
only, 0.60 with chill only and 0.75 = 1.25 * 0.60 with both. -/
theorem advance_accrues_at_speed (st : SlotTimer) (t : ℚ) (a c : Bool)
    (hn : st.inNormalMode) (hu : 0 ≤ st.last_update_s) (hb : 0 < st.base_cd)
    (ht : st.last_update_s < t) :
    st.advance t a c =
      { st with
        elapsed := min st.base_cd (st.elapsed + (t - st.last_update_s) * specSpeed a c)
        last_update_s := t } ∧
    specSpeed false false = 1 ∧ specSpeed true false = 5 / 4 ∧
    specSpeed false true = 3 / 5 ∧ specSpeed true true = 3 / 4 ∧
    specSpeed true true = 5 / 4 * (3 / 5) := by
  refine ⟨?_, rfl, rfl, rfl, rfl, by norm_num [specSpeed]⟩
  rw [advance_running st t a c hn.1 hn.2 hu hb, if_neg (not_le.mpr ht)]

/-- Claim C5 on a timer cast at 0 with base 20: eight seconds with both
flags set give `elapsed = 6`. -/
theorem advance_accrues_at_speed_witness :
    ((({ base_cd := 20 } : SlotTimer).on_cast 0).advance 8 true true).elapsed = 6 ∧
    ((({ base_cd := 20 } : SlotTimer).on_cast 0).advance 8 true true).last_update_s = 8 := by
  rw [(advance_accrues_at_speed (({ base_cd := 20 } : SlotTimer).on_cast 0) 8 true true
    ⟨rfl, by simp [SlotTimer.on_cast]⟩ (by simp [SlotTimer.on_cast])
    (by simp [SlotTimer.on_cast]) (by simp [SlotTimer.on_cast])).1]
  simp [SlotTimer.on_cast, specSpeed]
  norm_num

/-- Claim C6.  From every timer state and for every `t ≥ 0`, `on_cast` leaves
the timer in normal mode with `elapsed = 0`, `last_cast_s = last_update_s = t`,
`cancel_active = false` and `cancel_start_s = -1`; skill id, name and base
cooldown are unchanged. -/
theorem on_cast_enters_normal_mode (st : SlotTimer) (t : ℚ) (ht : 0 ≤ t) :
    (st.on_cast t).inNormalMode ∧
    (st.on_cast t).elapsed = 0 ∧
    (st.on_cast t).last_cast_s = t ∧ (st.on_cast t).last_update_s = t ∧
    (st.on_cast t).cancel_active = false ∧ (st.on_cast t).cancel_start_s = -1 ∧
    (st.on_cast t).skillid = st.skillid ∧ (st.on_cast t).name = st.name ∧
    (st.on_cast t).base_cd = st.base_cd :=
  ⟨⟨rfl, ht⟩, rfl, rfl, rfl, rfl, rfl, rfl, rfl, rfl⟩

/-- Claim C6 on a timer that was in cancel mode: a cast at 9 gives the
normal mode timer with the same skill id, name and base. -/
theorem on_cast_enters_normal_mode_witness :
    (({ skillid := 100, name := "Well", base_cd := 20 } : SlotTimer).start_cancel_cd 3).on_cast 9
      = { skillid := 100, name := "Well", base_cd := 20, last_cast_s := 9,
          last_update_s := 9, elapsed := 0, cancel_active := false, cancel_start_s := -1 } ∧
    ((({ skillid := 100, name := "Well", base_cd := 20 } : SlotTimer).start_cancel_cd 3).on_cast
      9).inNormalMode :=
  ⟨rfl, (on_cast_enters_normal_mode
    (({ skillid := 100, name := "Well", base_cd := 20 } : SlotTimer).start_cancel_cd 3) 9
    (by norm_num)).1⟩

/-- Claim C7.  From every timer state and for every `t ≥ 0`, `start_cancel_cd`
leaves the timer in cancel mode with `cancel_start_s = t` (a set time),
`elapsed = 0` and `last_cast_s = last_update_s = -1`, so elapsed time of a
running normal cooldown is discarded; skill id, name and base cooldown are
unchanged. -/
theorem start_cancel_cd_enters_cancel_mode (st : SlotTimer) (t : ℚ) (ht : 0 ≤ t) :
    (st.start_cancel_cd t).inCancelMode ∧
    (st.start_cancel_cd t).cancel_start_s = t ∧ 0 ≤ (st.start_cancel_cd t).cancel_start_s ∧
    (st.start_cancel_cd t).elapsed = 0 ∧
    (st.start_cancel_cd t).last_cast_s = -1 ∧ (st.start_cancel_cd t).last_update_s = -1 ∧
    (st.start_cancel_cd t).skillid = st.skillid ∧ (st.start_cancel_cd t).name = st.name ∧
    (st.start_cancel_cd t).base_cd = st.base_cd :=
  ⟨rfl, rfl, ht, rfl, rfl, rfl, rfl, rfl, rfl⟩

/-- Claim C7 on a running normal cooldown with 6 seconds elapsed: a cancel
at 9 discards them. -/
theorem start_cancel_cd_enters_cancel_mode_witness :
    sampleRunning.start_cancel_cd 9
      = { skillid := 100, name := "Well", base_cd := 20, last_cast_s := -1,
          last_update_s := -1, elapsed := 0, cancel_active := true, cancel_start_s := 9 } ∧
    0 ≤ (sampleRunning.start_cancel_cd 9).cancel_start_s :=
  ⟨rfl, (start_cancel_cd_enters_cancel_mode sampleRunning 9 (by norm_num)).2.2.1⟩

/-! ## Base cooldown resolver: the claims -/

/-- Claim C8.  For every skill id listed in the hard override table with
value `v` (12569 with 120, 62965 with 20, 10545 with 40), whatever the manual
override (zero, positive or negative), the cache and the pending set are,
`get_base_cd_for_skill` returns `v` and leaves the pending set as it was. -/
theorem hard_override_wins (g_api_cd_cache : Nat → Option ℚ) (g_cd_pending : Finset Nat)
    (sid : Nat) (v row_base : ℚ) (h : (sid, v) ∈ g_hard_override_cd) :
    get_base_cd_for_skill g_api_cd_cache g_cd_pending sid row_base = (v, g_cd_pending) ∧
    ((sid = 12569 ∧ v = 120) ∨ (sid = 62965 ∧ v = 20) ∨ (sid = 10545 ∧ v = 40)) := by
  constructor
  · simp only [get_base_cd_for_skill, lookup_hard_override_some sid v h]
  · simpa [g_hard_override_cd] using h

/-- The scenario of claim C8: skill 62965 resolves to 20 with a manual
override of 45 and a cached value of 30, and nothing is enqueued. -/
theorem hard_override_wins_witness :
    get_base_cd_for_skill (fun _ => some 30) ∅ 62965 45 = (20, ∅) :=
  (hard_override_wins (fun _ => some 30) ∅ 62965 20 45 (by simp [g_hard_override_cd])).1

/-- Counterexample to claim C9 as stated: skill 100 has no hard override and
the manual override -5 is non-zero, yet the resolver returns the cached value
30 and not -5; with an empty cache it returns 0 and enqueues a fetch of 100. -/
theorem negative_manual_override_ignored :
    100 ∉ g_hard_override_cd.map Prod.fst ∧ (-5 : ℚ) ≠ 0 ∧
    get_base_cd_for_skill (fun _ => some 30) ∅ 100 (-5) = (30, ∅) ∧
    (get_base_cd_for_skill (fun _ => some 30) ∅ 100 (-5)).1 ≠ -5 ∧
    get_base_cd_for_skill (fun _ => none) ∅ 100 (-5) = (0, {100}) ∧
    (get_base_cd_for_skill (fun _ => none) ∅ 100 (-5)).2 ≠ ∅ := by
  have hk : 100 ∉ g_hard_override_cd.map Prod.fst := by simp [g_hard_override_cd]
  have h1 : get_base_cd_for_skill (fun _ => some 30) ∅ 100 (-5) = (30, ∅) := by
    simp [get_base_cd_for_skill, lookup_hard_override_none 100 hk]
  have h2 : get_base_cd_for_skill (fun _ => none) ∅ 100 (-5) = (0, {100}) := by
    simp [get_base_cd_for_skill, lookup_hard_override_none 100 hk, request_cd_fetch]
  refine ⟨hk, by norm_num, h1, ?_, h2, ?_⟩
  · rw [h1]; norm_num
  · rw [h2]; simp

/-- Claim C9, amended.  For every skill id absent from the hard override
table and every positive manual override, `get_base_cd_for_skill` returns the
manual override, whatever the cache holds, and leaves the pending set as it
was. -/
theorem manual_override_wins (g_api_cd_cache : Nat → Option ℚ) (g_cd_pending : Finset Nat)
    (sid : Nat) (row_base : ℚ) (hs : sid ∉ g_hard_override_cd.map Prod.fst)
    (hr : 0 < row_base) :
    get_base_cd_for_skill g_api_cd_cache g_cd_pending sid row_base =
      (row_base, g_cd_pending) := by
  simp only [get_base_cd_for_skill, lookup_hard_override_none sid hs, gt_iff_lt, hr, if_true]

/-- Claim C9, amended, on skill 100 with manual override 45, a cached value
of 30 and skill 7 already pending. -/
theorem manual_override_wins_witness :
    get_base_cd_for_skill (fun _ => some 30) {7} 100 45 = (45, {7}) :=
  manual_override_wins (fun _ => some 30) {7} 100 45 (by simp [g_hard_override_cd])
    (by norm_num)

/-- Claim C10.  For a skill id with no hard override and no manual override
(row base 0): if the cache holds `v` for it the resolver returns `v` and
leaves the pending set unchanged; otherwise it returns 0 and the pending set
becomes the old set with the skill id inserted, and a second call in that
state returns 0 again and changes nothing. -/
theorem cache_then_fetch_once (g_api_cd_cache : Nat → Option ℚ) (g_cd_pending : Finset Nat)
    (sid : Nat) (hs : sid ∉ g_hard_override_cd.map Prod.fst) :
    (∀ v, g_api_cd_cache sid = some v →
      get_base_cd_for_skill g_api_cd_cache g_cd_pending sid 0 = (v, g_cd_pending)) ∧
    (g_api_cd_cache sid = none →
      get_base_cd_for_skill g_api_cd_cache g_cd_pending sid 0 =
        (0, insert sid g_cd_pending) ∧
      get_base_cd_for_skill g_api_cd_cache
          (get_base_cd_for_skill g_api_cd_cache g_cd_pending sid 0).2 sid 0 =
        (0, insert sid g_cd_pending)) := by
  have hl := lookup_hard_override_none sid hs
  constructor
  · intro v hv
    simp [get_base_cd_for_skill, hl, hv]
  · intro hn
    have h1 : ∀ p : Finset Nat,
        get_base_cd_for_skill g_api_cd_cache p sid 0 = (0, insert sid p) := by
      intro p
      simp [get_base_cd_for_skill, hl, hn, request_cd_fetch]
    refine ⟨h1 _, ?_⟩
    rw [h1 g_cd_pending, h1 (insert sid g_cd_pending), Finset.insert_idem]

/-- Claim C10 on skill 100: with 30 cached it resolves to 30 and the pending
set stays as it was; with an empty cache two calls in a row leave the single
request 100 next to the request 7 that was already pending. -/
theorem cache_then_fetch_once_witness :
    get_base_cd_for_skill (fun k => if k = 100 then some 30 else none) {7} 100 0 = (30, {7}) ∧
    get_base_cd_for_skill (fun _ => none)
      (get_base_cd_for_skill (fun _ => none) {7} 100 0).2 100 0 = (0, {100, 7}) :=
  ⟨(cache_then_fetch_once (fun k => if k = 100 then some 30 else none) {7} 100
      (by simp [g_hard_override_cd])).1 30 (by simp),
   ((cache_then_fetch_once (fun _ => none) {7} 100
      (by simp [g_hard_override_cd])).2 rfl).2⟩

/-! ## Helper lemmas on the timer table -/

theorem advance_base_cd (st : SlotTimer) (t : ℚ) (a c : Bool) :
    (st.advance t a c).base_cd = st.base_cd := by
  rw [advance_eq]
  split_ifs <;> rfl

theorem predict_left_snd_base_cd (st : SlotTimer) (t : ℚ) (a c : Bool) :
    (st.predict_left t a c).2.base_cd = st.base_cd := by
  cases h : st.cancel_active
  · rw [predict_left_snd_of_not_cancel st t a c h, advance_base_cd]
  · rw [predict_left_snd_of_cancel st t a c h]

/-- What `compute_left_for` does on a timer that is not in cancel mode, by the
sign of the resolved base. -/
theorem compute_left_for_of_not_cancel (g : Globals) (sid : Nat) (row_base now : ℚ)
    (st : SlotTimer) (hst : g.g_by_skill sid = some st) (hc : st.cancel_active = false) :
    compute_left_for g sid row_base now =
      if (get_base_cd_for_skill g.g_api_cd_cache g.g_cd_pending sid row_base).1 ≤ 0 then
        (-1, { g with
          g_cd_pending :=
            (get_base_cd_for_skill g.g_api_cd_cache g.g_cd_pending sid row_base).2 })
      else
        ((({ st with
              base_cd :=
                (get_base_cd_for_skill g.g_api_cd_cache g.g_cd_pending sid row_base).1 } :
            SlotTimer).predict_left now g.g_self.has_alacrity g.g_self.has_chill).1,
         { g with
           g_cd_pending :=
             (get_base_cd_for_skill g.g_api_cd_cache g.g_cd_pending sid row_base).2
           g_by_skill := Function.update g.g_by_skill sid
             (some (({ st with
                base_cd :=
                  (get_base_cd_for_skill g.g_api_cd_cache g.g_cd_pending sid row_base).1 } :
              SlotTimer).predict_left now g.g_self.has_alacrity g.g_self.has_chill).2) }) := by
  simp only [compute_left_for, hst, hc, Bool.false_eq_true, if_false]

/-- What `compute_left_for` does on a timer in cancel mode. -/
theorem compute_left_for_of_cancel (g : Globals) (sid : Nat) (row_base now : ℚ)
    (st : SlotTimer) (hst : g.g_by_skill sid = some st) (hc : st.cancel_active = true) :
    compute_left_for g sid row_base now = ((st.predict_left now false false).1, g) := by
  simp only [compute_left_for, hst, hc, if_true, predict_left_snd_of_cancel st now false false hc]
  rw [← hst, Function.update_eq_self]

/-! ## Helper lemmas on group order reconciliation -/

theorem newIds_not_mem_seen (k : Nat) (ps : List Peer) (seen : Finset String) :
    ∀ x ∈ newIds k seen ps, x ∉ seen := by
  induction ps generalizing seen with
  | nil => intro x hx; simp [newIds] at hx
  | cons p ps ih =>
    intro x hx
    simp only [newIds] at hx
    split_ifs at hx with h
    · rcases List.mem_cons.mp hx with rfl | hx
      · exact h.2
      · exact fun hs => ih _ x hx (Finset.mem_insert_of_mem hs)
    · exact ih _ x hx

theorem newIds_nodup (k : Nat) (ps : List Peer) (seen : Finset String) :
    (newIds k seen ps).Nodup := by
  induction ps generalizing seen with
  | nil => simp [newIds]
  | cons p ps ih =>
    simp only [newIds]
    split_ifs with h
    · refine List.nodup_cons.mpr ⟨fun hx => ?_, ih _⟩
      exact newIds_not_mem_seen k ps _ _ hx (Finset.mem_insert_self _ _)
    · exact ih _

theorem newIds_mem_ids (k : Nat) (ps : List Peer) (seen : Finset String) :
    ∀ x ∈ newIds k seen ps, ∃ p ∈ ps, p.prof = k ∧ p.id = x := by
  induction ps generalizing seen with
  | nil => intro x hx; simp [newIds] at hx
  | cons p ps ih =>
    intro x hx
    simp only [newIds] at hx
    split_ifs at hx with h
    · rcases List.mem_cons.mp hx with rfl | hx
      · exact ⟨p, List.mem_cons_self _ _, h.1, rfl⟩
      · obtain ⟨q, hq, h1, h2⟩ := ih _ x hx
        exact ⟨q, List.mem_cons_of_mem _ hq, h1, h2⟩
    · obtain ⟨q, hq, h1, h2⟩ := ih _ x hx
      exact ⟨q, List.mem_cons_of_mem _ hq, h1, h2⟩

/-- One step of the loop over the peers, seen from group `k`. -/
theorem ensure_add_peer_at (acc : (Nat → Option (List String)) × (Nat → Finset String))
    (p : Peer) (k : Nat) :
    (p.prof ≠ k → (ensure_add_peer acc p).1 k = acc.1 k ∧
      (ensure_add_peer acc p).2 k = acc.2 k) ∧
    (p.prof = k → p.id ∈ acc.2 k →
      (ensure_add_peer acc p).1 k = some ((acc.1 k).getD []) ∧
      (ensure_add_peer acc p).2 k = acc.2 k) ∧
    (p.prof = k → p.id ∉ acc.2 k →
      (ensure_add_peer acc p).1 k = some ((acc.1 k).getD [] ++ [p.id]) ∧
      (ensure_add_peer acc p).2 k = insert p.id (acc.2 k)) := by
  refine ⟨fun hne => ?_, fun he hin => ?_, fun he hin => ?_⟩
  · unfold ensure_add_peer
    by_cases h1 : acc.1 p.prof = none <;> by_cases h2 : p.id ∈ acc.2 p.prof <;>
      simp [h1, h2, Function.update_noteq (Ne.symm hne)]
  · subst he
    unfold ensure_add_peer
    by_cases h1 : acc.1 p.prof = none
    · simp [h1, hin]
    · obtain ⟨l, hl⟩ := Option.ne_none_iff_exists'.mp h1
      simp [hl, hin]
  · subst he
    unfold ensure_add_peer
    by_cases h1 : acc.1 p.prof = none
    · simp [h1, hin]
    · obtain ⟨l, hl⟩ := Option.ne_none_iff_exists'.mp h1
      simp [hl, hin]

/-- The loop over the peers, seen from group `k`: the group exists afterwards
when it existed before or some peer is of class `k`, and its sequence is the
old one followed by the new ids. -/
theorem ensure_fold_at (k : Nat) (peers : List Peer)
    (acc : (Nat → Option (List String)) × (Nat → Finset String)) :
    (peers.foldl ensure_add_peer acc).1 k =
      if acc.1 k = none ∧ ∀ p ∈ peers, p.prof ≠ k then none
      else some ((acc.1 k).getD [] ++ newIds k (acc.2 k) peers) := by
  induction peers generalizing acc with
  | nil =>
    cases h : acc.1 k <;> simp [newIds, h]
  | cons p ps ih =>
    rw [List.foldl_cons, ih]
    obtain ⟨h1, h2, h3⟩ := ensure_add_peer_at acc p k
    by_cases hk : p.prof = k
    · by_cases hin : p.id ∈ acc.2 k
      · obtain ⟨e1, e2⟩ := h2 hk hin
        have hn : newIds k (acc.2 k) (p :: ps) = newIds k (acc.2 k) ps := by
          simp [newIds, hin]
        rw [e1, e2, hn]
        simp [hk]
      · obtain ⟨e1, e2⟩ := h3 hk hin
        have hn : newIds k (acc.2 k) (p :: ps) = p.id :: newIds k (insert p.id (acc.2 k)) ps := by
          simp [newIds, hin, hk]
        rw [e1, e2, hn]
        simp [hk]
    · obtain ⟨e1, e2⟩ := h1 hk
      have hn : newIds k (acc.2 k) (p :: ps) = newIds k (acc.2 k) ps := by
        simp [newIds, hk]
      rw [e1, e2, hn]
      simp [hk]

/-- Closed form of `ensure_group_membership_locked` on each group. -/
theorem ensure_group_order_at (g : Globals) (k : Nat) :
    (ensure_group_membership_locked g).g_group_order k =
      if g.g_group_order k = none ∧ ∀ p ∈ g.g_peers, p.prof ≠ k then none
      else some (((g.g_group_order k).getD [] ++
        newIds k ((g.g_group_order k).getD []).toFinset g.g_peers).filter
          (fun id => decide (id ∈ g.g_peers.map Peer.id))) := by
  simp only [ensure_group_membership_locked, ensure_fold_at]
  split_ifs <;> simp

theorem ensure_keeps_peers (g : Globals) :
    (ensure_group_membership_locked g).g_peers = g.g_peers := rfl

/-- Reconciliation keeps a sequence free of repetitions. -/
theorem ensure_nodup_at (g : Globals) (k : Nat)
    (hold : ((g.g_group_order k).getD []).Nodup) (seq' : List String)
    (h : (ensure_group_membership_locked g).g_group_order k = some seq') : seq'.Nodup := by
  rw [ensure_group_order_at] at h
  split_ifs at h with hnone
  rw [← Option.some.inj h]
  apply List.Nodup.filter
  refine List.nodup_append.mpr ⟨hold, newIds_nodup _ _ _, ?_⟩
  intro x hx1 hx2
  exact newIds_not_mem_seen k _ _ x hx2 (List.mem_toFinset.mpr hx1)

/-- The value `predict_left` returns is -1 or not negative. -/
theorem predict_left_fst_sign (st : SlotTimer) (t : ℚ) (a c : Bool) :
    (st.predict_left t a c).1 = -1 ∨ 0 ≤ (st.predict_left t a c).1 := by
  have hC : (0 : ℚ) ≤ CANCEL_COOLDOWN := by norm_num [CANCEL_COOLDOWN]
  unfold SlotTimer.predict_left
  dsimp only
  split_ifs <;> first
    | (left; rfl)
    | (right; exact le_refl _)
    | (right; dsimp only; linarith)

/-- The value `compute_left_for` returns is -1 or not negative. -/
theorem compute_left_for_sign (g : Globals) (sid : Nat) (row_base now : ℚ) :
    (compute_left_for g sid row_base now).1 = -1 ∨
      0 ≤ (compute_left_for g sid row_base now).1 := by
  unfold compute_left_for
  cases h : g.g_by_skill sid with
  | none => left; rfl
  | some st =>
    dsimp only
    split_ifs
    · exact predict_left_fst_sign _ _ _ _
    · left; rfl
    · exact predict_left_fst_sign _ _ _ _

/-- `compute_left_for` writes only the timer table and the pending set, and
neither adds nor removes a timer. -/
theorem compute_left_for_frame (g : Globals) (sid : Nat) (row_base now : ℚ) :
    (compute_left_for g sid row_base now).2.g_peers = g.g_peers ∧
    (compute_left_for g sid row_base now).2.g_group_order = g.g_group_order ∧
    (compute_left_for g sid row_base now).2.g_tracked = g.g_tracked ∧
    (compute_left_for g sid row_base now).2.g_client_id = g.g_client_id ∧
    (compute_left_for g sid row_base now).2.g_self = g.g_self ∧
    (compute_left_for g sid row_base now).2.g_api_cd_cache = g.g_api_cd_cache ∧
    (compute_left_for g sid row_base now).2.g_self_prof = g.g_self_prof ∧
    (compute_left_for g sid row_base now).2.g_self_charname = g.g_self_charname ∧
    (compute_left_for g sid row_base now).2.g_assigned_name = g.g_assigned_name ∧
    (compute_left_for g sid row_base now).2.g_room = g.g_room ∧
    ∀ k, (compute_left_for g sid row_base now).2.g_by_skill k = none ↔
      g.g_by_skill k = none := by
  unfold compute_left_for
  cases h : g.g_by_skill sid with
  | none => simp
  | some st =>
    dsimp only
    split_ifs <;> refine ⟨rfl, rfl, rfl, rfl, rfl, rfl, rfl, rfl, rfl, rfl, fun k => ?_⟩
    · by_cases hk : k = sid
      · subst hk; simp [h]
      · simp [Function.update_noteq hk]
    · rfl
    · by_cases hk : k = sid
      · subst hk; simp [h]
      · simp [Function.update_noteq hk]

/-- The loop of `inject_self_if_missing_locked` writes only the timer table and
the pending set, and neither adds nor removes a timer. -/
theorem inject_entries_frame (now : ℚ) (es : List TrackedEntry) (g : Globals) :
    (inject_entries now g es).2.g_peers = g.g_peers ∧
    (inject_entries now g es).2.g_group_order = g.g_group_order ∧
    (inject_entries now g es).2.g_client_id = g.g_client_id ∧
    ∀ k, (inject_entries now g es).2.g_by_skill k = none ↔ g.g_by_skill k = none := by
  induction es generalizing g with
  | nil => exact ⟨rfl, rfl, rfl, fun _ => Iff.rfl⟩
  | cons e es ih =>
    unfold inject_entries
    split_ifs with hskip
    · exact ih g
    · obtain ⟨h1, h2, h3, h4⟩ := ih (compute_left_for g e.skillid e.base_cd now).2
      obtain ⟨f1, f2, -, f4, -, -, -, -, -, -, f11⟩ :=
        compute_left_for_frame g e.skillid e.base_cd now
      exact ⟨h1.trans f1, h2.trans f2, h3.trans f4, fun k => (h4 k).trans (f11 k)⟩

/-- The entries pushed by the loop are the ones the specification names. -/
theorem inject_entries_eq_selfEntries (now : ℚ) (present : Nat → Bool)
    (es : List TrackedEntry) (g : Globals)
    (hp : ∀ k, present k = false ↔ g.g_by_skill k = none) :
    (inject_entries now g es).1 =
      selfEntries now present g (es.filter (fun e => e.enabled && e.skillid != 0)) := by
  induction es generalizing g with
  | nil => rfl
  | cons e es ih =>
    unfold inject_entries
    by_cases hskip : (!e.enabled || e.skillid == 0) = true
    · rw [if_pos hskip]
      have hf : (e.enabled && e.skillid != 0) = false := by
        cases he : e.enabled <;> cases hs : (e.skillid == 0) <;> simp_all
      rw [List.filter_cons, if_neg (by simp [hf])]
      exact ih g hp
    · rw [if_neg hskip]
      have hf : (e.enabled && e.skillid != 0) = true := by
        cases he : e.enabled <;> cases hs : (e.skillid == 0) <;> simp_all
      rw [List.filter_cons, if_pos hf]
      have hfr := (compute_left_for_frame g e.skillid e.base_cd now).2.2.2.2.2.2.2.2.2.2
      have hp2 : ∀ k, present k = false ↔
          (compute_left_for g e.skillid e.base_cd now).2.g_by_skill k = none :=
        fun k => (hp k).trans (hfr k).symm
      simp only [selfEntries]
      rw [← ih _ hp2]
      congr 1
      have hleft : (if (compute_left_for g e.skillid e.base_cd now).1 < 0 then (-1 : ℚ)
          else (compute_left_for g e.skillid e.base_cd now).1) =
          (compute_left_for g e.skillid e.base_cd now).1 := by
        rcases compute_left_for_sign g e.skillid e.base_cd now with h | h
        · rw [h]; norm_num
        · rw [if_neg (not_lt.mpr h)]
      rw [hleft]
      congr 1
      simp only [ge_iff_le, hp2 e.skillid]

/-! ## Timer table and reconciliation: the claims -/

/-- Claim C11.  For a skill id with no entry in the timer table, whatever the
manual base and the time are, `compute_left_for` returns the unknown value -1
and leaves the globals as they were: no timer is created, and the cache and
the pending set are unchanged. -/
theorem compute_left_for_absent (g : Globals) (sid : Nat) (row_base now : ℚ)
    (h : g.g_by_skill sid = none) :
    compute_left_for g sid row_base now = (-1, g) ∧
    (compute_left_for g sid row_base now).2.g_by_skill sid = none ∧
    (compute_left_for g sid row_base now).2.g_by_skill = g.g_by_skill ∧
    (compute_left_for g sid row_base now).2.g_api_cd_cache = g.g_api_cd_cache ∧
    (compute_left_for g sid row_base now).2.g_cd_pending = g.g_cd_pending := by
  have h1 : compute_left_for g sid row_base now = (-1, g) := by
    simp only [compute_left_for, h]
  rw [h1]
  exact ⟨rfl, h, rfl, rfl, rfl⟩

/-- Claim C11 on the sample globals: skill 7 has no timer, with manual base 30
the query at time 4 gives -1 and enqueues nothing. -/
theorem compute_left_for_absent_witness :
    (compute_left_for sampleGlobals 7 30 4).1 = -1 ∧
    (compute_left_for sampleGlobals 7 30 4).2.g_by_skill 7 = none ∧
    (compute_left_for sampleGlobals 7 30 4).2.g_cd_pending = ∅ := by
  have h := compute_left_for_absent sampleGlobals 7 30 4 (by simp [sampleGlobals])
  rw [h.1]
  exact ⟨rfl, by simp [sampleGlobals], rfl⟩

/-- Counterexample to claim C12 as stated.  Skill 100 is tracked twice, with
manual bases 20 and 0, and nothing is cached for it.  The first query stores
20 on the timer.  In the second the resolver gives 0, and the timer, which
exists and is not in cancel mode, keeps the base 20: the resolved value is not
stored. -/
theorem compute_left_for_keeps_base_when_unknown :
    ((compute_left_for sampleGlobals 100 20 6).2.g_by_skill 100).map SlotTimer.base_cd
      = some 20 ∧
    ((compute_left_for sampleGlobals 100 20 6).2.g_by_skill 100).map SlotTimer.cancel_active
      = some false ∧
    (get_base_cd_for_skill (compute_left_for sampleGlobals 100 20 6).2.g_api_cd_cache
      (compute_left_for sampleGlobals 100 20 6).2.g_cd_pending 100 0).1 = 0 ∧
    (compute_left_for (compute_left_for sampleGlobals 100 20 6).2 100 0 6).1 = -1 ∧
    ((compute_left_for (compute_left_for sampleGlobals 100 20 6).2 100 0 6).2.g_by_skill
      100).map SlotTimer.base_cd = some 20 := by
  have hk : 100 ∉ g_hard_override_cd.map Prod.fst := by simp [g_hard_override_cd]
  have hl := lookup_hard_override_none 100 hk
  have h1 : compute_left_for sampleGlobals 100 20 6 =
      (21 / 2, { sampleGlobals with
        g_by_skill := Function.update sampleGlobals.g_by_skill 100
          (some { skillid := 100, base_cd := 20, last_cast_s := 0, last_update_s := 6,
                  elapsed := 6 }) }) := by
    simp [compute_left_for, sampleGlobals, get_base_cd_for_skill, hl, SlotTimer.on_cast,
      SlotTimer.predict_left, SlotTimer.advance, NET_OFFSET]
    norm_num
  rw [h1]
  refine ⟨by simp, by simp, ?_, ?_, ?_⟩
  · simp [sampleGlobals, get_base_cd_for_skill, hl]
  · simp [compute_left_for, sampleGlobals, get_base_cd_for_skill, hl]
  · simp [compute_left_for, sampleGlobals, get_base_cd_for_skill, hl]

/-- Claim C12, amended.  For a skill whose timer exists and is not in cancel
mode: when the value resolved by `get_base_cd_for_skill` is positive,
`compute_left_for` stores it as the base cooldown of the timer and returns
what `predict_left` gives at `now` on the timer with that base under the
current `SelfContext` flags, the other timers being untouched; when the
resolved value is not positive it returns -1 and leaves the timer table as it
was. -/
theorem compute_left_for_stores_positive_base (g : Globals) (sid : Nat) (row_base now : ℚ)
    (st : SlotTimer) (hst : g.g_by_skill sid = some st) (hc : st.cancel_active = false) :
    (0 < (get_base_cd_for_skill g.g_api_cd_cache g.g_cd_pending sid row_base).1 →
      (compute_left_for g sid row_base now).1 =
        (({ st with
            base_cd :=
              (get_base_cd_for_skill g.g_api_cd_cache g.g_cd_pending sid row_base).1 } :
          SlotTimer).predict_left now g.g_self.has_alacrity g.g_self.has_chill).1 ∧
      (compute_left_for g sid row_base now).2.g_by_skill sid =
        some (({ st with
            base_cd :=
              (get_base_cd_for_skill g.g_api_cd_cache g.g_cd_pending sid row_base).1 } :
          SlotTimer).predict_left now g.g_self.has_alacrity g.g_self.has_chill).2 ∧
      ((compute_left_for g sid row_base now).2.g_by_skill sid).map SlotTimer.base_cd =
        some (get_base_cd_for_skill g.g_api_cd_cache g.g_cd_pending sid row_base).1 ∧
      ∀ other, other ≠ sid →
        (compute_left_for g sid row_base now).2.g_by_skill other = g.g_by_skill other) ∧
    ((get_base_cd_for_skill g.g_api_cd_cache g.g_cd_pending sid row_base).1 ≤ 0 →
      (compute_left_for g sid row_base now).1 = -1 ∧
      (compute_left_for g sid row_base now).2.g_by_skill = g.g_by_skill) := by
  rw [compute_left_for_of_not_cancel g sid row_base now st hst hc]
  constructor
  · intro hpos
    rw [if_neg (not_le.mpr hpos)]
    refine ⟨rfl, by simp, ?_, fun other ho => by simp [Function.update_noteq ho]⟩
    simp [predict_left_snd_base_cd]
  · intro hle
    rw [if_pos hle]
    exact ⟨rfl, rfl⟩

/-- Claim C12, amended, on the sample globals: with manual base 20 the query
at time 6 stores 20 on the timer of skill 100 and returns 20 - 6 - 3.5. -/
theorem compute_left_for_stores_positive_base_witness :
    (compute_left_for sampleGlobals 100 20 6).1 = 21 / 2 ∧
    ((compute_left_for sampleGlobals 100 20 6).2.g_by_skill 100).map SlotTimer.base_cd =
      some 20 := by
  have hk : 100 ∉ g_hard_override_cd.map Prod.fst := by simp [g_hard_override_cd]
  have hb : (get_base_cd_for_skill sampleGlobals.g_api_cd_cache sampleGlobals.g_cd_pending
      100 20).1 = 20 := by
    simp [get_base_cd_for_skill, lookup_hard_override_none 100 hk]
  have h := (compute_left_for_stores_positive_base sampleGlobals 100 20 6
    (({ skillid := 100 } : SlotTimer).on_cast 0) (by simp [sampleGlobals]) rfl).1
    (by rw [hb]; norm_num)
  refine ⟨?_, by rw [h.2.2.1, hb]⟩
  rw [h.1, hb]
  simp [sampleGlobals, SlotTimer.on_cast, SlotTimer.predict_left, SlotTimer.advance,
    NET_OFFSET]
  norm_num

/-- Claim C13.  For every peer list (repeated peer ids allowed) and every group
order whose sequences are free of repetitions: after
`ensure_group_membership_locked` every sequence is still free of repetitions,
and two ids `a` before `b` in the old sequence of a group that are both in its
new sequence are in it with `a` before `b`; the old ids that are kept form a
subsequence of the new sequence. -/
theorem ensure_keeps_nodup_and_order (g : Globals)
    (hnd : ∀ k seq, g.g_group_order k = some seq → seq.Nodup)
    (k : Nat) (seq' : List String)
    (h : (ensure_group_membership_locked g).g_group_order k = some seq') :
    seq'.Nodup ∧
    ∀ old, g.g_group_order k = some old →
      (∀ a b, [a, b].Sublist old → a ∈ seq' → b ∈ seq' → [a, b].Sublist seq') ∧
      (old.filter (fun id => decide (id ∈ seq'))).Sublist seq' := by
  rw [ensure_group_order_at] at h
  split_ifs at h with hnone
  have hseq := Option.some.inj h
  have hold : ((g.g_group_order k).getD []).Nodup := by
    cases ho : g.g_group_order k with
    | none => simp
    | some old => simpa using hnd k old ho
  constructor
  · rw [← hseq]
    apply List.Nodup.filter
    refine List.nodup_append.mpr ⟨hold, newIds_nodup _ _ _, ?_⟩
    intro x hx1 hx2
    exact newIds_not_mem_seen k _ _ x hx2 (List.mem_toFinset.mpr hx1)
  · intro old ho
    rw [ho, Option.getD_some] at hseq
    have hsub : (old.filter (fun id => decide (id ∈ g.g_peers.map Peer.id))).Sublist seq' := by
      rw [← hseq, List.filter_append]
      exact List.sublist_append_left _ _
    have hP : ∀ x ∈ seq', x ∈ g.g_peers.map Peer.id := by
      intro x hx
      rw [← hseq] at hx
      simpa using (List.mem_filter.mp hx).2
    constructor
    · intro a b hab ha hb
      have h2 := List.Sublist.filter (fun id => decide (id ∈ g.g_peers.map Peer.id)) hab
      have ha' := hP a ha
      have hb' := hP b hb
      have h3 : [a, b].filter (fun id => decide (id ∈ g.g_peers.map Peer.id)) = [a, b] := by
        simp [List.filter, ha', hb']
      rw [h3] at h2
      exact h2.trans hsub
    · have h4 : old.filter (fun id => decide (id ∈ seq')) =
          old.filter (fun id => decide (id ∈ g.g_peers.map Peer.id)) := by
        apply List.filter_congr
        intro x hx
        have : x ∈ seq' ↔ x ∈ g.g_peers.map Peer.id := by
          constructor
          · exact hP x
          · intro hx'
            exact hsub.subset (List.mem_filter.mpr ⟨hx, by simpa using hx'⟩)
        simp [this]
      rw [h4]
      exact hsub

/-- Claim C13 on the sample squad: group 1, ordered `z`, `b`, becomes `b`, `a`
(the peer `a` is listed twice and appended once, `z` is pruned), free of
repetitions. -/
theorem ensure_keeps_nodup_and_order_witness :
    (ensure_group_membership_locked sampleSquad).g_group_order 1 = some ["b", "a"] ∧
    ["b", "a"].Nodup := by
  have h : (ensure_group_membership_locked sampleSquad).g_group_order 1 = some ["b", "a"] := by
    rw [ensure_group_order_at]
    simp [sampleSquad, newIds]
  refine ⟨h, (ensure_keeps_nodup_and_order sampleSquad ?_ 1 ["b", "a"] h).1⟩
  intro k seq hk
  simp only [sampleSquad] at hk
  split_ifs at hk
  rw [← Option.some.inj hk]
  simp

/-- Claim C16.  When no peer has the local client id,
`inject_self_if_missing_locked` appends one peer with that id at the end of
the peer list and leaves the other peers as they were; its entries are, for
the tracked entries that are enabled and have a skill id other than 0, in
tracked order: the tracked label, `left` the result of `compute_left_for`
(-1 when unknown) and `ready` when `0 ≤ left ≤ 0.5` or the timer table has no
entry for the skill.  When a peer with the local id is present nothing
changes, the peer list and the group order included. -/
theorem inject_self_appends_local_peer (g : Globals) (now : ℚ) :
    ((∀ p ∈ g.g_peers, p.id ≠ g.g_client_id) →
      ∃ self : Peer,
        (inject_self_if_missing_locked g now).g_peers = g.g_peers ++ [self] ∧
        self.id = g.g_client_id ∧
        self.entries =
          selfEntries now (fun k => (g.g_by_skill k).isSome) g
            (g.g_tracked.filter (fun e => e.enabled && e.skillid != 0))) ∧
    ((∃ p ∈ g.g_peers, p.id = g.g_client_id) → inject_self_if_missing_locked g now = g) := by
  constructor
  · intro habs
    have hany : g.g_peers.any (fun p => p.id == g.g_client_id) = false := by
      rw [List.any_eq_false]
      intro p hp
      simpa using habs p hp
    refine ⟨{ id := g.g_client_id
              name := if g.g_self_charname ≠ "" then g.g_self_charname
                else if g.g_assigned_name = "" then "me" else g.g_assigned_name
              prof := g.g_self_prof
              subgroup := g.g_self.subgroup
              entries := (inject_entries now g g.g_tracked).1 }, ?_, ?_, ?_⟩
    · simp only [inject_self_if_missing_locked, hany, Bool.false_eq_true, if_false,
        ensure_keeps_peers, (inject_entries_frame now g.g_tracked g).1]
    · rfl
    · exact inject_entries_eq_selfEntries now _ g.g_tracked g (fun k => by
        cases g.g_by_skill k <;> simp)
  · rintro ⟨p, hp, hid⟩
    have hany : g.g_peers.any (fun p => p.id == g.g_client_id) = true := by
      rw [List.any_eq_true]
      exact ⟨p, hp, by simpa using hid⟩
    simp only [inject_self_if_missing_locked, hany, if_true]

/-- Claim C16 on the sample globals with two tracked skills, where no peer has
the local id `me-1`: the peer `me-1` is appended after `a`; its entry for
skill 100 has 10.5 seconds left and is not ready, its entry for skill 7, which
has no timer, has -1 and is ready. -/
theorem inject_self_appends_local_peer_witness :
    (∀ p ∈ sampleTracking.g_peers, p.id ≠ sampleTracking.g_client_id) ∧
    ∃ self : Peer,
      (inject_self_if_missing_locked sampleTracking 6).g_peers =
        [{ id := "a", name := "Ann", prof := 1 }, self] ∧
      self.id = "me-1" ∧
      self.entries = [{ label := "Well", ready := false, left := 21 / 2 },
                      { label := "Heal", ready := true, left := -1 }] := by
  have habs : ∀ p ∈ sampleTracking.g_peers, p.id ≠ sampleTracking.g_client_id := by
    simp [sampleTracking, sampleGlobals]
  refine ⟨habs, ?_⟩
  obtain ⟨self, h1, h2, h3⟩ := (inject_self_appends_local_peer sampleTracking 6).1 habs
  refine ⟨self, h1, h2, ?_⟩
  rw [h3]
  have hk : 100 ∉ g_hard_override_cd.map Prod.fst := by simp [g_hard_override_cd]
  have hl := lookup_hard_override_none 100 hk
  simp [sampleTracking, sampleGlobals, selfEntries, compute_left_for, get_base_cd_for_skill,
    hl, SlotTimer.on_cast, SlotTimer.predict_left, SlotTimer.advance, NET_OFFSET]
  norm_num

/-! ## Helper lemmas on the parser -/

theorem match_str_getD (o : Option Json) (d : String) :
    (match o with
      | some (.str s) => s
      | _ => d) =
    (match o with
      | some (.str s) => some s
      | _ => none).getD d := by
  rcases o with _ | (_ | _ | _ | _ | _ | _) <;> rfl

theorem match_num_getD (o : Option Json) (d : ℚ) :
    (match o with
      | some (.num q) => q
      | _ => d) =
    (match o with
      | some (.num q) => some q
      | _ => none).getD d := by
  rcases o with _ | (_ | _ | _ | _ | _ | _) <;> rfl

/-- The fields of a peer that `parse_peer` returns for an object. -/
theorem parse_peer_fields (kvs : List (String × Json)) (p : Peer)
    (h : parse_peer (.obj kvs) = some p) :
    p.id = (stringField kvs "clientId").getD ((stringField kvs "id").getD "") ∧
    p.name = (stringField kvs "name").getD "unknown" ∧
    p.account = (stringField kvs "account").getD "" ∧
    (kvs.lookup "prof" = none → p.prof = 0) ∧
    (kvs.lookup "subgroup" = none → p.subgroup = 0) ∧
    (∀ es, kvs.lookup "entries" = some (.arr es) → parse_entries es = some p.entries) ∧
    ((∀ es, kvs.lookup "entries" ≠ some (.arr es)) → p.entries = []) := by
  simp only [parse_peer, Json.find?, Json.value_u32] at h
  split at h
  · exact absurd h (by simp)
  · split at h
    · exact absurd h (by simp)
    · split at h
      · exact absurd h (by simp)
      · rename_i o1 prof hprof o2 subgroup hsub o3 es hes
        have hp := Option.some.inj h
        subst hp
        refine ⟨?_, ?_, ?_, ?_, ?_, ?_, ?_⟩
        · simp only [stringField, match_str_getD]
        · simp only [stringField, match_str_getD]
        · simp only [stringField, match_str_getD]
        · intro hn
          rw [hn] at hprof
          exact (Option.some.inj hprof).symm
        · intro hn
          rw [hn] at hsub
          exact (Option.some.inj hsub).symm
        · intro es' he
          rw [he] at hes
          exact hes
        · intro hne
          dsimp only
          split at hes
          · rename_i es' he
            exact absurd he (hne es')
          · exact (Option.some.inj hes).symm

/-- The fields of an entry that `parse_entry` returns for an object. -/
theorem parse_entry_fields (kvs : List (String × Json)) (e : PeerEntry)
    (h : parse_entry (.obj kvs) = some e) :
    e.label = (stringField kvs "label").getD "" ∧
    e.left = (numberField kvs "left").getD (-1) ∧
    (kvs.lookup "ready" = none → e.ready = false) := by
  simp only [parse_entry, Json.find?, Json.value_bool] at h
  split at h
  · exact absurd h (by simp)
  · rename_i o1 ready hready
    have he := Option.some.inj h
    subst he
    refine ⟨?_, ?_, ?_⟩
    · simp only [stringField, match_str_getD]
    · simp only [numberField, match_num_getD]
    · intro hn
      rw [hn] at hready
      exact (Option.some.inj hready).symm

theorem parse_entries_forall₂ (es : List Json) (l : List PeerEntry)
    (h : parse_entries es = some l) :
    List.Forall₂ (fun ej e => parse_entry ej = some e) es l := by
  induction es generalizing l with
  | nil =>
    simp only [parse_entries, Option.some.injEq] at h
    subst h
    exact List.Forall₂.nil
  | cons ej rest ih =>
    simp only [parse_entries] at h
    split at h
    · exact absurd h (by simp)
    · rename_i e he
      split at h
      · exact absurd h (by simp)
      · rename_i l' hl'
        have := Option.some.inj h
        subst this
        exact List.Forall₂.cons he (ih l' hl')

theorem parse_entry_of_ok (ej : Json) (h : okEntry ej = true) : (parse_entry ej).isSome := by
  cases ej with
  | obj kvs =>
    simp only [okEntry] at h
    simp only [parse_entry, Json.value_bool]
    split at h
    · rename_i hn; simp [hn]
    · rename_i b hb; simp [hb, Json.get_bool]
    · exact absurd h (by simp)
  | _ => simp [okEntry] at h

theorem parse_entries_of_ok (es : List Json) (h : es.all okEntry = true) :
    (parse_entries es).isSome := by
  induction es with
  | nil => rfl
  | cons ej rest ih =>
    simp only [List.all_cons, Bool.and_eq_true] at h
    obtain ⟨e, he⟩ := Option.isSome_iff_exists.mp (parse_entry_of_ok ej h.1)
    obtain ⟨l, hl⟩ := Option.isSome_iff_exists.mp (ih h.2)
    simp [parse_entries, he, hl]

theorem get_u32_of_ok (kvs : List (String × Json)) (key : String)
    (h : okUnsigned kvs key = true) : (Json.value_u32 (.obj kvs) key 0).isSome := by
  simp only [okUnsigned] at h
  simp only [Json.value_u32]
  split at h
  · rename_i hn; simp [hn]
  · rename_i q hq; simp [hq, Json.get_u32]
  · rename_i b hb; simp [hb, Json.get_u32]
  · exact absurd h (by simp)

theorem parse_peer_of_ok (pj : Json) (h : okPeer pj = true) : (parse_peer pj).isSome := by
  cases pj with
  | obj kvs =>
    simp only [okPeer, Bool.and_eq_true] at h
    obtain ⟨⟨h1, h2⟩, h3⟩ := h
    obtain ⟨n1, e1⟩ := Option.isSome_iff_exists.mp (get_u32_of_ok kvs "prof" h1)
    obtain ⟨n2, e2⟩ := Option.isSome_iff_exists.mp (get_u32_of_ok kvs "subgroup" h2)
    have h4 : ∃ l, (match (Json.obj kvs).find? "entries" with
        | some (.arr es) => parse_entries es
        | _ => some []) = some l := by
      simp only [Json.find?]
      split at h3
      · rename_i es he
        exact Option.isSome_iff_exists.mp (parse_entries_of_ok es h3)
      · exact ⟨[], rfl⟩
    obtain ⟨l, hl⟩ := h4
    simp only [parse_peer, e1, e2, hl]
    rfl
  | _ => simp [okPeer] at h

theorem parse_one_eq (peers : List Peer) (pj : Json) :
    parse_one peers pj =
      (parse_peer pj).map (fun p => peers ++ (if p.id ≠ "" then [p] else [])) := by
  unfold parse_one
  cases parse_peer pj with
  | none => rfl
  | some p =>
    by_cases h : p.id ≠ ""
    · simp [h]
    · simp [h]

/-- A batch of accepted elements parses to its peers with a non-empty id, in
batch order. -/
theorem parse_all_of_ok (xs : List Json) (peers : List Peer)
    (h : ∀ x ∈ xs, okPeer x = true) :
    parse_all peers xs =
      some (peers ++ (xs.filterMap parse_peer).filter (fun p => decide (p.id ≠ ""))) := by
  induction xs generalizing peers with
  | nil => simp [parse_all]
  | cons x rest ih =>
    obtain ⟨p, hp⟩ := Option.isSome_iff_exists.mp
      (parse_peer_of_ok x (h x (List.mem_cons_self _ _)))
    simp only [parse_all, parse_one_eq, hp, Option.map_some']
    rw [ih _ (fun y hy => h y (List.mem_cons_of_mem _ hy))]
    by_cases hid : p.id ≠ ""
    · simp [hp, hid, List.filter_cons]
    · simp [hp, hid, List.filter_cons]

/-- A batch with an element on which `parse_peer` throws makes the loop throw. -/
theorem parse_all_throws (xs : List Json) (peers : List Peer)
    (h : ∃ x ∈ xs, parse_peer x = none) : parse_all peers xs = none := by
  induction xs generalizing peers with
  | nil => obtain ⟨x, hx, -⟩ := h; simp at hx
  | cons y rest ih =>
    obtain ⟨x, hx, hnone⟩ := h
    simp only [parse_all, parse_one_eq]
    cases hy : parse_peer y with
    | none => rfl
    | some p =>
      rcases List.mem_cons.mp hx with rfl | hx'
      · rw [hnone] at hy; exact absurd hy (by simp)
      · simp only [Option.map_some']
        exact ih _ ⟨x, hx', hnone⟩

theorem value_u32_ok (kvs : List (String × Json)) (key : String) (n : Nat)
    (h : Json.value_u32 (.obj kvs) key 0 = some n) : okUnsigned kvs key = true := by
  simp only [Json.value_u32] at h
  simp only [okUnsigned]
  cases hl : kvs.lookup key with
  | none => rfl
  | some v =>
    rw [hl] at h
    cases v <;> first | rfl | simp [Json.get_u32] at h

theorem parse_entry_ok (ej : Json) (e : PeerEntry) (h : parse_entry ej = some e) :
    okEntry ej = true := by
  cases ej with
  | obj kvs =>
    simp only [parse_entry, Json.value_bool] at h
    simp only [okEntry]
    cases hl : kvs.lookup "ready" with
    | none => rfl
    | some v =>
      rw [hl] at h
      cases v <;> first | rfl | simp [Json.get_bool] at h
  | _ => simp [parse_entry, Json.value_bool] at h

theorem parse_entries_ok (es : List Json) (l : List PeerEntry)
    (h : parse_entries es = some l) : es.all okEntry = true := by
  induction es generalizing l with
  | nil => rfl
  | cons ej rest ih =>
    simp only [parse_entries] at h
    split at h
    · exact absurd h (by simp)
    · rename_i e he
      split at h
      · exact absurd h (by simp)
      · rename_i l' hl'
        simp only [List.all_cons, Bool.and_eq_true]
        exact ⟨parse_entry_ok ej e he, ih l' hl'⟩

/-- `parse_peer` throws on every element that is not accepted. -/
theorem parse_peer_none_of_not_ok (pj : Json) (h : okPeer pj = false) :
    parse_peer pj = none := by
  cases hp : parse_peer pj with
  | none => rfl
  | some p =>
    exfalso
    cases pj with
    | obj kvs =>
      have hok : okPeer (.obj kvs) = true := by
        simp only [parse_peer, Json.find?] at hp
        split at hp
        · exact absurd hp (by simp)
        · rename_i prof hprof
          split at hp
          · exact absurd hp (by simp)
          · rename_i subgroup hsub
            split at hp
            · exact absurd hp (by simp)
            · rename_i es hes
              simp only [okPeer, Bool.and_eq_true]
              refine ⟨⟨value_u32_ok kvs "prof" _ hprof, value_u32_ok kvs "subgroup" _ hsub⟩, ?_⟩
              split at hes
              · exact parse_entries_ok _ _ hes
              · rfl
      rw [hok] at h
      exact absurd h (by simp)
    | _ => simp [parse_peer, Json.value_u32] at hp

/-- The parse of a snapshot that carries no group order and gives its peers as
an array of accepted elements. -/
theorem parse_peers_of_ok (stoul : String → Option Nat) (g : Globals) (jr : Json)
    (xs : List Json) (hgo : jr.find? "groupOrder" = none)
    (hpeers : jr.find? "peers" = some (.arr xs)) (hok : ∀ x ∈ xs, okPeer x = true) :
    (parse_peers_from_json_locked stoul g jr).2 = false ∧
    (parse_peers_from_json_locked stoul g jr).1.g_peers =
      (xs.filterMap parse_peer).filter (fun p => decide (p.id ≠ "")) := by
  have h1 : parse_shapes g.g_room jr =
      some ((xs.filterMap parse_peer).filter (fun p => decide (p.id ≠ ""))) := by
    simp only [parse_shapes, hpeers]
    rw [parse_all_of_ok xs [] hok, List.nil_append]
  simp only [parse_peers_from_json_locked, replace_group_order, hgo, h1]
  exact ⟨rfl, rfl⟩

/-- The parse of a snapshot whose batch of peers makes the loop throw: the
function is left by the exception with the peer list as it was, and so is the
merge. -/
theorem parse_peers_of_throw (stoul : String → Option Nat) (g : Globals) (jr : Json)
    (now : ℚ) (h : parse_shapes g.g_room jr = none) :
    (parse_peers_from_json_locked stoul g jr).2 = true ∧
    (parse_peers_from_json_locked stoul g jr).1.g_peers = g.g_peers ∧
    (net_loop_merge stoul g jr now).g_peers = g.g_peers := by
  have h1 : (parse_peers_from_json_locked stoul g jr).2 = true ∧
      (parse_peers_from_json_locked stoul g jr).1.g_peers = g.g_peers := by
    simp only [parse_peers_from_json_locked, h]
    split_ifs <;> exact ⟨rfl, rfl⟩
  refine ⟨h1.1, h1.2, ?_⟩
  simp only [net_loop_merge, h1.1, if_true, h1.2]

/-! ## Parser: the claims -/

/-- Claim C19.  For every peer object parsed by `parse_peers_from_json_locked`:
the id is the string member `clientId` when there is one, else the string
member `id`, else empty; a missing or non-string `name` becomes `"unknown"`, a
missing or non-string `account` becomes empty, a missing `prof` or `subgroup`
becomes 0; an entry gets a missing or non-numeric `left` as -1, a missing or
non-string `label` as empty and a missing `ready` as false.  An accepted
element (none of the converted members has a wrong type) never makes the parse
throw, and a batch of accepted elements yields, in batch order, the peers whose
id is not empty. -/
theorem parse_defaults :
    (∀ kvs p, parse_peer (.obj kvs) = some p →
      p.id = (stringField kvs "clientId").getD ((stringField kvs "id").getD "") ∧
      p.name = (stringField kvs "name").getD "unknown" ∧
      p.account = (stringField kvs "account").getD "" ∧
      (kvs.lookup "prof" = none → p.prof = 0) ∧
      (kvs.lookup "subgroup" = none → p.subgroup = 0) ∧
      (∀ es, kvs.lookup "entries" = some (.arr es) →
        List.Forall₂ (fun ej e => parse_entry ej = some e) es p.entries) ∧
      ((∀ es, kvs.lookup "entries" ≠ some (.arr es)) → p.entries = [])) ∧
    (∀ kvs e, parse_entry (.obj kvs) = some e →
      e.label = (stringField kvs "label").getD "" ∧
      e.left = (numberField kvs "left").getD (-1) ∧
      (kvs.lookup "ready" = none → e.ready = false)) ∧
    (∀ pj, okPeer pj = true → (parse_peer pj).isSome) ∧
    (∀ ej, okEntry ej = true → (parse_entry ej).isSome) ∧
    (∀ stoul g jr xs, jr.find? "groupOrder" = none → jr.find? "peers" = some (.arr xs) →
      (∀ x ∈ xs, okPeer x = true) →
      (parse_peers_from_json_locked stoul g jr).2 = false ∧
      (parse_peers_from_json_locked stoul g jr).1.g_peers =
        (xs.filterMap parse_peer).filter (fun p => decide (p.id ≠ ""))) := by
  refine ⟨fun kvs p h => ?_, parse_entry_fields, parse_peer_of_ok, parse_entry_of_ok,
    parse_peers_of_ok⟩
  obtain ⟨h1, h2, h3, h4, h5, h6, h7⟩ := parse_peer_fields kvs p h
  exact ⟨h1, h2, h3, h4, h5, fun es he => parse_entries_forall₂ es _ (h6 es he), h7⟩

/-- Claim C19 on the sample batch: `a` gets the defaults, the element without
an id is dropped, `b` takes the legacy `id`, the name `"unknown"` and an entry
with `left = -1`. -/
theorem parse_defaults_witness :
    (parse_peers_from_json_locked sampleStoul sampleGlobals
      (.obj [("peers", .arr sampleBatch)])).1.g_peers =
      [{ id := "a", name := "unknown", account := "", prof := 0, subgroup := 0,
         entries := [] },
       { id := "b", name := "unknown", account := "", prof := 2, subgroup := 0,
         entries := [{ label := "", ready := false, left := -1 }] }] := by
  rw [(parse_defaults.2.2.2.2 sampleStoul sampleGlobals (.obj [("peers", .arr sampleBatch)])
    sampleBatch (by simp [Json.find?, List.lookup]) (by simp [Json.find?, List.lookup])
    (by simp [sampleBatch, okPeer, okUnsigned, okEntry, List.lookup])).2]
  simp [sampleBatch, parse_peer, parse_entries, parse_entry, Json.find?, Json.value_u32,
    Json.value_bool, Json.get_u32, List.lookup]

/-- Counterexample to claim C20 as stated.  In the sample bad batch the first
element has a string as `prof` and the second element is well formed (alone it
parses to peer `b`).  The parse of the batch is left by an exception, and
after the merge the peer list is the old one: peer `b` is not in it. -/
theorem malformed_peer_fails_whole_merge :
    okPeer (.obj [("clientId", .str "b"), ("prof", .num 1)]) = true ∧
    (parse_peers_from_json_locked sampleStoul sampleGlobals
      (.obj [("peers", .arr [.obj [("clientId", .str "b"), ("prof", .num 1)]])])).1.g_peers
      = [{ id := "b", name := "unknown", prof := 1 }] ∧
    (parse_peers_from_json_locked sampleStoul sampleGlobals
      (.obj [("peers", .arr sampleBadBatch)])).2 = true ∧
    (net_loop_merge sampleStoul sampleGlobals (.obj [("peers", .arr sampleBadBatch)]) 6).g_peers
      = [{ id := "a", name := "Ann", prof := 1 }] ∧
    ∀ p ∈ (net_loop_merge sampleStoul sampleGlobals
      (.obj [("peers", .arr sampleBadBatch)]) 6).g_peers, p.id ≠ "b" := by
  have hthrow : parse_shapes sampleGlobals.g_room (.obj [("peers", .arr sampleBadBatch)])
      = none := by
    simp [parse_shapes, Json.find?, List.lookup, sampleBadBatch, parse_all, parse_one,
      parse_peer, Json.value_u32, Json.get_u32]
  obtain ⟨h1, -, h3⟩ := parse_peers_of_throw sampleStoul sampleGlobals
    (.obj [("peers", .arr sampleBadBatch)]) 6 hthrow
  refine ⟨by simp [okPeer, okUnsigned, List.lookup], ?_, h1, ?_, ?_⟩
  · rw [(parse_peers_of_ok sampleStoul sampleGlobals _
      [.obj [("clientId", .str "b"), ("prof", .num 1)]]
      (by simp [Json.find?, List.lookup]) (by simp [Json.find?, List.lookup])
      (by simp [okPeer, okUnsigned, List.lookup])).2]
    simp [parse_peer, Json.find?, Json.value_u32, Json.get_u32, List.lookup]
  · rw [h3]; rfl
  · rw [h3]
    intro p hp
    simp only [sampleGlobals, List.mem_singleton] at hp
    rw [hp]
    decide

/-- Claim C20, amended.  If one element of a batch of remote peers (the array
`peers`, the array `clients`, or the snapshot itself as an array) is not
accepted by the parser (it is not a JSON object, or its `prof` or `subgroup`
is neither a number nor a boolean, or one of its entries is not an object or
has a `ready` that is not a boolean), `parse_peers_from_json_locked` is left by
an exception and takes no peer of the batch: the peer list after the merge is
the one before it, and the injection of the local peer is not run. -/
theorem malformed_peer_aborts_merge (stoul : String → Option Nat) (g : Globals)
    (jr : Json) (xs : List Json) (now : ℚ)
    (hshape : jr.find? "peers" = some (.arr xs) ∨
      (jr.find? "peers" = none ∧ jr.find? "clients" = some (.arr xs)) ∨ jr = .arr xs)
    (hbad : ∃ x ∈ xs, okPeer x = false) :
    (parse_peers_from_json_locked stoul g jr).2 = true ∧
    (parse_peers_from_json_locked stoul g jr).1.g_peers = g.g_peers ∧
    (net_loop_merge stoul g jr now).g_peers = g.g_peers ∧
    net_loop_merge stoul g jr now = (parse_peers_from_json_locked stoul g jr).1 := by
  obtain ⟨x, hx, hxbad⟩ := hbad
  have hall : parse_all [] xs = none :=
    parse_all_throws xs [] ⟨x, hx, parse_peer_none_of_not_ok x hxbad⟩
  have hthrow : parse_shapes g.g_room jr = none := by
    rcases hshape with h | ⟨h1, h2⟩ | h
    · simp only [parse_shapes, h, hall]
    · simp only [parse_shapes, h1, h2, hall]
    · subst h
      simp only [parse_shapes, Json.find?, hall]
  obtain ⟨h1, h2, h3⟩ := parse_peers_of_throw stoul g jr now hthrow
  refine ⟨h1, h2, h3, ?_⟩
  simp only [net_loop_merge, h1, if_true]

/-- Claim C20, amended, on the sample bad batch given as the array `clients`. -/
theorem malformed_peer_aborts_merge_witness :
    (parse_peers_from_json_locked sampleStoul sampleGlobals
      (.obj [("clients", .arr sampleBadBatch)])).2 = true ∧
    (net_loop_merge sampleStoul sampleGlobals
      (.obj [("clients", .arr sampleBadBatch)]) 6).g_peers = sampleGlobals.g_peers := by
  have h := malformed_peer_aborts_merge sampleStoul sampleGlobals
    (.obj [("clients", .arr sampleBadBatch)]) sampleBadBatch 6
    (Or.inr (Or.inl ⟨by simp [Json.find?, List.lookup], by simp [Json.find?, List.lookup]⟩))
    ⟨_, List.mem_cons_self _ _, by simp [okPeer, okUnsigned, List.lookup]⟩
  exact ⟨h.1, h.2.2.1⟩

/-! ## Helper lemmas on the remote group order -/

/-- The loop over the remote group order leaves a group no key converts to as
it was. -/
theorem parse_group_order_unmentioned (stoul : String → Option Nat) (k : Nat)
    (kvs : List (String × Json)) (o : Nat → Option (List String))
    (h : ∀ kv ∈ kvs, stoul kv.1 ≠ some k) :
    (parse_group_order stoul o kvs).1 k = o k := by
  induction kvs generalizing o with
  | nil => rfl
  | cons kv rest ih =>
    have hkv := h kv (List.mem_cons_self _ _)
    have hrest : ∀ kv ∈ rest, stoul kv.1 ≠ some k :=
      fun x hx => h x (List.mem_cons_of_mem _ hx)
    simp only [parse_group_order]
    cases hs : stoul kv.1 with
    | none => rfl
    | some prof =>
      cases hi : parse_order_ids kv.2.elems with
      | none => rfl
      | some ids =>
        simp only []
        rw [ih _ hrest]
        have hne : k ≠ prof := by
          intro he
          rw [hs, he] at hkv
          exact hkv rfl
        exact Function.update_noteq hne _ _

/-- The loop over the remote group order gives a group the ids of the last
entry whose key converts to it. -/
theorem parse_group_order_mentioned (stoul : String → Option Nat) (k : Nat)
    (pre post : List (String × Json)) (key : String) (v : Json) (ids : List String)
    (o : Nat → Option (List String))
    (hok : (parse_group_order stoul o (pre ++ (key, v) :: post)).2 = false)
    (hkey : stoul key = some k) (hpost : ∀ kv ∈ post, stoul kv.1 ≠ some k)
    (hids : parse_order_ids v.elems = some ids) :
    (parse_group_order stoul o (pre ++ (key, v) :: post)).1 k = some ids := by
  induction pre generalizing o with
  | nil =>
    simp only [List.nil_append, parse_group_order, hkey, hids]
    rw [parse_group_order_unmentioned stoul k post _ hpost]
    exact Function.update_same _ _ _
  | cons kv rest ih =>
    simp only [List.cons_append, parse_group_order] at hok ⊢
    cases hs : stoul kv.1 with
    | none => rw [hs] at hok; exact absurd hok (by simp)
    | some prof =>
      rw [hs] at hok
      cases hi : parse_order_ids kv.2.elems with
      | none => rw [hi] at hok; exact absurd hok (by simp)
      | some ids' =>
        rw [hi] at hok
        exact ih _ hok

/-- The loop over the remote group order keeps all sequences free of
repetitions when the remote sequences are. -/
theorem parse_group_order_nodup (stoul : String → Option Nat)
    (kvs : List (String × Json)) (o : Nat → Option (List String))
    (ho : ∀ k seq, o k = some seq → seq.Nodup)
    (hr : ∀ kv ∈ kvs, ∀ ids, parse_order_ids kv.2.elems = some ids → ids.Nodup) :
    ∀ k seq, (parse_group_order stoul o kvs).1 k = some seq → seq.Nodup := by
  induction kvs generalizing o with
  | nil => exact ho
  | cons kv rest ih =>
    simp only [parse_group_order]
    cases hs : stoul kv.1 with
    | none => exact ho
    | some prof =>
      cases hi : parse_order_ids kv.2.elems with
      | none => exact ho
      | some ids =>
        apply ih _ _ (fun x hx => hr x (List.mem_cons_of_mem _ hx))
        intro k seq hk
        by_cases hkp : k = prof
        · subst hkp
          rw [Function.update_same] at hk
          rw [← Option.some.inj hk]
          exact hr kv (List.mem_cons_self _ _) ids hi
        · rw [Function.update_noteq hkp] at hk
          exact ho k seq hk

/-- Reconciliation writes the group order only. -/
theorem ensure_frame (g : Globals) :
    (ensure_group_membership_locked g).g_client_id = g.g_client_id ∧
    (ensure_group_membership_locked g).g_self_prof = g.g_self_prof ∧
    (ensure_group_membership_locked g).g_tracked = g.g_tracked ∧
    (ensure_group_membership_locked g).g_by_skill = g.g_by_skill ∧
    (ensure_group_membership_locked g).g_self = g.g_self ∧
    (ensure_group_membership_locked g).g_api_cd_cache = g.g_api_cd_cache ∧
    (ensure_group_membership_locked g).g_cd_pending = g.g_cd_pending ∧
    (ensure_group_membership_locked g).g_self_charname = g.g_self_charname ∧
    (ensure_group_membership_locked g).g_assigned_name = g.g_assigned_name ∧
    (ensure_group_membership_locked g).g_room = g.g_room :=
  ⟨rfl, rfl, rfl, rfl, rfl, rfl, rfl, rfl, rfl, rfl⟩

/-- All sequences of a group order are free of repetitions. -/
theorem ensure_nodup_all (g : Globals)
    (h : ∀ k seq, g.g_group_order k = some seq → seq.Nodup) :
    ∀ k seq, (ensure_group_membership_locked g).g_group_order k = some seq → seq.Nodup := by
  intro k seq hk
  refine ensure_nodup_at g k ?_ seq hk
  cases ho : g.g_group_order k with
  | none => simp
  | some old => simpa using h k old ho

/-- `inject_self_if_missing_locked` by cases on the presence of the local id. -/
theorem inject_eq (g : Globals) (now : ℚ) :
    inject_self_if_missing_locked g now =
      if g.g_peers.any (fun p => p.id == g.g_client_id) = true then g
      else ensure_group_membership_locked
        { (inject_entries now g g.g_tracked).2 with
          g_peers := (inject_entries now g g.g_tracked).2.g_peers ++ [selfPeer g now] } := rfl

/-- The injection of the local peer keeps all sequences free of repetitions. -/
theorem inject_nodup_all (g : Globals) (now : ℚ)
    (h : ∀ k seq, g.g_group_order k = some seq → seq.Nodup) :
    ∀ k seq, (inject_self_if_missing_locked g now).g_group_order k = some seq →
      seq.Nodup := by
  rw [inject_eq]
  split_ifs
  · exact h
  · apply ensure_nodup_all
    intro k seq hk
    have hfr := (inject_entries_frame now g.g_tracked g).2.1
    dsimp only at hk
    rw [hfr] at hk
    exact h k seq hk

/-- The parse keeps all sequences free of repetitions when the sequences in
place after the first block are. -/
theorem parse_nodup_all (stoul : String → Option Nat) (g : Globals) (jr : Json)
    (h : ∀ k seq, (replace_group_order stoul g.g_group_order jr).1 k = some seq →
      seq.Nodup) :
    ∀ k seq, (parse_peers_from_json_locked stoul g jr).1.g_group_order k = some seq →
      seq.Nodup := by
  unfold parse_peers_from_json_locked
  dsimp only
  split_ifs
  · exact h
  · cases hs : parse_shapes g.g_room jr with
    | none => exact h
    | some peers =>
      dsimp only
      exact ensure_nodup_all _ h

/-! ## Merge of a remote snapshot: the claims -/

/-- Counterexample to claim C14 as stated.  The local order of the sample
globals has no repetition, the sample snapshot lists peer `a` twice in group
1, and after the merge group 1 is `a`, `a`. -/
theorem remote_duplicate_survives_merge :
    (∀ k seq, sampleGlobals.g_group_order k = some seq → seq.Nodup) ∧
    (net_loop_merge sampleStoul sampleGlobals sampleDupSnapshot 6).g_group_order 1
      = some ["a", "a"] ∧
    ¬ (["a", "a"] : List String).Nodup := by
  refine ⟨?_, ?_, by simp⟩
  · intro k seq hk
    simp only [sampleGlobals] at hk
    split_ifs at hk
    rw [← Option.some.inj hk]
    simp
  · have hp : parse_peers_from_json_locked sampleStoul sampleGlobals sampleDupSnapshot =
        (ensure_group_membership_locked
          { sampleGlobals with
            g_group_order := Function.update (fun _ => none) 1 (some ["a", "a"])
            g_peers := [{ id := "a", name := "unknown", prof := 1 }] }, false) := by
      simp [parse_peers_from_json_locked, replace_group_order, sampleDupSnapshot, Json.find?,
        List.lookup, parse_group_order, sampleStoul, Json.elems, parse_order_ids,
        Json.get_string, parse_shapes, parse_all, parse_one, parse_peer, Json.value_u32,
        Json.get_u32]
    simp only [net_loop_merge, hp, Bool.false_eq_true, if_false, inject_eq]
    rw [if_neg (by simp [ensure_keeps_peers, (ensure_frame _).1, sampleGlobals])]
    rw [ensure_group_order_at]
    simp only [(inject_entries_frame _ _ _).1, (inject_entries_frame _ _ _).2.1,
      ensure_keeps_peers, ensure_group_order_at]
    simp [sampleGlobals, newIds, selfPeer, (ensure_frame _).1, (ensure_frame _).2.1]

/-- Claim C14, amended.  After a merge (`parse_peers_from_json_locked` followed
by `inject_self_if_missing_locked`) of a remote snapshot, no sequence of the
group order contains the same peer id twice, provided the sequences the merge
starts from are free of repetitions: those of the group order mapping of the
snapshot when it carries one, the local ones when it carries none. -/
theorem merge_keeps_nodup (stoul : String → Option Nat) (g : Globals) (jr : Json) (now : ℚ)
    (hremote : ∀ kvs, jr.find? "groupOrder" = some (.obj kvs) →
      ∀ kv ∈ kvs, ∀ ids, parse_order_ids kv.2.elems = some ids → ids.Nodup)
    (hlocal : (∀ kvs, jr.find? "groupOrder" ≠ some (.obj kvs)) →
      ∀ k seq, g.g_group_order k = some seq → seq.Nodup) :
    ∀ k seq, (net_loop_merge stoul g jr now).g_group_order k = some seq → seq.Nodup := by
  have h1 : ∀ k seq, (replace_group_order stoul g.g_group_order jr).1 k = some seq →
      seq.Nodup := by
    unfold replace_group_order
    split
    · rename_i kvs hk
      exact parse_group_order_nodup stoul kvs _ (fun k seq h => absurd h (by simp))
        (hremote kvs hk)
    · rename_i hne
      exact hlocal (fun kvs hk => hne kvs hk)
  have h2 := parse_nodup_all stoul g jr h1
  unfold net_loop_merge
  dsimp only
  split_ifs
  · exact h2
  · exact inject_nodup_all _ now h2

/-- Claim C14, amended, on the sample snapshot that orders group 2: after the
merge into the sample local globals group 2 is `c`. -/
theorem merge_keeps_nodup_witness :
    (net_loop_merge sampleStoul sampleLocal sampleOrderSnapshot 6).g_group_order 2
      = some ["c"] ∧
    (["c"] : List String).Nodup := by
  have h : (net_loop_merge sampleStoul sampleLocal sampleOrderSnapshot 6).g_group_order 2
      = some ["c"] := by
    have hp : parse_peers_from_json_locked sampleStoul sampleLocal sampleOrderSnapshot =
        (ensure_group_membership_locked
          { sampleLocal with
            g_group_order := Function.update (fun _ => none) 2 (some ["c"])
            g_peers := [{ id := "a", name := "unknown", prof := 1 },
                        { id := "b", name := "unknown", prof := 1 },
                        { id := "c", name := "unknown", prof := 2 }] }, false) := by
      simp [parse_peers_from_json_locked, replace_group_order, sampleOrderSnapshot, Json.find?,
        List.lookup, parse_group_order, sampleStoul, Json.elems, parse_order_ids,
        Json.get_string, parse_shapes, parse_all, parse_one, parse_peer, Json.value_u32,
        Json.get_u32]
    simp only [net_loop_merge, hp, Bool.false_eq_true, if_false, inject_eq]
    rw [if_pos (by simp [ensure_keeps_peers, (ensure_frame _).1, sampleLocal])]
    rw [ensure_group_order_at]
    simp [sampleLocal, newIds]
  refine ⟨h, merge_keeps_nodup sampleStoul sampleLocal sampleOrderSnapshot 6 ?_ ?_ 2 ["c"] h⟩
  · intro kvs hk kv hkv ids hids
    simp [sampleOrderSnapshot, Json.find?, List.lookup] at hk
    subst hk
    simp only [List.mem_singleton] at hkv
    subst hkv
    simp only [Json.elems, parse_order_ids, Json.get_string, Option.some.injEq] at hids
    subst hids
    simp
  · intro hne
    exact absurd rfl (hne [("2", .arr [.str "c"])])

/-- Counterexample to claim C15 as stated.  The local order of group 1 is `b`,
`a`, and the sample snapshot carries a group order that mentions group 2 only.
After the first block of the parse, before reconciliation, group 1 has no
sequence left; after the merge it is `a`, `b`, rebuilt from the peer list. -/
theorem remote_order_clears_unmentioned_group :
    sampleLocal.g_group_order 1 = some ["b", "a"] ∧
    (replace_group_order sampleStoul sampleLocal.g_group_order sampleOrderSnapshot).2 = false ∧
    (replace_group_order sampleStoul sampleLocal.g_group_order sampleOrderSnapshot).1 1
      = none ∧
    (net_loop_merge sampleStoul sampleLocal sampleOrderSnapshot 6).g_group_order 1
      = some ["a", "b"] := by
  have hr : replace_group_order sampleStoul sampleLocal.g_group_order sampleOrderSnapshot =
      (Function.update (fun _ : Nat => (none : Option (List String))) 2 (some ["c"]),
        false) := by
    simp [replace_group_order, sampleOrderSnapshot, Json.find?, List.lookup,
      parse_group_order, sampleStoul, Json.elems, parse_order_ids, Json.get_string]
  refine ⟨by simp [sampleLocal], by rw [hr], by rw [hr]; simp, ?_⟩
  have hp : parse_peers_from_json_locked sampleStoul sampleLocal sampleOrderSnapshot =
      (ensure_group_membership_locked
        { sampleLocal with
          g_group_order := Function.update (fun _ => none) 2 (some ["c"])
          g_peers := [{ id := "a", name := "unknown", prof := 1 },
                      { id := "b", name := "unknown", prof := 1 },
                      { id := "c", name := "unknown", prof := 2 }] }, false) := by
    simp [parse_peers_from_json_locked, replace_group_order, sampleOrderSnapshot, Json.find?,
      List.lookup, parse_group_order, sampleStoul, Json.elems, parse_order_ids,
      Json.get_string, parse_shapes, parse_all, parse_one, parse_peer, Json.value_u32,
      Json.get_u32]
  simp only [net_loop_merge, hp, Bool.false_eq_true, if_false, inject_eq]
  rw [if_pos (by simp [ensure_keeps_peers, (ensure_frame _).1, sampleLocal])]
  rw [ensure_group_order_at]
  simp [sampleLocal, newIds]

/-- Claim C15, amended.  When a remote snapshot carries a group order mapping,
the first block of the parse discards the whole local order, so the result
does not depend on it: a group that no key of the mapping converts to has no
sequence left (before reconciliation), and, when the block does not throw, a
group that a key converts to gets the remote sequence of the last such key. -/
theorem remote_order_replaces_all (stoul : String → Option Nat)
    (g_group_order : Nat → Option (List String)) (jr : Json) (kvs : List (String × Json))
    (h : jr.find? "groupOrder" = some (.obj kvs)) :
    (∀ other, replace_group_order stoul other jr =
      replace_group_order stoul g_group_order jr) ∧
    (∀ k, (∀ kv ∈ kvs, stoul kv.1 ≠ some k) →
      (replace_group_order stoul g_group_order jr).1 k = none) ∧
    ((replace_group_order stoul g_group_order jr).2 = false →
      ∀ pre post key v ids k, kvs = pre ++ (key, v) :: post → stoul key = some k →
        (∀ kv ∈ post, stoul kv.1 ≠ some k) → parse_order_ids v.elems = some ids →
        (replace_group_order stoul g_group_order jr).1 k = some ids) := by
  have hr : ∀ o, replace_group_order stoul o jr =
      parse_group_order stoul (fun _ => none) kvs := by
    intro o
    simp only [replace_group_order, h]
  refine ⟨fun other => by rw [hr, hr], fun k hk => ?_, fun hok pre post key v ids k hkvs => ?_⟩
  · rw [hr, parse_group_order_unmentioned stoul k kvs _ hk]
  · rw [hr] at hok ⊢
    subst hkvs
    exact parse_group_order_mentioned stoul k pre post key v ids _ hok

/-- Claim C15, amended, on the sample snapshot and the sample local order:
group 2 gets the remote sequence `c` and group 1 has no sequence left. -/
theorem remote_order_replaces_all_witness :
    (replace_group_order sampleStoul sampleLocal.g_group_order sampleOrderSnapshot).1 1
      = none ∧
    (replace_group_order sampleStoul (fun _ => some ["zz"]) sampleOrderSnapshot) =
      (replace_group_order sampleStoul sampleLocal.g_group_order sampleOrderSnapshot) := by
  have h := remote_order_replaces_all sampleStoul sampleLocal.g_group_order
    sampleOrderSnapshot [("2", .arr [.str "c"])] (by simp [sampleOrderSnapshot, Json.find?, List.lookup])
  refine ⟨h.2.1 1 ?_, h.1 _⟩
  intro kv hkv
  simp only [List.mem_singleton] at hkv
  subst hkv
  simp [sampleStoul]

/-! ## Helper lemmas on the display order -/

/-- The comparator is the strict order of the sort keys. -/
theorem peer_less_iff (a b : Peer) : peer_less a b = true ↔ displayKey a < displayKey b := by
  simp only [peer_less, displayKey, Prod.Lex.lt_iff]
  by_cases h : (if a.name = "" then a.id else a.name) = (if b.name = "" then b.id else b.name)
  · simp [h]
  · simp only [ne_eq, h, not_false_eq_true, if_true, decide_eq_true_eq, false_and, or_false]

theorem peer_less_false_iff (a b : Peer) :
    peer_less b a = false ↔ displayKey a ≤ displayKey b := by
  rw [← not_lt, ← peer_less_iff]
  simp

theorem keepFirst_of_nodup (l : List String) (h : l.Nodup) : keepFirst l = l := by
  induction l with
  | nil => rfl
  | cons x xs ih =>
    obtain ⟨hx, hxs⟩ := List.nodup_cons.mp h
    simp only [keepFirst, ih hxs]
    congr 1
    apply List.filter_eq_self.mpr
    intro i hi
    simp only [ne_eq, decide_not, Bool.not_eq_true', decide_eq_false_iff_not]
    rintro rfl
    exact hx hi

theorem keepFirst_mem (l : List String) (i : String) : i ∈ keepFirst l ↔ i ∈ l := by
  induction l with
  | nil => simp [keepFirst]
  | cons x xs ih =>
    simp only [keepFirst, List.mem_cons, List.mem_filter, ih]
    by_cases h : i = x
    · simp [h]
    · simp [h]

theorem keepFirst_nodup (l : List String) : (keepFirst l).Nodup := by
  induction l with
  | nil => simp [keepFirst]
  | cons x xs ih =>
    simp only [keepFirst]
    refine List.nodup_cons.mpr ⟨?_, ih.filter _⟩
    simp [List.mem_filter]

theorem keepFirst_sublist (l : List String) : (keepFirst l).Sublist l := by
  induction l with
  | nil => exact List.Sublist.slnil
  | cons x xs ih =>
    simp only [keepFirst]
    exact ((List.filter_sublist _).trans ih).cons₂ x

/-- The map `by_id` built from the peers: its keys are the ids of the peers
and each value is a peer of the list stored under its own id. -/
theorem by_id_spec (peers : List Peer) (m0 : AList (fun _ : String => Peer)) :
    (∀ i, i ∈ peers.foldl (fun m p => m.insert p.id p) m0 ↔
      i ∈ m0 ∨ i ∈ peers.map Peer.id) ∧
    (∀ i p, (peers.foldl (fun m p => m.insert p.id p) m0).lookup i = some p →
      m0.lookup i = some p ∨ (p ∈ peers ∧ p.id = i)) := by
  induction peers generalizing m0 with
  | nil => simp
  | cons q qs ih =>
    obtain ⟨h1, h2⟩ := ih (m0.insert q.id q)
    simp only [List.foldl_cons]
    constructor
    · intro i
      rw [h1, AList.mem_insert]
      simp only [List.map_cons, List.mem_cons]
      tauto
    · intro i p hp
      rcases h2 i p hp with h | ⟨h, h'⟩
      · by_cases hi : i = q.id
        · subst hi
          rw [AList.lookup_insert] at h
          right
          have := Option.some.inj h
          subst this
          exact ⟨List.mem_cons_self _ _, rfl⟩
        · rw [AList.lookup_insert_ne hi] at h
          exact Or.inl h
      · exact Or.inr ⟨List.mem_cons_of_mem _ h, h'⟩

/-- The loop over `order` pushes `picks` and erases the ids of `order`. -/
theorem foldl_draw_pick (order : List String) (acc : List Peer)
    (m : AList (fun _ : String => Peer)) :
    order.foldl draw_pick (acc, m) =
      (acc ++ picks m order, order.foldl (fun m id => m.erase id) m) := by
  induction order generalizing acc m with
  | nil => simp [picks]
  | cons id rest ih =>
    simp only [List.foldl_cons, draw_pick, picks]
    cases h : m.lookup id with
    | none =>
      have hne : id ∉ m := AList.lookup_eq_none.mp h
      have he : m.erase id = m := by
        apply AList.ext
        simp only [AList.erase]
        exact List.kerase_of_not_mem_keys hne
      simp only [ih, he]
    | some p =>
      simp only [ih, List.append_assoc, List.singleton_append]

theorem mem_foldl_erase (order : List String) (m : AList (fun _ : String => Peer))
    (i : String) :
    i ∈ order.foldl (fun m id => m.erase id) m ↔ i ∈ m ∧ i ∉ order := by
  induction order generalizing m with
  | nil => simp
  | cons id rest ih =>
    simp only [List.foldl_cons, ih, AList.mem_erase, List.mem_cons, not_or]
    tauto

theorem lookup_foldl_erase (order : List String) (m : AList (fun _ : String => Peer))
    (i : String) (p : Peer)
    (h : (order.foldl (fun m id => m.erase id) m).lookup i = some p) :
    m.lookup i = some p := by
  induction order generalizing m with
  | nil => exact h
  | cons id rest ih =>
    have h1 := ih (m.erase id) h
    by_cases hi : i = id
    · subst hi
      rw [AList.lookup_erase] at h1
      exact absurd h1 (by simp)
    · rwa [AList.lookup_erase_ne hi] at h1

/-- The ids of the pushed peers are the first occurrences in `order` of the ids
that are keys of the map. -/
theorem picks_ids (order : List String) (m : AList (fun _ : String => Peer))
    (hkey : ∀ i p, m.lookup i = some p → p.id = i) :
    (picks m order).map Peer.id = (keepFirst order).filter (fun i => decide (i ∈ m)) ∧
    ∀ p ∈ picks m order, m.lookup p.id = some p := by
  induction order generalizing m with
  | nil => simp [picks, keepFirst]
  | cons id rest ih =>
    simp only [picks, keepFirst]
    cases h : m.lookup id with
    | none =>
      have hne : id ∉ m := AList.lookup_eq_none.mp h
      obtain ⟨h1, h2⟩ := ih m hkey
      refine ⟨?_, h2⟩
      simp only []
      rw [h1, List.filter_cons, if_neg (by simpa using hne), List.filter_filter]
      apply List.filter_congr
      intro i _
      by_cases hi : i ∈ m
      · have : i ≠ id := by rintro rfl; exact hne hi
        simp [hi, this]
      · simp [hi]
    | some p =>
      have hid : p.id = id := hkey id p h
      have hmem : id ∈ m := by
        rw [← AList.lookup_isSome, h]; rfl
      have hkey' : ∀ i q, (m.erase id).lookup i = some q → q.id = i := by
        intro i q hq
        by_cases hi : i = id
        · subst hi
          rw [AList.lookup_erase] at hq
          exact absurd hq (by simp)
        · rw [AList.lookup_erase_ne hi] at hq
          exact hkey i q hq
      obtain ⟨h1, h2⟩ := ih (m.erase id) hkey'
      constructor
      · simp only [List.map_cons, hid]
        rw [h1, List.filter_cons, if_pos (by simpa using hmem), List.filter_filter]
        congr 1
        apply List.filter_congr
        intro i _
        simp only [AList.mem_erase, ne_eq, decide_not, Bool.decide_and, Bool.and_comm]
      · intro q hq
        rcases List.mem_cons.mp hq with rfl | hq'
        · rw [hid]; exact h
        · have h3 := h2 q hq'
          by_cases hi : q.id = id
          · rw [hi, AList.lookup_erase] at h3
            exact absurd h3 (by simp)
          · rwa [AList.lookup_erase_ne hi] at h3

theorem alist_entries_nil_of_no_mem (m : AList (fun _ : String => Peer))
    (h : ∀ i, i ∉ m) : m.entries = [] := by
  have hk : m.keys = [] := List.eq_nil_iff_forall_not_mem.mpr (fun i hi => h i (AList.mem_keys.mpr hi))
  simpa [AList.keys, List.keys] using hk

theorem picks_nil_of_no_mem (order : List String) (m : AList (fun _ : String => Peer))
    (h : ∀ i, i ∉ m) : picks m order = [] := by
  induction order with
  | nil => rfl
  | cons id rest ih =>
    simp only [picks, AList.lookup_eq_none.mpr (h id)]
    exact ih

theorem mem_eraseAll (order : List String) (m : AList (fun _ : String => Peer))
    (i : String) : i ∈ eraseAll m order ↔ i ∈ m ∧ i ∉ order :=
  mem_foldl_erase order m i

theorem lookup_eraseAll (order : List String) (m : AList (fun _ : String => Peer))
    (i : String) (p : Peer) (h : (eraseAll m order).lookup i = some p) :
    m.lookup i = some p :=
  lookup_foldl_erase order m i p h

/-- The keys of `by_id` are the ids of the peers, and the value under a key is
a peer of the list with that id. -/
theorem byIdOf_spec (peers : List Peer) :
    (∀ i, i ∈ byIdOf peers ↔ i ∈ peers.map Peer.id) ∧
    (∀ i p, (byIdOf peers).lookup i = some p → p ∈ peers ∧ p.id = i) := by
  obtain ⟨h1, h2⟩ := by_id_spec peers ∅
  constructor
  · intro i
    have := h1 i
    simpa [AList.not_mem_empty] using this
  · intro i p hp
    rcases h2 i p hp with h | h
    · rw [AList.lookup_empty] at h
      exact absurd h (by simp)
    · exact h

/-- The vector `ordered` of `draw_group_table` in one expression. -/
theorem draw_group_table_eq (g_group_order : Nat → Option (List String)) (prof : Nat)
    (peers_snapshot : List Peer) :
    draw_group_table g_group_order prof peers_snapshot =
      picks (byIdOf (groupPeers prof peers_snapshot)) ((g_group_order prof).getD []) ++
        (((eraseAll (byIdOf (groupPeers prof peers_snapshot))
            ((g_group_order prof).getD [])).entries.map Sigma.snd).insertionSort
              (fun a b => peer_less b a = false)) := by
  have hgrp : peers_snapshot.filter
      (fun p => if prof = 0 then decide (p.prof = 0) else decide (p.prof = prof)) =
      groupPeers prof peers_snapshot := by
    unfold groupPeers
    apply List.filter_congr
    intro p _
    by_cases h0 : prof = 0
    · simp [h0]
    · simp [h0]
  have hord : (match g_group_order prof with
      | some v => v
      | none => []) = (g_group_order prof).getD [] := by
    cases g_group_order prof <;> rfl
  simp only [draw_group_table, hgrp, hord, foldl_draw_pick, List.nil_append]
  change (if (groupPeers prof peers_snapshot).isEmpty = true then [] else
    if (eraseAll (byIdOf (groupPeers prof peers_snapshot))
        ((g_group_order prof).getD [])).entries.isEmpty = true then
      picks (byIdOf (groupPeers prof peers_snapshot)) ((g_group_order prof).getD [])
    else _) = _
  by_cases he : (groupPeers prof peers_snapshot).isEmpty = true
  · rw [if_pos he]
    have hnil : groupPeers prof peers_snapshot = [] := List.isEmpty_iff.mp he
    have hno : ∀ i, i ∉ byIdOf [] := AList.not_mem_empty
    rw [hnil, picks_nil_of_no_mem _ _ hno,
      alist_entries_nil_of_no_mem (eraseAll (byIdOf []) ((g_group_order prof).getD []))
        (fun i hi => hno i ((mem_eraseAll _ _ i).mp hi).1)]
    rfl
  · rw [if_neg he]
    split_ifs with h2
    · rw [List.isEmpty_iff.mp h2]
      simp
    · rfl

/-- The peers left in `by_id` after the loop, sorted: each is a peer of the
group whose id is not in `order`, the ids are distinct, every id of the map
that is not in `order` is there, and the comparator holds between each peer
and every later one. -/
theorem sorted_rest_spec (peers : List Peer) (order : List String) :
    (∀ p ∈ ((eraseAll (byIdOf peers) order).entries.map Sigma.snd).insertionSort
        (fun a b => peer_less b a = false), p ∈ peers ∧ p.id ∉ order) ∧
    ((((eraseAll (byIdOf peers) order).entries.map Sigma.snd).insertionSort
        (fun a b => peer_less b a = false)).map Peer.id).Nodup ∧
    (∀ i, i ∈ peers.map Peer.id → i ∉ order →
      i ∈ (((eraseAll (byIdOf peers) order).entries.map Sigma.snd).insertionSort
        (fun a b => peer_less b a = false)).map Peer.id) ∧
    (((eraseAll (byIdOf peers) order).entries.map Sigma.snd).insertionSort
        (fun a b => peer_less b a = false)).Pairwise (fun a b => peer_less a b = true) := by
  obtain ⟨hmem0, hlook0⟩ := byIdOf_spec peers
  have hperm := List.perm_insertionSort (fun a b : Peer => peer_less b a = false)
    ((eraseAll (byIdOf peers) order).entries.map Sigma.snd)
  have hentry : ∀ e ∈ (eraseAll (byIdOf peers) order).entries,
      e.2 ∈ peers ∧ e.2.id = e.1 ∧ e.1 ∉ order := by
    intro e he
    have hl : (eraseAll (byIdOf peers) order).lookup e.1 = some e.2 :=
      AList.mem_lookup_iff.mpr he
    have hin : e.1 ∈ eraseAll (byIdOf peers) order := by
      rw [← AList.lookup_isSome, hl]; rfl
    obtain ⟨h1, h2⟩ := hlook0 e.1 e.2 (lookup_eraseAll order _ e.1 e.2 hl)
    exact ⟨h1, h2, ((mem_eraseAll order _ e.1).mp hin).2⟩
  have hids : ((eraseAll (byIdOf peers) order).entries.map Sigma.snd).map Peer.id =
      (eraseAll (byIdOf peers) order).keys := by
    rw [List.map_map, AList.keys, List.keys]
    apply List.map_congr_left
    intro e he
    exact (hentry e he).2.1
  have hnodup : ((((eraseAll (byIdOf peers) order).entries.map Sigma.snd).insertionSort
      (fun a b => peer_less b a = false)).map Peer.id).Nodup := by
    rw [(hperm.map Peer.id).nodup_iff, hids]
    exact AList.keys_nodup _
  refine ⟨?_, hnodup, ?_, ?_⟩
  · intro p hp
    obtain ⟨e, he, rfl⟩ := List.mem_map.mp (hperm.subset hp)
    obtain ⟨h1, h2, h3⟩ := hentry e he
    exact ⟨h1, by rw [h2]; exact h3⟩
  · intro i hi hno
    rw [(hperm.map Peer.id).mem_iff, hids, ← AList.mem_keys, mem_eraseAll]
    exact ⟨(hmem0 i).mpr hi, hno⟩
  · haveI : IsTotal Peer (fun a b => peer_less b a = false) :=
      ⟨fun a b => by
        rw [peer_less_false_iff, peer_less_false_iff]
        exact le_total _ _⟩
    haveI : IsTrans Peer (fun a b => peer_less b a = false) :=
      ⟨fun a b c hab hbc => by
        rw [peer_less_false_iff] at hab hbc ⊢
        exact le_trans hab hbc⟩
    have hs := List.sorted_insertionSort (fun a b : Peer => peer_less b a = false)
      ((eraseAll (byIdOf peers) order).entries.map Sigma.snd)
    have hne := List.pairwise_map.mp hnodup
    refine (List.Pairwise.and hs hne).imp ?_
    rintro a b ⟨hab, hid⟩
    rw [peer_less_false_iff] at hab
    rw [peer_less_iff]
    refine lt_of_le_of_ne hab (fun he => hid ?_)
    have := congrArg (fun k : Lex (String × String) => (ofLex k).2) he
    simpa [displayKey] using this

/-- Claim C17.  For every displayed group the vector `ordered` of
`draw_group_table` is `listed ++ extra`: `listed` holds the peers of the group
whose id occurs in the sequence of the group in `g_group_order`, in the order
of (the first occurrences in) that sequence; `extra` holds the remaining peers
of the group, sorted ascending by (name, or id when the name is empty, then
id).  The result has every peer id of the group once, also when the sequence
has repeated ids or ids of absent peers. -/
theorem draw_group_table_order (g_group_order : Nat → Option (List String)) (prof : Nat)
    (peers_snapshot : List Peer) :
    ∃ listed extra : List Peer,
      draw_group_table g_group_order prof peers_snapshot = listed ++ extra ∧
      listed.map Peer.id =
        (keepFirst ((g_group_order prof).getD [])).filter
          (fun i => decide (i ∈ (groupPeers prof peers_snapshot).map Peer.id)) ∧
      (((g_group_order prof).getD []).Nodup →
        listed.map Peer.id =
          ((g_group_order prof).getD []).filter
            (fun i => decide (i ∈ (groupPeers prof peers_snapshot).map Peer.id))) ∧
      (∀ p ∈ extra, p.id ∉ (g_group_order prof).getD []) ∧
      extra.Pairwise (fun a b => peer_less a b = true) ∧
      ((listed ++ extra).map Peer.id).Nodup ∧
      (∀ i, i ∈ (listed ++ extra).map Peer.id ↔
        i ∈ (groupPeers prof peers_snapshot).map Peer.id) ∧
      (∀ p ∈ listed ++ extra, p ∈ groupPeers prof peers_snapshot) := by
  obtain ⟨hmem0, hlook0⟩ := byIdOf_spec (groupPeers prof peers_snapshot)
  obtain ⟨hp1, hp2⟩ := picks_ids ((g_group_order prof).getD [])
    (byIdOf (groupPeers prof peers_snapshot)) (fun i p h => (hlook0 i p h).2)
  obtain ⟨he1, he2, he3, he4⟩ := sorted_rest_spec (groupPeers prof peers_snapshot)
    ((g_group_order prof).getD [])
  have hlisted : (picks (byIdOf (groupPeers prof peers_snapshot))
      ((g_group_order prof).getD [])).map Peer.id =
      (keepFirst ((g_group_order prof).getD [])).filter
        (fun i => decide (i ∈ (groupPeers prof peers_snapshot).map Peer.id)) := by
    rw [hp1]
    apply List.filter_congr
    intro i _
    simp only [hmem0 i]
  refine ⟨_, _, draw_group_table_eq g_group_order prof peers_snapshot, hlisted, ?_,
    fun p hp => (he1 p hp).2, he4, ?_, ?_, ?_⟩
  · intro hnd
    rw [hlisted, keepFirst_of_nodup _ hnd]
  · rw [List.map_append]
    refine List.nodup_append.mpr ⟨?_, he2, ?_⟩
    · rw [hlisted]
      exact (keepFirst_nodup _).filter _
    · intro i hi1 hi2
      rw [hlisted] at hi1
      have hin : i ∈ (g_group_order prof).getD [] :=
        (keepFirst_mem _ i).mp (List.mem_filter.mp hi1).1
      obtain ⟨p, hp, rfl⟩ := List.mem_map.mp hi2
      exact (he1 p hp).2 hin
  · intro i
    rw [List.map_append, List.mem_append]
    constructor
    · rintro (hi | hi)
      · rw [hlisted] at hi
        simpa using (List.mem_filter.mp hi).2
      · obtain ⟨p, hp, rfl⟩ := List.mem_map.mp hi
        exact List.mem_map_of_mem _ (he1 p hp).1
    · intro hi
      by_cases hin : i ∈ (g_group_order prof).getD []
      · left
        rw [hlisted]
        exact List.mem_filter.mpr ⟨(keepFirst_mem _ i).mpr hin, by simpa using hi⟩
      · right
        exact he3 i hi hin
  · intro p hp
    rcases List.mem_append.mp hp with h | h
    · exact (hlook0 p.id p (hp2 p h)).1
    · exact (he1 p h).1

/-- The order of claim C17 on a concrete group: the sequence `b`, `zz`, `b`
lists `b` once, the absent `zz` is skipped, and the remaining peers follow by
name (`Zed` before `d`, whose empty name is replaced by its id). -/
theorem display_order_example :
    (draw_group_table (fun _ => some ["b", "zz", "b"]) 1
      [{ id := "d", prof := 1 }, { id := "a", name := "Zed", prof := 1 },
       { id := "b", name := "Bo", prof := 1 }, { id := "c", prof := 2 }]).map Peer.id
      = ["b", "a", "d"] := by
  have hlt : ("Zed" : String) < "d" := by
    rw [String.lt_iff_toList_lt]
    decide
  have hne : ¬ ("d" : String) < "Zed" := not_lt_of_lt hlt
  simp [draw_group_table, draw_pick, peer_less, List.insertionSort, List.orderedInsert,
    AList.insert, AList.lookup, AList.erase, List.kerase, List.dlookup, List.kinsert, hlt, hne]

/-! ## Helper lemmas on repeated queries at one clock reading -/

theorem sim_refl (st : SlotTimer) : st.sim st := ⟨rfl, rfl, rfl, rfl, rfl⟩

theorem sim_symm {st st' : SlotTimer} (h : st.sim st') : st'.sim st :=
  ⟨h.1.symm, h.2.1.symm, h.2.2.1.symm, h.2.2.2.1.symm, h.2.2.2.2.symm⟩

theorem sim_trans {s1 s2 s3 : SlotTimer} (h : s1.sim s2) (h' : s2.sim s3) : s1.sim s3 :=
  ⟨h.1.trans h'.1, h.2.1.trans h'.2.1, h.2.2.1.trans h'.2.2.1, h.2.2.2.1.trans h'.2.2.2.1,
    h.2.2.2.2.trans h'.2.2.2.2⟩

theorem settled_of_sim {now : ℚ} {st st' : SlotTimer} (h : st.sim st')
    (hs : st.settled now) : st'.settled now := by
  unfold SlotTimer.settled at hs ⊢
  rw [← h.1, ← h.2.2.1, ← h.2.2.2.2]
  exact hs

theorem simO_refl (o : Option SlotTimer) : simO o o := by
  cases o with
  | none => trivial
  | some st => exact sim_refl st

theorem simO_trans {o1 o2 o3 : Option SlotTimer} (h : simO o1 o2) (h' : simO o2 o3) :
    simO o1 o3 := by
  cases o1 <;> cases o2 <;> cases o3 <;> simp only [simO] at h h' ⊢
  exact sim_trans h h'

theorem settledValue_of_sim (now b : ℚ) {st st' : SlotTimer} (h : st.sim st') :
    settledValue now st b = settledValue now st' b := by
  obtain ⟨h1, h2, h3, h4, -⟩ := h
  simp only [settledValue, h1, h2, h3, h4]

theorem timerQuery_of_cancel (now : ℚ) (a c : Bool) (st : SlotTimer) (b : ℚ)
    (hc : st.cancel_active = true) :
    timerQuery now a c st b = (settledValue now st b, st) := by
  unfold timerQuery
  rw [if_pos hc]
  refine Prod.ext ?_ (predict_left_snd_of_cancel st now false false hc)
  simp only [SlotTimer.predict_left, settledValue, hc, if_true]
  split_ifs <;> rfl

theorem timerQuery_of_nonpos (now : ℚ) (a c : Bool) (st : SlotTimer) (b : ℚ)
    (hc : st.cancel_active = false) (hb : b ≤ 0) :
    timerQuery now a c st b = (-1, st) := by
  unfold timerQuery
  rw [if_neg (by rw [hc]; simp), if_pos hb]

/-- The value of `predict_left` on a timer in normal mode with a positive base
is read off the advanced timer. -/
theorem predict_left_fst_settledValue (now : ℚ) (a c : Bool) (st : SlotTimer)
    (hc : st.cancel_active = false) (hb : 0 < st.base_cd) :
    (st.predict_left now a c).1 = settledValue now (st.advance now a c) st.base_cd := by
  have hca : (st.advance now a c).cancel_active = false := by
    rw [advance_eq]; split_ifs <;> exact hc
  have hba : (st.advance now a c).base_cd = st.base_cd := advance_base_cd _ _ _ _
  have hnb : ¬ st.base_cd ≤ 0 := not_le.mpr hb
  simp only [SlotTimer.predict_left, settledValue, hc, hca, hba, hnb, Bool.false_eq_true,
    if_false, or_false]
  split_ifs <;> rfl

/-- A query with a positive base on a timer in normal mode: the base is
stored, `advance` runs and the value is read off the advanced timer. -/
theorem timerQuery_of_pos (now : ℚ) (a c : Bool) (st : SlotTimer) (b : ℚ)
    (hc : st.cancel_active = false) (hb : 0 < b) :
    timerQuery now a c st b =
      (settledValue now (({ st with base_cd := b } : SlotTimer).advance now a c) b,
       ({ st with base_cd := b } : SlotTimer).advance now a c) := by
  unfold timerQuery
  rw [if_neg (by rw [hc]; simp), if_neg (not_le.mpr hb)]
  exact Prod.ext (predict_left_fst_settledValue now a c _ hc hb)
    (predict_left_snd_of_not_cancel _ now a c hc)

/-- The advance of a query with a positive base, on a timer in normal mode. -/
theorem advance_with_base (now : ℚ) (a c : Bool) (st : SlotTimer) (b : ℚ)
    (hc : st.cancel_active = false) (hb : 0 < b) :
    (st.last_cast_s < 0 →
      ({ st with base_cd := b } : SlotTimer).advance now a c = { st with base_cd := b }) ∧
    (¬ st.last_cast_s < 0 → now ≤ st.updateOrigin →
      ({ st with base_cd := b } : SlotTimer).advance now a c =
        { st with base_cd := b, last_update_s := st.updateOrigin }) ∧
    (¬ st.last_cast_s < 0 → ¬ now ≤ st.updateOrigin →
      ({ st with base_cd := b } : SlotTimer).advance now a c =
        { st with
          base_cd := b
          elapsed := min b (st.elapsed + (now - st.updateOrigin) * specSpeed a c)
          last_update_s := now }) := by
  have horig : ({ st with base_cd := b } : SlotTimer).updateOrigin = st.updateOrigin := rfl
  refine ⟨fun hl => ?_, fun hl hnow => ?_, fun hl hnow => ?_⟩
  · rw [advance_eq, if_pos (Or.inr (Or.inl hl))]
  · rw [advance_eq, if_neg (by
      rintro (h | h | h)
      · rw [show ({ st with base_cd := b } : SlotTimer).cancel_active = false from hc] at h
        exact absurd h (by simp)
      · exact hl h
      · exact not_le.mpr hb h), horig, if_pos hnow]
  · rw [advance_eq, if_neg (by
      rintro (h | h | h)
      · rw [show ({ st with base_cd := b } : SlotTimer).cancel_active = false from hc] at h
        exact absurd h (by simp)
      · exact hl h
      · exact not_le.mpr hb h), horig, if_neg hnow]

theorem updateOrigin_repaired (st : SlotTimer) (b : ℚ) (hl : ¬ st.last_cast_s < 0) :
    ({ st with base_cd := b, last_update_s := st.updateOrigin } : SlotTimer).updateOrigin =
      st.updateOrigin := by
  simp only [SlotTimer.updateOrigin]
  by_cases hu : st.last_update_s < 0
  · simp only [hu, if_true, hl, if_false]
  · simp only [hu, if_false]

/-- The value of a query is the settled value of the timer it leaves. -/
theorem timerQuery_fst (now : ℚ) (a c : Bool) (st : SlotTimer) (b : ℚ) :
    (timerQuery now a c st b).1 = settledValue now (timerQuery now a c st b).2 b := by
  cases hc : st.cancel_active with
  | true => rw [timerQuery_of_cancel now a c st b hc]
  | false =>
    by_cases hb : b ≤ 0
    · rw [timerQuery_of_nonpos now a c st b hc hb]
      unfold settledValue
      rw [if_neg (by rw [hc]; simp), if_pos hb]
    · rw [timerQuery_of_pos now a c st b hc (not_le.mp hb)]

/-- A query on a settled timer changes nothing that a query reads. -/
theorem timerQuery_sim_of_settled (now : ℚ) (a c : Bool) (st : SlotTimer) (b : ℚ)
    (hs : st.settled now) : st.sim (timerQuery now a c st b).2 := by
  cases hc : st.cancel_active with
  | true => rw [timerQuery_of_cancel now a c st b hc]; exact sim_refl st
  | false =>
    by_cases hb : b ≤ 0
    · rw [timerQuery_of_nonpos now a c st b hc hb]; exact sim_refl st
    · rw [timerQuery_of_pos now a c st b hc (not_le.mp hb)]
      obtain ⟨h1, h2, -⟩ := advance_with_base now a c st b hc (not_le.mp hb)
      by_cases hl : st.last_cast_s < 0
      · rw [h1 hl]
        exact ⟨rfl, rfl, rfl, rfl, rfl⟩
      · have hnow : now ≤ st.updateOrigin := by
          rcases hs with h | h | h
          · rw [hc] at h; exact absurd h (by simp)
          · exact absurd h hl
          · exact h
        rw [h2 hl hnow]
        exact ⟨rfl, rfl, rfl, rfl, (updateOrigin_repaired st b hl).symm⟩

/-- A query in cancel mode or with a positive base leaves a settled timer. -/
theorem timerQuery_settled (now : ℚ) (a c : Bool) (st : SlotTimer) (b : ℚ)
    (h : st.cancel_active = true ∨ 0 < b) : (timerQuery now a c st b).2.settled now := by
  cases hc : st.cancel_active with
  | true => rw [timerQuery_of_cancel now a c st b hc]; exact Or.inl hc
  | false =>
    have hb : 0 < b := by
      rcases h with h | h
      · rw [hc] at h; exact absurd h (by simp)
      · exact h
    rw [timerQuery_of_pos now a c st b hc hb]
    obtain ⟨h1, h2, h3⟩ := advance_with_base now a c st b hc hb
    by_cases hl : st.last_cast_s < 0
    · rw [h1 hl]
      exact Or.inr (Or.inl hl)
    · by_cases hnow : now ≤ st.updateOrigin
      · rw [h2 hl hnow]
        refine Or.inr (Or.inr ?_)
        rw [updateOrigin_repaired st b hl]
        exact hnow
      · rw [h3 hl hnow]
        refine Or.inr (Or.inr ?_)
        simp only [SlotTimer.updateOrigin]
        by_cases hn : now < 0
        · rw [if_pos hn]
          linarith [not_lt.mp hl]
        · rw [if_neg hn]

theorem timerQuery_cancel_active (now : ℚ) (a c : Bool) (st : SlotTimer) (b : ℚ) :
    (timerQuery now a c st b).2.cancel_active = st.cancel_active := by
  cases hc : st.cancel_active with
  | true => rw [timerQuery_of_cancel now a c st b hc]; exact hc
  | false =>
    by_cases hb : b ≤ 0
    · rw [timerQuery_of_nonpos now a c st b hc hb]; exact hc
    · rw [timerQuery_of_pos now a c st b hc (not_le.mp hb)]
      obtain ⟨h1, h2, h3⟩ := advance_with_base now a c st b hc (not_le.mp hb)
      by_cases hl : st.last_cast_s < 0
      · rw [h1 hl]; exact hc
      · by_cases hnow : now ≤ st.updateOrigin
        · rw [h2 hl hnow]; exact hc
        · rw [h3 hl hnow]; exact hc

theorem get_base_cd_fst_indep (cache : Nat → Option ℚ) (p p' : Finset Nat) (sid : Nat)
    (row_base : ℚ) :
    (get_base_cd_for_skill cache p sid row_base).1 =
      (get_base_cd_for_skill cache p' sid row_base).1 := by
  unfold get_base_cd_for_skill
  split
  · rfl
  · split_ifs
    · rfl
    · split <;> rfl

/-- `compute_left_for` on a timer that exists, as a query on that timer. -/
theorem compute_left_for_query (g : Globals) (sid : Nat) (row_base now : ℚ) (st : SlotTimer)
    (hst : g.g_by_skill sid = some st) :
    (compute_left_for g sid row_base now).1 =
      (timerQuery now g.g_self.has_alacrity g.g_self.has_chill st
        (get_base_cd_for_skill g.g_api_cd_cache g.g_cd_pending sid row_base).1).1 ∧
    (compute_left_for g sid row_base now).2.g_by_skill =
      Function.update g.g_by_skill sid
        (some (timerQuery now g.g_self.has_alacrity g.g_self.has_chill st
          (get_base_cd_for_skill g.g_api_cd_cache g.g_cd_pending sid row_base).1).2) := by
  cases hc : st.cancel_active with
  | true =>
    rw [compute_left_for_of_cancel g sid row_base now st hst hc,
      timerQuery_of_cancel now _ _ st _ hc]
    refine ⟨?_, ?_⟩
    · simp only [SlotTimer.predict_left, settledValue, hc, if_true]
      split_ifs <;> rfl
    · rw [← hst, Function.update_eq_self]
  | false =>
    rw [compute_left_for_of_not_cancel g sid row_base now st hst hc]
    by_cases hb : (get_base_cd_for_skill g.g_api_cd_cache g.g_cd_pending sid row_base).1 ≤ 0
    · rw [if_pos hb, timerQuery_of_nonpos now _ _ st _ hc hb]
      refine ⟨rfl, ?_⟩
      show g.g_by_skill = _
      rw [← hst, Function.update_eq_self]
    · rw [if_neg hb]
      unfold timerQuery
      rw [if_neg (by rw [hc]; simp), if_neg hb]
      exact ⟨rfl, rfl⟩

theorem keeps_refl (now : ℚ) (o : Option SlotTimer) : keeps now o o := by
  cases o with
  | none => trivial
  | some st => exact ⟨rfl, fun _ => sim_refl st⟩

theorem keeps_trans {now : ℚ} {o1 o2 o3 : Option SlotTimer} (h : keeps now o1 o2)
    (h' : keeps now o2 o3) : keeps now o1 o3 := by
  cases o1 <;> cases o2 <;> cases o3 <;> simp only [keeps] at h h' ⊢
  exact ⟨h.1.trans h'.1, fun hs =>
    sim_trans (h.2 hs) (h'.2 (settled_of_sim (h.2 hs) hs))⟩

/-- One query keeps every table entry in the sense of `keeps`. -/
theorem compute_left_for_keeps (g : Globals) (sid : Nat) (row_base now : ℚ) (k : Nat) :
    keeps now (g.g_by_skill k) ((compute_left_for g sid row_base now).2.g_by_skill k) := by
  cases hst : g.g_by_skill sid with
  | none =>
    have : compute_left_for g sid row_base now = (-1, g) := by
      simp only [compute_left_for, hst]
    rw [this]
    exact keeps_refl now _
  | some st =>
    rw [(compute_left_for_query g sid row_base now st hst).2]
    by_cases hk : k = sid
    · subst hk
      rw [Function.update_same, hst]
      exact ⟨(timerQuery_cancel_active now _ _ st _).symm,
        fun hs => timerQuery_sim_of_settled now _ _ st _ hs⟩
    · rw [Function.update_noteq hk]
      exact keeps_refl now _

/-- A pass of queries keeps every table entry in the sense of `keeps`. -/
theorem inject_entries_keeps (now : ℚ) (es : List TrackedEntry) (g : Globals) (k : Nat) :
    keeps now (g.g_by_skill k) ((inject_entries now g es).2.g_by_skill k) := by
  induction es generalizing g with
  | nil => exact keeps_refl now _
  | cons e es ih =>
    unfold inject_entries
    split_ifs
    · exact ih g
    · exact keeps_trans (compute_left_for_keeps g e.skillid e.base_cd now k) (ih _)

theorem none_iff_of_keeps {now : ℚ} {o1 o2 : Option SlotTimer} (h : keeps now o1 o2) :
    o1 = none ↔ o2 = none := by
  cases o1 <;> cases o2 <;> simp_all [keeps]

theorem none_iff_of_simO {o1 o2 : Option SlotTimer} (h : simO o1 o2) :
    o1 = none ↔ o2 = none := by
  cases o1 <;> cases o2 <;> simp_all [simO]

/-- One query made again on a table that is `sim` to the table a pass leaves:
the value is the one of the first query, and the table stays `sim` to it. -/
theorem compute_left_for_again (now : ℚ) (g gB F : Globals) (sid : Nat) (row_base : ℚ)
    (hcache : gB.g_api_cd_cache = g.g_api_cd_cache) (hself : gB.g_self = g.g_self)
    (hkeep : ∀ k, keeps now ((compute_left_for g sid row_base now).2.g_by_skill k)
      (F.g_by_skill k))
    (hsim : ∀ k, simO (F.g_by_skill k) (gB.g_by_skill k)) :
    (compute_left_for gB sid row_base now).1 = (compute_left_for g sid row_base now).1 ∧
    (∀ k, simO (F.g_by_skill k) ((compute_left_for gB sid row_base now).2.g_by_skill k)) := by
  cases hst : g.g_by_skill sid with
  | none =>
    have hg : compute_left_for g sid row_base now = (-1, g) := by
      simp only [compute_left_for, hst]
    have hF : F.g_by_skill sid = none := by
      have := hkeep sid
      rw [hg, hst] at this
      cases hFs : F.g_by_skill sid with
      | none => rfl
      | some x => rw [hFs] at this; exact this.elim
    have hB : gB.g_by_skill sid = none := by
      have := hsim sid
      rw [hF] at this
      cases hBs : gB.g_by_skill sid with
      | none => rfl
      | some x => rw [hBs] at this; exact this.elim
    have hgB : compute_left_for gB sid row_base now = (-1, gB) := by
      simp only [compute_left_for, hB]
    rw [hg, hgB]
    exact ⟨rfl, hsim⟩
  | some st =>
    obtain ⟨hv, ht⟩ := compute_left_for_query g sid row_base now st hst
    have hk := hkeep sid
    rw [ht, Function.update_same] at hk
    cases hFs : F.g_by_skill sid with
    | none => rw [hFs] at hk; exact hk.elim
    | some stF =>
      rw [hFs] at hk
      have hs := hsim sid
      rw [hFs] at hs
      cases hBs : gB.g_by_skill sid with
      | none => rw [hBs] at hs; exact hs.elim
      | some stB =>
        rw [hBs] at hs
        obtain ⟨hvB, htB⟩ := compute_left_for_query gB sid row_base now stB hBs
        rw [hcache, hself,
          get_base_cd_fst_indep g.g_api_cd_cache gB.g_cd_pending g.g_cd_pending] at hvB htB
        -- abbreviations
        have hcanc : st.cancel_active = stB.cancel_active := by
          rw [← timerQuery_cancel_active now g.g_self.has_alacrity g.g_self.has_chill st
            (get_base_cd_for_skill g.g_api_cd_cache g.g_cd_pending sid row_base).1]
          exact hk.1.trans hs.1
        have key : stB.sim (timerQuery now g.g_self.has_alacrity g.g_self.has_chill stB
              (get_base_cd_for_skill g.g_api_cd_cache g.g_cd_pending sid row_base).1).2 ∧
            (timerQuery now g.g_self.has_alacrity g.g_self.has_chill stB
              (get_base_cd_for_skill g.g_api_cd_cache g.g_cd_pending sid row_base).1).1 =
            (timerQuery now g.g_self.has_alacrity g.g_self.has_chill st
              (get_base_cd_for_skill g.g_api_cd_cache g.g_cd_pending sid row_base).1).1 := by
          by_cases htouch : st.cancel_active = true ∨
              0 < (get_base_cd_for_skill g.g_api_cd_cache g.g_cd_pending sid row_base).1
          · have hset1 := timerQuery_settled now g.g_self.has_alacrity g.g_self.has_chill st _
              htouch
            have hsim1 := hk.2 hset1
            have hsetB : stB.settled now := settled_of_sim (sim_trans hsim1 hs) hset1
            have hsimB := timerQuery_sim_of_settled now g.g_self.has_alacrity
              g.g_self.has_chill stB
              (get_base_cd_for_skill g.g_api_cd_cache g.g_cd_pending sid row_base).1 hsetB
            refine ⟨hsimB, ?_⟩
            rw [timerQuery_fst, timerQuery_fst now _ _ st]
            exact (settledValue_of_sim now _ (sim_trans (sim_trans hsim1 hs) hsimB)).symm
          · push_neg at htouch
            obtain ⟨hc, hb⟩ := htouch
            have hc' : st.cancel_active = false := by simpa using hc
            have hcB : stB.cancel_active = false := by rw [← hcanc]; exact hc'
            rw [timerQuery_of_nonpos now _ _ st _ hc' hb,
              timerQuery_of_nonpos now _ _ stB _ hcB hb]
            exact ⟨sim_refl stB, rfl⟩
        refine ⟨by rw [hvB, hv]; exact key.2, fun k => ?_⟩
        rw [htB]
        by_cases hkk : k = sid
        · subst hkk
          rw [Function.update_same, hFs]
          exact sim_trans hs key.1
        · rw [Function.update_noteq hkk]
          exact hsim k

/-- A pass of queries made again, at the same clock reading, on a table that is
`sim` to the table the first pass left, pushes the same entries. -/
theorem inject_entries_again (now : ℚ) (es : List TrackedEntry) (g gB : Globals)
    (hcache : gB.g_api_cd_cache = g.g_api_cd_cache) (hself : gB.g_self = g.g_self)
    (hsim : ∀ k, simO ((inject_entries now g es).2.g_by_skill k) (gB.g_by_skill k)) :
    (inject_entries now gB es).1 = (inject_entries now g es).1 := by
  induction es generalizing g gB with
  | nil => rfl
  | cons e es ih =>
    unfold inject_entries at hsim ⊢
    by_cases hskip : (!e.enabled || e.skillid == 0) = true
    · rw [if_pos hskip] at hsim ⊢
      rw [if_pos hskip]
      exact ih g gB hcache hself hsim
    · rw [if_neg hskip] at hsim ⊢
      rw [if_neg hskip]
      dsimp only at hsim ⊢
      obtain ⟨hv, hsim'⟩ := compute_left_for_again now g gB
        (inject_entries now (compute_left_for g e.skillid e.base_cd now).2 es).2 e.skillid
        e.base_cd hcache hself (fun k => inject_entries_keeps now es _ k) hsim
      have hfg := compute_left_for_frame g e.skillid e.base_cd now
      have hfB := compute_left_for_frame gB e.skillid e.base_cd now
      have htail := ih (compute_left_for g e.skillid e.base_cd now).2
        (compute_left_for gB e.skillid e.base_cd now).2
        (by rw [hfB.2.2.2.2.2.1, hfg.2.2.2.2.2.1, hcache])
        (by rw [hfB.2.2.2.2.1, hfg.2.2.2.2.1, hself]) hsim'
      rw [htail, hv]
      have hpres : (compute_left_for gB e.skillid e.base_cd now).2.g_by_skill e.skillid = none ↔
          (compute_left_for g e.skillid e.base_cd now).2.g_by_skill e.skillid = none := by
        exact (none_iff_of_simO (hsim' e.skillid)).symm.trans
          (none_iff_of_keeps (inject_entries_keeps now es
            (compute_left_for g e.skillid e.base_cd now).2 e.skillid)).symm
      simp only [hpres]

/-! ## Helper lemmas on repeated reconciliation -/

theorem ensure_group_order_eq (g : Globals) :
    (ensure_group_membership_locked g).g_group_order = ensureOrder g.g_peers g.g_group_order := by
  funext k
  rw [ensure_group_order_at]
  rfl

theorem newIds_append_seen (k : Nat) (ps qs : List Peer) (seen : Finset String)
    (h : ∀ p ∈ ps, p.prof = k → p.id ∈ seen) :
    newIds k seen (ps ++ qs) = newIds k seen qs := by
  induction ps with
  | nil => rfl
  | cons p ps ih =>
    have hp : ¬ (p.prof = k ∧ p.id ∉ seen) := by
      rintro ⟨h1, h2⟩
      exact h2 (h p (List.mem_cons_self _ _) h1)
    simp only [List.cons_append, newIds, hp, if_false]
    exact ih (fun q hq => h q (List.mem_cons_of_mem _ hq))

theorem newIds_nil_of_seen (k : Nat) (ps : List Peer) (seen : Finset String)
    (h : ∀ p ∈ ps, p.prof = k → p.id ∈ seen) : newIds k seen ps = [] := by
  have := newIds_append_seen k ps [] seen h
  rw [List.append_nil] at this
  rw [this]
  rfl

theorem newIds_mem (k : Nat) (ps : List Peer) (seen : Finset String) (p : Peer)
    (hp : p ∈ ps) (hk : p.prof = k) : p.id ∈ seen ∨ p.id ∈ newIds k seen ps := by
  induction ps generalizing seen with
  | nil => simp at hp
  | cons q qs ih =>
    simp only [newIds]
    rcases List.mem_cons.mp hp with rfl | hq
    · by_cases hs : p.id ∈ seen
      · exact Or.inl hs
      · right
        rw [if_pos ⟨hk, hs⟩]
        exact List.mem_cons_self _ _
    · split_ifs with hc
      · rcases ih (insert q.id seen) hq with h | h
        · rcases Finset.mem_insert.mp h with h' | h'
          · right; rw [h']; exact List.mem_cons_self _ _
          · exact Or.inl h'
        · exact Or.inr (List.mem_cons_of_mem _ h)
      · exact ih seen hq

/-- Reconciliation gives a group order that it leaves as it is. -/
theorem ensureOrder_stable (peers : List Peer) (o : Nat → Option (List String)) :
    stableFor peers (ensureOrder peers o) := by
  intro k
  unfold ensureOrder
  constructor
  · intro h
    split_ifs at h with hc
    exact hc.2
  · intro l hl
    split_ifs at hl with hc
    have hl' := Option.some.inj hl
    subst hl'
    constructor
    · intro i hi
      simpa using (List.mem_filter.mp hi).2
    · intro p hp hk
      refine List.mem_filter.mpr ⟨?_, by simpa using List.mem_map_of_mem Peer.id hp⟩
      rcases newIds_mem k peers ((o k).getD []).toFinset p hp hk with h | h
      · exact List.mem_append_left _ (List.mem_toFinset.mp h)
      · exact List.mem_append_right _ h

theorem ensureOrder_of_stable (peers : List Peer) (o : Nat → Option (List String))
    (h : stableFor peers o) : ensureOrder peers o = o := by
  funext k
  obtain ⟨h1, h2⟩ := h k
  unfold ensureOrder
  cases ho : o k with
  | none =>
    rw [if_pos ⟨rfl, h1 ho⟩]
  | some l =>
    rw [if_neg (by simp)]
    obtain ⟨h3, h4⟩ := h2 l ho
    simp only [Option.getD_some]
    rw [newIds_nil_of_seen k peers _ (fun p hp hk => List.mem_toFinset.mpr (h4 p hp hk)),
      List.append_nil]
    congr 1
    apply List.filter_eq_self.mpr
    intro i hi
    simpa using h3 i hi

/-- Reconciliation after the local peer was appended to the peer list, on a
group order that was stable for the list without it: the id of the local peer
is appended to the group of its class. -/
theorem ensureOrder_append_self (peers : List Peer) (o : Nat → Option (List String))
    (self : Peer) (h : stableFor peers o) (hs : self.id ∉ peers.map Peer.id) :
    ensureOrder (peers ++ [self]) o =
      fun k => if k = self.prof then some ((o k).getD [] ++ [self.id]) else o k := by
  funext k
  obtain ⟨h1, h2⟩ := h k
  have hseen : ∀ p ∈ peers, p.prof = k → p.id ∈ ((o k).getD []).toFinset := by
    intro p hp hk
    cases ho : o k with
    | none => exact absurd hk (h1 ho p hp)
    | some l =>
      simp only [Option.getD_some, List.mem_toFinset]
      exact (h2 l ho).2 p hp hk
  have hold : ∀ i ∈ (o k).getD [], i ∈ peers.map Peer.id := by
    intro i hi
    cases ho : o k with
    | none => rw [ho] at hi; simp at hi
    | some l =>
      rw [ho] at hi
      exact (h2 l ho).1 i hi
  have hnot : self.id ∉ ((o k).getD []).toFinset := by
    intro hin
    exact hs (hold _ (List.mem_toFinset.mp hin))
  have hfil : ((o k).getD []).filter (fun id => decide (id ∈ (peers ++ [self]).map Peer.id))
      = (o k).getD [] := by
    apply List.filter_eq_self.mpr
    intro i hi
    simp only [List.map_append, List.mem_append, decide_eq_true_eq]
    exact Or.inl (hold i hi)
  unfold ensureOrder
  rw [newIds_append_seen k peers [self] _ hseen]
  by_cases hk : k = self.prof
  · rw [if_pos hk, if_neg (by
      rintro ⟨-, hno⟩
      exact hno self (by simp) hk.symm)]
    have hn : newIds k ((o k).getD []).toFinset [self] = [self.id] := by
      simp only [newIds]
      rw [if_pos ⟨hk.symm, hnot⟩]
    rw [hn, List.filter_append, hfil]
    congr 2
    simp
  · rw [if_neg hk]
    have hn : newIds k ((o k).getD []).toFinset [self] = [] := by
      simp only [newIds]
      rw [if_neg (by rintro ⟨h', -⟩; exact hk h'.symm)]
    rw [hn, List.append_nil, hfil]
    cases ho : o k with
    | none =>
      rw [if_pos ⟨rfl, by
        intro p hp
        rcases List.mem_append.mp hp with hp' | hp'
        · exact h1 ho p hp'
        · simp only [List.mem_singleton] at hp'
          rw [hp']
          exact fun h' => hk h'.symm⟩]
    | some l =>
      rw [if_neg (by simp)]
      rfl

/-- Reconciliation with the peer list without the local peer, on the group
order in which its id had been appended: the id is pruned again. -/
theorem ensureOrder_drop_self (peers : List Peer) (o : Nat → Option (List String))
    (s : String) (ks : Nat) (h : stableFor peers o) (hs : s ∉ peers.map Peer.id) :
    ensureOrder peers (fun k => if k = ks then some ((o k).getD [] ++ [s]) else o k) =
      fun k => if k = ks then some ((o k).getD []) else o k := by
  funext k
  obtain ⟨h1, h2⟩ := h k
  by_cases hk : k = ks
  · have hold : ∀ i ∈ (o k).getD [], i ∈ peers.map Peer.id := by
      intro i hi
      cases ho : o k with
      | none => rw [ho] at hi; simp at hi
      | some l =>
        rw [ho] at hi
        exact (h2 l ho).1 i hi
    have hseen : ∀ p ∈ peers, p.prof = k → p.id ∈ ((o k).getD [] ++ [s]).toFinset := by
      intro p hp hpk
      cases ho : o k with
      | none => exact absurd hpk (h1 ho p hp)
      | some l =>
        simp only [Option.getD_some, List.mem_toFinset, List.mem_append]
        exact Or.inl ((h2 l ho).2 p hp hpk)
    unfold ensureOrder
    simp only [hk, if_true, Option.getD_some] at hseen ⊢
    rw [if_neg (by simp), newIds_nil_of_seen ks peers _ (by
      intro p hp hpk
      exact hseen p hp (hpk.trans hk.symm ▸ hpk)), List.append_nil, List.filter_append]
    have hf1 : ((o ks).getD []).filter (fun id => decide (id ∈ peers.map Peer.id)) =
        (o ks).getD [] := by
      apply List.filter_eq_self.mpr
      intro i hi
      have := hold i (by rw [hk]; exact hi)
      simpa using this
    have hf2 : [s].filter (fun id => decide (id ∈ peers.map Peer.id)) = [] := by
      simp only [List.filter_cons, List.filter_nil]
      rw [if_neg (by simpa using hs)]
    rw [hf1, hf2, List.append_nil]
  · have : ensureOrder peers (fun k => if k = ks then some ((o k).getD [] ++ [s]) else o k) k
        = ensureOrder peers o k := by
      unfold ensureOrder
      simp only [hk, if_false]
    rw [this, ensureOrder_of_stable peers o h]
    simp only [hk, if_false]

theorem stableFor_with_group (peers : List Peer) (o : Nat → Option (List String)) (ks : Nat)
    (h : stableFor peers o) :
    stableFor peers (fun k => if k = ks then some ((o k).getD []) else o k) := by
  intro k
  obtain ⟨h1, h2⟩ := h k
  by_cases hk : k = ks
  · simp only [hk, if_true]
    refine ⟨fun hn => absurd hn (by simp), fun l hl => ?_⟩
    have hl' := Option.some.inj hl
    subst hl'
    rw [hk] at h1 h2
    cases ho : o ks with
    | none =>
      refine ⟨fun i hi => by simp at hi, fun p hp hpk => absurd hpk (h1 ho p hp)⟩
    | some l => exact h2 l ho
  · simp only [hk, if_false]
    exact ⟨h1, h2⟩

/-- The group order of a merge that had to inject the local peer is reproduced
when the peer list without the local peer, and then with it, is reconciled
again. -/
theorem ensureOrder_self_cycle (peers : List Peer) (o : Nat → Option (List String))
    (self : Peer) (h : stableFor peers o) (hs : self.id ∉ peers.map Peer.id) :
    ensureOrder (peers ++ [self]) (ensureOrder peers (ensureOrder (peers ++ [self]) o)) =
      ensureOrder (peers ++ [self]) o := by
  rw [ensureOrder_append_self peers o self h hs,
    ensureOrder_drop_self peers o self.id self.prof h hs,
    ensureOrder_append_self peers _ self (stableFor_with_group peers o self.prof h) hs]
  funext k
  by_cases hk : k = self.prof
  · simp only [hk, if_true, Option.getD_some]
  · simp only [hk, if_false]

/-! ## Helper lemmas on the merge, and claim C18 -/

theorem sameConfig_refl (g : Globals) : sameConfig g g :=
  ⟨rfl, rfl, rfl, rfl, rfl, rfl, rfl, rfl⟩

theorem sameConfig_trans {g1 g2 g3 : Globals} (h : sameConfig g1 g2) (h' : sameConfig g2 g3) :
    sameConfig g1 g3 :=
  ⟨h'.1.trans h.1, h'.2.1.trans h.2.1, h'.2.2.1.trans h.2.2.1, h'.2.2.2.1.trans h.2.2.2.1,
    h'.2.2.2.2.1.trans h.2.2.2.2.1, h'.2.2.2.2.2.1.trans h.2.2.2.2.2.1,
    h'.2.2.2.2.2.2.1.trans h.2.2.2.2.2.2.1, h'.2.2.2.2.2.2.2.trans h.2.2.2.2.2.2.2⟩

theorem compute_left_for_config (g : Globals) (sid : Nat) (row_base now : ℚ) :
    sameConfig g (compute_left_for g sid row_base now).2 := by
  obtain ⟨-, -, h3, h4, h5, h6, h7, h8, h9, h10, -⟩ := compute_left_for_frame g sid row_base now
  exact ⟨h5, h6, h3, h4, h9, h8, h7, h10⟩

theorem inject_entries_config (now : ℚ) (es : List TrackedEntry) (g : Globals) :
    sameConfig g (inject_entries now g es).2 := by
  induction es generalizing g with
  | nil => exact sameConfig_refl g
  | cons e es ih =>
    unfold inject_entries
    split_ifs
    · exact ih g
    · exact sameConfig_trans (compute_left_for_config g e.skillid e.base_cd now) (ih _)

theorem inject_of_have_self (g : Globals) (now : ℚ)
    (h : g.g_peers.any (fun p => p.id == g.g_client_id) = true) :
    inject_self_if_missing_locked g now = g := by
  rw [inject_eq, if_pos h]

/-- The peer list, the group order and the timer table after an injection. -/
theorem inject_of_missing (g : Globals) (now : ℚ)
    (h : g.g_peers.any (fun p => p.id == g.g_client_id) = false) :
    (inject_self_if_missing_locked g now).g_peers = g.g_peers ++ [selfPeer g now] ∧
    (inject_self_if_missing_locked g now).g_group_order =
      ensureOrder (g.g_peers ++ [selfPeer g now]) g.g_group_order ∧
    (inject_self_if_missing_locked g now).g_by_skill =
      (inject_entries now g g.g_tracked).2.g_by_skill ∧
    sameConfig g (inject_self_if_missing_locked g now) := by
  rw [inject_eq, if_neg (by rw [h]; simp)]
  obtain ⟨f1, f2, -, -⟩ := inject_entries_frame now g.g_tracked g
  refine ⟨?_, ?_, rfl, ?_⟩
  · rw [ensure_keeps_peers]
    show (inject_entries now g g.g_tracked).2.g_peers ++ [selfPeer g now] = _
    rw [f1]
  · rw [ensure_group_order_eq]
    show ensureOrder ((inject_entries now g g.g_tracked).2.g_peers ++ [selfPeer g now])
      (inject_entries now g g.g_tracked).2.g_group_order = _
    rw [f1, f2]
  · exact inject_entries_config now g.g_tracked g

theorem selfPeer_congr (g g' : Globals) (now : ℚ) (hc : sameConfig g g')
    (he : (inject_entries now g' g'.g_tracked).1 = (inject_entries now g g.g_tracked).1) :
    selfPeer g' now = selfPeer g now := by
  obtain ⟨h1, -, -, h4, h5, h6, h7, -⟩ := hc
  unfold selfPeer
  rw [h1, h4, h5, h6, h7, he]

theorem replace_group_order_cases (stoul : String → Option Nat)
    (o o' : Nat → Option (List String)) (jr : Json) :
    replace_group_order stoul o' jr = replace_group_order stoul o jr ∨
    (replace_group_order stoul o' jr = (o', false) ∧
      replace_group_order stoul o jr = (o, false)) := by
  unfold replace_group_order
  split
  · exact Or.inl rfl
  · exact Or.inr ⟨rfl, rfl⟩

/-- The merge when the parse is left by an exception. -/
theorem merge_of_throw (stoul : String → Option Nat) (g : Globals) (jr : Json) (now : ℚ)
    (h : (replace_group_order stoul g.g_group_order jr).2 = true ∨
      parse_shapes g.g_room jr = none) :
    net_loop_merge stoul g jr now =
      { g with g_group_order := (replace_group_order stoul g.g_group_order jr).1 } := by
  have hp : parse_peers_from_json_locked stoul g jr =
      ({ g with g_group_order := (replace_group_order stoul g.g_group_order jr).1 }, true) := by
    unfold parse_peers_from_json_locked
    dsimp only
    by_cases h1 : (replace_group_order stoul g.g_group_order jr).2 = true
    · rw [if_pos h1]
    · rw [if_neg h1]
      rcases h with h | h
      · exact absurd h h1
      · rw [h]
  unfold net_loop_merge
  dsimp only
  rw [hp, if_pos rfl]

/-- The merge when the parse goes through. -/
theorem merge_of_parsed (stoul : String → Option Nat) (g : Globals) (jr : Json) (now : ℚ)
    (peers : List Peer)
    (h1 : (replace_group_order stoul g.g_group_order jr).2 = false)
    (h2 : parse_shapes g.g_room jr = some peers) :
    net_loop_merge stoul g jr now =
      inject_self_if_missing_locked (ensure_group_membership_locked
        { g with
          g_group_order := (replace_group_order stoul g.g_group_order jr).1
          g_peers := peers }) now := by
  have hp : parse_peers_from_json_locked stoul g jr =
      (ensure_group_membership_locked
        { g with
          g_group_order := (replace_group_order stoul g.g_group_order jr).1
          g_peers := peers }, false) := by
    unfold parse_peers_from_json_locked
    dsimp only
    rw [if_neg (by rw [h1]; simp), h2]
  unfold net_loop_merge
  dsimp only
  rw [hp, if_neg (by simp)]

/-- The peer list, the group order and the timer table after a merge that
parsed the peers `peers`, in terms of the group order `o` in place after the
first block of the parse. -/
theorem merge_result (now : ℚ) (g : Globals) (peers : List Peer)
    (o : Nat → Option (List String)) :
    (peers.any (fun p => p.id == g.g_client_id) = true →
      (inject_self_if_missing_locked (ensure_group_membership_locked
        { g with g_group_order := o, g_peers := peers }) now).g_peers = peers ∧
      (inject_self_if_missing_locked (ensure_group_membership_locked
        { g with g_group_order := o, g_peers := peers }) now).g_group_order
        = ensureOrder peers o) ∧
    (peers.any (fun p => p.id == g.g_client_id) = false →
      (inject_self_if_missing_locked (ensure_group_membership_locked
        { g with g_group_order := o, g_peers := peers }) now).g_peers
        = peers ++ [selfPeer (ensure_group_membership_locked
            { g with g_group_order := o, g_peers := peers }) now] ∧
      (inject_self_if_missing_locked (ensure_group_membership_locked
        { g with g_group_order := o, g_peers := peers }) now).g_group_order
        = ensureOrder (peers ++ [selfPeer (ensure_group_membership_locked
            { g with g_group_order := o, g_peers := peers }) now]) (ensureOrder peers o) ∧
      (inject_self_if_missing_locked (ensure_group_membership_locked
        { g with g_group_order := o, g_peers := peers }) now).g_by_skill
        = (inject_entries now (ensure_group_membership_locked
            { g with g_group_order := o, g_peers := peers }) g.g_tracked).2.g_by_skill) ∧
    sameConfig g (inject_self_if_missing_locked (ensure_group_membership_locked
        { g with g_group_order := o, g_peers := peers }) now) := by
  have hcfg : sameConfig g (ensure_group_membership_locked
      { g with g_group_order := o, g_peers := peers }) :=
    ⟨rfl, rfl, rfl, rfl, rfl, rfl, rfl, rfl⟩
  have hord : (ensure_group_membership_locked
      { g with g_group_order := o, g_peers := peers }).g_group_order = ensureOrder peers o :=
    ensure_group_order_eq _
  refine ⟨fun h => ?_, fun h => ?_, ?_⟩
  · rw [inject_of_have_self (ensure_group_membership_locked
      { g with g_group_order := o, g_peers := peers }) now h]
    exact ⟨rfl, hord⟩
  · obtain ⟨h1, h2, h3, -⟩ := inject_of_missing (ensure_group_membership_locked
      { g with g_group_order := o, g_peers := peers }) now h
    rw [h1, h2, h3, hord]
    exact ⟨rfl, rfl, rfl⟩
  · cases h : peers.any (fun p => p.id == g.g_client_id) with
    | true =>
      rw [inject_of_have_self (ensure_group_membership_locked
        { g with g_group_order := o, g_peers := peers }) now h]
      exact hcfg
    | false =>
      exact sameConfig_trans hcfg (inject_of_missing (ensure_group_membership_locked
        { g with g_group_order := o, g_peers := peers }) now h).2.2.2

/-- The peer injected by a second merge is the peer injected by the first. -/
theorem selfPeer_again (now : ℚ) (g g' : Globals) (peers : List Peer)
    (o o' : Nat → Option (List String)) (hcfg : sameConfig g g')
    (hT : g'.g_by_skill = (inject_entries now (ensure_group_membership_locked
        { g with g_group_order := o, g_peers := peers }) g.g_tracked).2.g_by_skill) :
    selfPeer (ensure_group_membership_locked
        { g' with g_group_order := o', g_peers := peers }) now =
      selfPeer (ensure_group_membership_locked
        { g with g_group_order := o, g_peers := peers }) now := by
  apply selfPeer_congr
  · exact hcfg
  · have htr : g'.g_tracked = g.g_tracked := hcfg.2.2.1
    show (inject_entries now _ g'.g_tracked).1 = (inject_entries now _ g.g_tracked).1
    rw [htr]
    apply inject_entries_again now g.g_tracked
    · exact hcfg.2.1
    · exact hcfg.1
    · intro k
      show simO _ (g'.g_by_skill k)
      rw [hT]
      exact simO_refl _

/-- Claim C18.  For every remote snapshot and every starting state, merging
the same snapshot twice in a row (`parse_peers_from_json_locked` then
`inject_self_if_missing_locked`, at the same clock reading) leaves the same
peer list, with the same ids, order and fields, and the same group order as
merging it once. -/
theorem merge_idempotent (stoul : String → Option Nat) (g : Globals) (jr : Json) (now : ℚ) :
    (net_loop_merge stoul (net_loop_merge stoul g jr now) jr now).g_peers =
      (net_loop_merge stoul g jr now).g_peers ∧
    (net_loop_merge stoul (net_loop_merge stoul g jr now) jr now).g_group_order =
      (net_loop_merge stoul g jr now).g_group_order := by
  by_cases hthrow : (replace_group_order stoul g.g_group_order jr).2 = true ∨
      parse_shapes g.g_room jr = none
  · -- the parse is left by an exception, both times
    have h1 := merge_of_throw stoul g jr now hthrow
    have hr : replace_group_order stoul (replace_group_order stoul g.g_group_order jr).1 jr =
        ((replace_group_order stoul g.g_group_order jr).1,
         (replace_group_order stoul g.g_group_order jr).2) := by
      rcases replace_group_order_cases stoul g.g_group_order
        (replace_group_order stoul g.g_group_order jr).1 jr with h | ⟨h, h'⟩
      · rw [h]
      · rw [h, h']
    have h2 := merge_of_throw stoul
      { g with g_group_order := (replace_group_order stoul g.g_group_order jr).1 } jr now
      (by
        show (replace_group_order stoul (replace_group_order stoul g.g_group_order jr).1 jr).2
          = true ∨ parse_shapes g.g_room jr = none
        rw [hr]
        exact hthrow)
    rw [h1, h2]
    refine ⟨rfl, ?_⟩
    show (replace_group_order stoul (replace_group_order stoul g.g_group_order jr).1 jr).1 = _
    rw [hr]
  · -- the parse goes through, both times
    push_neg at hthrow
    obtain ⟨hr2, hshape⟩ := hthrow
    have hr2' : (replace_group_order stoul g.g_group_order jr).2 = false := by simpa using hr2
    obtain ⟨peers, hpeers⟩ := Option.ne_none_iff_exists'.mp hshape
    have hM := merge_of_parsed stoul g jr now peers hr2' hpeers
    obtain ⟨hA, hB, hcfg⟩ := merge_result now g peers
      (replace_group_order stoul g.g_group_order jr).1
    rw [← hM] at hA hB hcfg
    generalize net_loop_merge stoul g jr now = g' at hA hB hcfg ⊢
    -- second merge
    have hcases := replace_group_order_cases stoul g.g_group_order g'.g_group_order jr
    have hr2'' : (replace_group_order stoul g'.g_group_order jr).2 = false := by
      rcases hcases with h | ⟨h, -⟩
      · rw [h]; exact hr2'
      · rw [h]
    have hM' := merge_of_parsed stoul g' jr now peers hr2''
      (by rw [hcfg.2.2.2.2.2.2.2]; exact hpeers)
    obtain ⟨hA', hB', -⟩ := merge_result now g' peers
      (replace_group_order stoul g'.g_group_order jr).1
    rw [← hM'] at hA' hB'
    generalize net_loop_merge stoul g' jr now = g'' at hA' hB' ⊢
    have hid : g'.g_client_id = g.g_client_id := hcfg.2.2.2.1
    cases hany : peers.any (fun p => p.id == g.g_client_id) with
    | true =>
      obtain ⟨a1, a2⟩ := hA hany
      obtain ⟨a1', a2'⟩ := hA' (by rw [hid]; exact hany)
      rw [a1', a2', a1]
      refine ⟨rfl, ?_⟩
      rcases hcases with h | ⟨h, h'⟩
      · rw [h, a2]
      · rw [h, a2, h']
        exact ensureOrder_of_stable peers _ (ensureOrder_stable peers _)
    | false =>
      obtain ⟨b1, b2, b3⟩ := hB hany
      obtain ⟨b1', b2', -⟩ := hB' (by rw [hid]; exact hany)
      have hself := selfPeer_again now g g' peers
        (replace_group_order stoul g.g_group_order jr).1
        (replace_group_order stoul g'.g_group_order jr).1 hcfg b3
      rw [b1', b2', b1, hself]
      refine ⟨rfl, ?_⟩
      rcases hcases with h | ⟨h, h'⟩
      · rw [h, b2]
      · rw [h, b2, h']
        apply ensureOrder_self_cycle peers _ _ (ensureOrder_stable peers _)
        show g.g_client_id ∉ peers.map Peer.id
        intro hin
        obtain ⟨p, hp, hpid⟩ := List.mem_map.mp hin
        have := List.any_eq_false.mp hany p hp
        simp [hpid] at this

/-! ## Helper lemmas on reachable timer states -/

/-- The timer after a query of `compute_left_for`, by cases. -/
theorem timerQuery_snd (now : ℚ) (a c : Bool) (st : SlotTimer) (b : ℚ) :
    (timerQuery now a c st b).2 =
      if st.cancel_active = true ∨ b ≤ 0 then st
      else ({ st with base_cd := b } : SlotTimer).advance now a c := by
  unfold timerQuery
  by_cases hc : st.cancel_active = true
  · rw [if_pos hc, if_pos (Or.inl hc), predict_left_snd_of_cancel st now false false hc]
  · rw [if_neg hc]
    by_cases hb : b ≤ 0
    · rw [if_pos hb, if_pos (Or.inr hb)]
    · rw [if_neg hb, if_neg (by tauto)]
      exact predict_left_snd_of_not_cancel _ now a c (by simpa using hc)

theorem wellFormed_fresh : ({} : SlotTimer).wellFormed := by
  simp [SlotTimer.wellFormed]

theorem wellFormed_advance (st : SlotTimer) (t : ℚ) (a c : Bool) (h : st.wellFormed) :
    (st.advance t a c).wellFormed := by
  obtain ⟨h1, h2, h3⟩ := h
  rw [advance_eq]
  split_ifs with hA hB
  · exact ⟨h1, h2, h3⟩
  · refine ⟨h1, fun hc => absurd (Or.inl hc) hA, fun _ => ?_⟩
    push_neg at hA
    show 0 ≤ st.updateOrigin
    unfold SlotTimer.updateOrigin
    split_ifs
    · exact hA.2.1
    · exact h3 hA.2.1
  · refine ⟨h1, fun hc => absurd (Or.inl hc) hA, fun _ => ?_⟩
    push_neg at hA hB
    show 0 ≤ t
    have h0 : 0 ≤ st.updateOrigin := by
      unfold SlotTimer.updateOrigin
      split_ifs
      · exact hA.2.1
      · exact h3 hA.2.1
    linarith

theorem wellFormed_with_base (st : SlotTimer) (b : ℚ) (h : st.wellFormed) :
    ({ st with base_cd := b } : SlotTimer).wellFormed := h

/-- Every call with a timestamp that is not negative keeps a timer well formed. -/
theorem wellFormed_run (st : SlotTimer) (call : TimerCall) (ht : 0 ≤ call.time)
    (h : st.wellFormed) : (call.run st).wellFormed := by
  cases call with
  | assign_name sid nm => exact h
  | on_cast t =>
    have ht' : 0 ≤ t := ht
    simp [TimerCall.run, SlotTimer.on_cast, SlotTimer.wellFormed, ht']
  | start_cancel_cd t =>
    have ht' : 0 ≤ t := ht
    simp [TimerCall.run, SlotTimer.start_cancel_cd, SlotTimer.wellFormed, ht']
  | advance t a c => exact wellFormed_advance st t a c h
  | predict_left t a c =>
    show (st.predict_left t a c).2.wellFormed
    cases hc : st.cancel_active with
    | true => rw [predict_left_snd_of_cancel st t a c hc]; exact h
    | false =>
      rw [predict_left_snd_of_not_cancel st t a c hc]
      exact wellFormed_advance st t a c h
  | compute_left_for b now a c =>
    show (timerQuery now a c st b).2.wellFormed
    rw [timerQuery_snd]
    split_ifs
    · exact h
    · exact wellFormed_advance _ now a c (wellFormed_with_base st b h)

theorem wellFormed_runCalls (calls : List TimerCall) (st : SlotTimer)
    (ht : ∀ call ∈ calls, 0 ≤ call.time) (h : st.wellFormed) :
    (runCalls st calls).wellFormed := by
  induction calls generalizing st with
  | nil => exact h
  | cons call rest ih =>
    exact ih (call.run st) (fun x hx => ht x (List.mem_cons_of_mem _ hx))
      (wellFormed_run st call (ht call (List.mem_cons_self _ _)) h)

/-- Every reachable timer state is well formed. -/
theorem wellFormed_of_reachable (st : SlotTimer) (h : st.Reachable) : st.wellFormed := by
  obtain ⟨calls, ht, rfl⟩ := h
  exact wellFormed_runCalls calls _ ht wellFormed_fresh

/-- The sample calls of one row leave the timer of skill 100 at time 11 with
11 seconds elapsed of 20. -/
theorem runCalls_sampleOneRow :
    runCalls {} sampleOneRow =
      { skillid := 100, name := "Well", base_cd := 20, last_cast_s := 0,
        last_update_s := 11, elapsed := 11 } := by
  simp [runCalls, sampleOneRow, TimerCall.run, timerQuery_snd, SlotTimer.on_cast, advance_eq,
    SlotTimer.updateOrigin, specSpeed]
  norm_num

theorem reachable_sampleOneRow : (runCalls {} sampleOneRow).Reachable := by
  refine ⟨sampleOneRow, ?_, rfl⟩
  intro call hc
  simp only [sampleOneRow, List.mem_cons, List.mem_singleton, List.not_mem_nil, or_false] at hc
  rcases hc with rfl | rfl | rfl | rfl <;> simp [TimerCall.time]

/-- One call that does not store a base below `elapsed` keeps `elapsed` between
0 and the base, and lowers it only if it is `on_cast` or `start_cancel_cd`. -/
theorem elapsed_bounds_run (st : SlotTimer) (call : TimerCall)
    (h0 : 0 ≤ st.elapsed) (hb : st.elapsed ≤ st.base_cd)
    (hk : ¬ call.storesBelowElapsed st) :
    (0 ≤ (call.run st).elapsed ∧ (call.run st).elapsed ≤ (call.run st).base_cd) ∧
    (call.isCastOrCancel = false → st.elapsed ≤ (call.run st).elapsed) := by
  have hadv : ∀ (s : SlotTimer) (t : ℚ) (a c : Bool), 0 ≤ s.elapsed → s.elapsed ≤ s.base_cd →
      (0 ≤ (s.advance t a c).elapsed ∧ (s.advance t a c).elapsed ≤ (s.advance t a c).base_cd) ∧
      s.elapsed ≤ (s.advance t a c).elapsed := by
    intro s t a c hs0 hsb
    obtain ⟨e1, -, -, e4, e5⟩ := advance_step_bounds s t a c hsb
    rw [e1]
    exact ⟨⟨le_trans hs0 e4, e5⟩, e4⟩
  cases call with
  | assign_name sid nm => exact ⟨⟨h0, hb⟩, fun _ => le_refl _⟩
  | on_cast t =>
    refine ⟨⟨le_refl _, ?_⟩, fun h => absurd h (by simp [TimerCall.isCastOrCancel])⟩
    show (0 : ℚ) ≤ st.base_cd
    exact le_trans h0 hb
  | start_cancel_cd t =>
    refine ⟨⟨le_refl _, ?_⟩, fun h => absurd h (by simp [TimerCall.isCastOrCancel])⟩
    show (0 : ℚ) ≤ st.base_cd
    exact le_trans h0 hb
  | advance t a c =>
    obtain ⟨k1, k2⟩ := hadv st t a c h0 hb
    exact ⟨k1, fun _ => k2⟩
  | predict_left t a c =>
    show (0 ≤ (st.predict_left t a c).2.elapsed ∧
      (st.predict_left t a c).2.elapsed ≤ (st.predict_left t a c).2.base_cd) ∧
      (_ → st.elapsed ≤ (st.predict_left t a c).2.elapsed)
    cases hc : st.cancel_active with
    | true =>
      rw [predict_left_snd_of_cancel st t a c hc]
      exact ⟨⟨h0, hb⟩, fun _ => le_refl _⟩
    | false =>
      rw [predict_left_snd_of_not_cancel st t a c hc]
      obtain ⟨k1, k2⟩ := hadv st t a c h0 hb
      exact ⟨k1, fun _ => k2⟩
  | compute_left_for b now a c =>
    show (0 ≤ (timerQuery now a c st b).2.elapsed ∧
      (timerQuery now a c st b).2.elapsed ≤ (timerQuery now a c st b).2.base_cd) ∧
      (_ → st.elapsed ≤ (timerQuery now a c st b).2.elapsed)
    rw [timerQuery_snd]
    split_ifs with hq
    · exact ⟨⟨h0, hb⟩, fun _ => le_refl _⟩
    · push_neg at hq
      have hle : st.elapsed ≤ b := by
        by_contra hlt
        exact hk ⟨by simpa using hq.1, hq.2, not_le.mp hlt⟩
      obtain ⟨k1, k2⟩ := hadv { st with base_cd := b } now a c h0 hle
      exact ⟨k1, fun _ => k2⟩

/-- A sequence of calls none of which stores a base below `elapsed` keeps
`elapsed` between 0 and the base. -/
theorem elapsed_bounds_runCalls (calls : List TimerCall) (st : SlotTimer)
    (h0 : 0 ≤ st.elapsed) (hb : st.elapsed ≤ st.base_cd) (hk : baseKept st calls) :
    0 ≤ (runCalls st calls).elapsed ∧
      (runCalls st calls).elapsed ≤ (runCalls st calls).base_cd := by
  induction calls generalizing st with
  | nil => exact ⟨h0, hb⟩
  | cons call rest ih =>
    obtain ⟨k1, k2⟩ := (elapsed_bounds_run st call h0 hb hk.1).1
    exact ih (call.run st) k1 k2 hk.2

/-! ## Reachable timer states: the claims -/

/-- Claim C21.  On a timer reachable from a fresh timer through `on_cast`,
`start_cancel_cd`, `advance`, `predict_left` (and `compute_left_for`) with
timestamps that are not negative, `advance(t, accel, decel)` leaves every field
as it was in each of these cases: the timer is in cancel mode; the timer is
idle (no cast recorded); the base cooldown is at most 0; `t` is at most
`last_update_s`, so a repeated or out of order timestamp moves neither
`elapsed` nor `last_update_s`. -/
theorem advance_no_op_cases (st : SlotTimer) (t : ℚ) (a c : Bool) (hr : st.Reachable)
    (h : st.cancel_active = true ∨ st.last_cast_s < 0 ∨ st.base_cd ≤ 0 ∨
      t ≤ st.last_update_s) :
    st.advance t a c = st := by
  obtain ⟨-, -, hu⟩ := wellFormed_of_reachable st hr
  rw [advance_eq]
  by_cases hA : st.cancel_active = true ∨ st.last_cast_s < 0 ∨ st.base_cd ≤ 0
  · rw [if_pos hA]
  · rw [if_neg hA]
    have ht : t ≤ st.last_update_s := by tauto
    push_neg at hA
    have hor : st.updateOrigin = st.last_update_s := by
      simp [SlotTimer.updateOrigin, not_lt.mpr (hu hA.2.1)]
    rw [hor, if_pos ht]

/-- Claim C21 on the timer of the sample row (cast at 0, last advanced at time
11 with 11 of 20 seconds elapsed): `advance` at the earlier time 5, and at 11
again, changes nothing. -/
theorem advance_no_op_cases_witness :
    (runCalls {} sampleOneRow).last_update_s = 11 ∧
    (runCalls {} sampleOneRow).advance 5 true false = runCalls {} sampleOneRow := by
  have hu : (runCalls {} sampleOneRow).last_update_s = 11 := by
    rw [runCalls_sampleOneRow]
  refine ⟨hu, advance_no_op_cases _ 5 true false reachable_sampleOneRow ?_⟩
  right; right; right
  rw [hu]
  norm_num

/-- Counterexample to claim C24 as stated.  Skill 100 is cast at time 0 and is
shown by two table rows with manual bases 20 and 5.  After the query of the
first row at time 10 the timer is active in normal mode with 10 of 20 seconds
elapsed.  The query of the second row at time 11, which is neither `on_cast`
nor `start_cancel_cd`, lowers `elapsed` to 5; made at time 10 instead, it
leaves the timer active in normal mode with base 5 and `elapsed` 10. -/
theorem elapsed_drops_when_base_shrinks :
    (runCalls {} (sampleTwoRows.take 3)).elapsed = 10 ∧
    (runCalls {} (sampleTwoRows.take 3)).base_cd = 20 ∧
    sampleTwoRows = sampleTwoRows.take 3 ++ [.compute_left_for 5 11 false false] ∧
    (runCalls {} sampleTwoRows).elapsed = 5 ∧
    (runCalls {} sampleTwoRows).elapsed < (runCalls {} (sampleTwoRows.take 3)).elapsed ∧
    (runCalls {} (sampleTwoRows.take 3 ++ [.compute_left_for 5 10 false false])).cancel_active
      = false ∧
    (runCalls {} (sampleTwoRows.take 3 ++ [.compute_left_for 5 10 false false])).last_cast_s
      = 0 ∧
    (runCalls {} (sampleTwoRows.take 3 ++ [.compute_left_for 5 10 false false])).base_cd
      = 5 ∧
    (runCalls {} (sampleTwoRows.take 3 ++ [.compute_left_for 5 10 false false])).elapsed
      = 10 := by
  have h3 : runCalls {} (sampleTwoRows.take 3) =
      { skillid := 100, name := "Well", base_cd := 20, last_cast_s := 0,
        last_update_s := 10, elapsed := 10 } := by
    simp [runCalls, sampleTwoRows, TimerCall.run, timerQuery_snd, SlotTimer.on_cast,
      advance_eq, SlotTimer.updateOrigin, specSpeed]
    norm_num
  have h4 : runCalls {} sampleTwoRows =
      { skillid := 100, name := "Well", base_cd := 5, last_cast_s := 0,
        last_update_s := 11, elapsed := 5 } := by
    simp [runCalls, sampleTwoRows, TimerCall.run, timerQuery_snd, SlotTimer.on_cast,
      advance_eq, SlotTimer.updateOrigin, specSpeed]
    norm_num
  have h4' : runCalls {} (sampleTwoRows.take 3 ++ [.compute_left_for 5 10 false false]) =
      { skillid := 100, name := "Well", base_cd := 5, last_cast_s := 0,
        last_update_s := 10, elapsed := 10 } := by
    simp [runCalls, sampleTwoRows, TimerCall.run, timerQuery_snd, SlotTimer.on_cast,
      advance_eq, SlotTimer.updateOrigin, specSpeed]
    norm_num
  rw [h3, h4, h4']
  refine ⟨rfl, rfl, by simp [sampleTwoRows], rfl, by norm_num, rfl, rfl, rfl, rfl⟩

/-- Claim C24, amended.  In every timer state reached from a fresh timer by a
sequence of `on_cast`, `start_cancel_cd`, `advance`, `predict_left` and
`compute_left_for` in which no `compute_left_for` stores a base below the
`elapsed` the timer has at that call: `0 ≤ elapsed ≤ base` holds (in particular
whenever the timer is active in normal mode with a positive base), and a
further such call lowers `elapsed` only if it is `on_cast` or
`start_cancel_cd`. -/
theorem elapsed_bounded_and_monotone (calls : List TimerCall) (hk : baseKept {} calls) :
    0 ≤ (runCalls {} calls).elapsed ∧
    (runCalls {} calls).elapsed ≤ (runCalls {} calls).base_cd ∧
    ∀ call : TimerCall, ¬ call.storesBelowElapsed (runCalls {} calls) →
      call.isCastOrCancel = false →
      (runCalls {} calls).elapsed ≤ (call.run (runCalls {} calls)).elapsed := by
  obtain ⟨h0, hb⟩ := elapsed_bounds_runCalls calls {} (le_refl _) (le_refl _) hk
  exact ⟨h0, hb, fun call hc hn => (elapsed_bounds_run _ call h0 hb hc).2 hn⟩

/-- Claim C24, amended, on the sample row with the one manual base 20: after the
queries at times 10 and 11 the timer has 11 of 20 seconds elapsed, and a
further `advance` at time 12 does not lower `elapsed`. -/
theorem elapsed_bounded_and_monotone_witness :
    (runCalls {} sampleOneRow).elapsed = 11 ∧ (runCalls {} sampleOneRow).base_cd = 20 ∧
    (runCalls {} sampleOneRow).elapsed ≤
      ((runCalls {} sampleOneRow).advance 12 false false).elapsed := by
  have hk : baseKept {} sampleOneRow := by
    simp [baseKept, sampleOneRow, TimerCall.storesBelowElapsed, TimerCall.run, timerQuery_snd,
      SlotTimer.on_cast, advance_eq, SlotTimer.updateOrigin, specSpeed]
    norm_num
  have h := elapsed_bounded_and_monotone sampleOneRow hk
  refine ⟨by rw [runCalls_sampleOneRow], by rw [runCalls_sampleOneRow], ?_⟩
  exact h.2.2 (.advance 12 false false) (fun hf => hf) rfl

/-- Claim C28.  In every timer state reachable from a fresh timer through
`on_cast`, `start_cancel_cd`, `advance`, `predict_left` and `compute_left_for`
with timestamps that are not negative: `cancel_active` holds exactly when
`cancel_start_s ≥ 0`, and `cancel_active` implies `elapsed = 0` and
`last_cast_s = last_update_s = -1`; so the condition of the branch
`cancel_start_s < 0` of `predict_left` never holds. -/
theorem cancel_fields_consistent (st : SlotTimer) (hr : st.Reachable) :
    (st.cancel_active = true ↔ 0 ≤ st.cancel_start_s) ∧
    (st.cancel_active = true →
      st.elapsed = 0 ∧ st.last_cast_s = -1 ∧ st.last_update_s = -1) ∧
    ¬ st.unsetCancelBranch := by
  obtain ⟨h1, h2, -⟩ := wellFormed_of_reachable st hr
  exact ⟨h1, h2, fun hb => absurd (h1.mp hb.1) (not_le.mpr hb.2)⟩

/-- Claim C28 on a timer cast at 1, cancelled at 5 and queried at 6: it is in
cancel mode with `cancel_start_s = 5`. -/
theorem cancel_fields_consistent_witness :
    (runCalls {} [.on_cast 1, .start_cancel_cd 5, .predict_left 6 true false]).cancel_active
      = true ∧
    (0 : ℚ) ≤
      (runCalls {} [.on_cast 1, .start_cancel_cd 5, .predict_left 6 true false]).cancel_start_s
      := by
  have hr : (runCalls {} [.on_cast 1, .start_cancel_cd 5,
      .predict_left 6 true false]).Reachable := by
    refine ⟨_, ?_, rfl⟩
    intro call hc
    simp only [List.mem_cons, List.mem_singleton, List.not_mem_nil, or_false] at hc
    rcases hc with rfl | rfl | rfl <;> simp [TimerCall.time]
  have hc : (runCalls {} [.on_cast 1, .start_cancel_cd 5,
      .predict_left 6 true false]).cancel_active = true := by
    simp [runCalls, TimerCall.run, SlotTimer.on_cast, SlotTimer.start_cancel_cd,
      predict_left_snd_of_cancel]
  exact ⟨hc, (cancel_fields_consistent _ hr).1.mp hc⟩

/-! ## Cancel mode queries and the reconciled sequences: the claims -/

/-- Claim C22.  For a skill whose timer is in cancel mode the result of
`compute_left_for` is the value of `predict_left(now, false, false)` on that
timer: two runs that agree on the timer and on the time return the same value
whatever their `SelfContext` flags, manual bases and caches are (the skill may
have a hard override or not), and the call leaves the globals as they were,
the timer with its base cooldown and the pending set included. -/
theorem cancel_query_reads_timer_only (g g' : Globals) (sid : Nat)
    (row_base row_base' now : ℚ) (st : SlotTimer)
    (hst : g.g_by_skill sid = some st) (hst' : g'.g_by_skill sid = some st)
    (hc : st.cancel_active = true) :
    (compute_left_for g sid row_base now).1 = (st.predict_left now false false).1 ∧
    (compute_left_for g sid row_base now).1 = (compute_left_for g' sid row_base' now).1 ∧
    (compute_left_for g sid row_base now).2 = g ∧
    (compute_left_for g sid row_base now).2.g_by_skill sid = some st ∧
    (compute_left_for g sid row_base now).2.g_cd_pending = g.g_cd_pending := by
  rw [compute_left_for_of_cancel g sid row_base now st hst hc,
    compute_left_for_of_cancel g' sid row_base' now st hst' hc]
  exact ⟨rfl, rfl, rfl, hst, rfl⟩

/-- Claim C22 on the sample globals with a cancelled timer: the query at time
6 gives 0.5 with manual base 45 and alacrity on, as it does on the same timer
without alacrity, manual base and cache, and it enqueues no fetch. -/
theorem cancel_query_reads_timer_only_witness :
    (compute_left_for sampleCancelled 62965 45 6).1 = 1 / 2 ∧
    (compute_left_for sampleCancelled 62965 45 6).1 =
      (compute_left_for
        { sampleCancelled with g_self := {}, g_api_cd_cache := fun _ => none } 62965 0 6).1 ∧
    (compute_left_for sampleCancelled 62965 45 6).2 = sampleCancelled := by
  have h := cancel_query_reads_timer_only sampleCancelled
    { sampleCancelled with g_self := {}, g_api_cd_cache := fun _ => none } 62965 45 0 6
    (({ skillid := 62965 } : SlotTimer).start_cancel_cd 5)
    (by simp [sampleCancelled]) (by simp [sampleCancelled]) rfl
  refine ⟨?_, h.2.1, h.2.2.1⟩
  rw [h.1]
  simp [SlotTimer.predict_left, SlotTimer.start_cancel_cd, CANCEL_COOLDOWN]
  norm_num

theorem keepFirst_filter (q : String → Bool) (l : List String) :
    keepFirst (l.filter q) = (keepFirst l).filter q := by
  induction l with
  | nil => rfl
  | cons y ys ih =>
    by_cases hq : q y = true
    · rw [List.filter_cons, if_pos hq]
      simp only [keepFirst, ih]
      rw [List.filter_cons, if_pos hq, List.filter_filter, List.filter_filter]
      congr 1
      apply List.filter_congr
      intro z _
      exact Bool.and_comm _ _
    · rw [List.filter_cons, if_neg hq, ih]
      simp only [keepFirst]
      rw [List.filter_cons, if_neg hq, List.filter_filter]
      apply List.filter_congr
      intro z _
      by_cases hz : z = y
      · subst hz
        simp [hq]
      · simp [hz]

/-- The ids that reconciliation appends, in the words of the specification. -/
theorem newIds_eq_keepFirst (k : Nat) (ps : List Peer) (seen : Finset String) :
    newIds k seen ps =
      keepFirst (((groupPeers k ps).map Peer.id).filter (fun id => decide (id ∉ seen))) := by
  induction ps generalizing seen with
  | nil => rfl
  | cons p ps ih =>
    simp only [newIds, groupPeers]
    by_cases hk : p.prof = k
    · by_cases hs : p.id ∈ seen
      · rw [if_neg (by tauto), List.filter_cons, if_pos (by simpa using hk), List.map_cons,
          List.filter_cons, if_neg (by simpa using hs)]
        exact ih seen
      · rw [if_pos ⟨hk, hs⟩, List.filter_cons, if_pos (by simpa using hk), List.map_cons,
          List.filter_cons, if_pos (by simpa using hs)]
        simp only [keepFirst]
        congr 1
        rw [ih (insert p.id seen), ← keepFirst_filter, List.filter_filter]
        congr 1
        apply List.filter_congr
        intro z _
        simp [Finset.mem_insert, not_or]
    · rw [if_neg (by tauto), List.filter_cons, if_neg (by simpa using hk)]
      exact ih seen

/-- Claim C23.  For every peer list and group order,
`ensure_group_membership_locked` gives a group `k` that had a sequence or has a
peer of its class the sequence of the specification: the ids of the old
sequence that are the id of a current peer (of any class), in their old order,
followed by the ids of the current peers of class `k` that were not in the old
sequence, each once, in peer list order; another group has no sequence.  So
the appended ids come after all retained ids and were not in the old sequence,
every id left in a sequence is the id of a current peer, and the id of every
current peer is in the sequence of its own class. -/
theorem ensure_gives_spec_sequence (g : Globals) :
    (∀ k, (ensure_group_membership_locked g).g_group_order k =
      if g.g_group_order k = none ∧ ∀ p ∈ g.g_peers, p.prof ≠ k then none
      else some (specGroupSequence g.g_peers ((g.g_group_order k).getD []) k)) ∧
    (∀ k i, i ∈ keepFirst (((groupPeers k g.g_peers).map Peer.id).filter
        (fun id => decide (id ∉ (g.g_group_order k).getD []))) →
      i ∉ (g.g_group_order k).getD []) ∧
    (∀ k seq, (ensure_group_membership_locked g).g_group_order k = some seq →
      ∀ i ∈ seq, ∃ p ∈ g.g_peers, p.id = i) ∧
    (∀ p ∈ g.g_peers, ∃ seq,
      (ensure_group_membership_locked g).g_group_order p.prof = some seq ∧ p.id ∈ seq) := by
  have hform : ∀ k, (ensure_group_membership_locked g).g_group_order k =
      if g.g_group_order k = none ∧ ∀ p ∈ g.g_peers, p.prof ≠ k then none
      else some (specGroupSequence g.g_peers ((g.g_group_order k).getD []) k) := by
    intro k
    rw [ensure_group_order_at]
    split_ifs with h
    · rfl
    · congr 1
      unfold specGroupSequence
      rw [List.filter_append, newIds_eq_keepFirst]
      congr 1
      have e1 : ((groupPeers k g.g_peers).map Peer.id).filter
          (fun id => decide (id ∉ ((g.g_group_order k).getD []).toFinset)) =
          ((groupPeers k g.g_peers).map Peer.id).filter
            (fun id => decide (id ∉ (g.g_group_order k).getD [])) := by
        apply List.filter_congr
        intro z _
        simp
      have e2 := newIds_eq_keepFirst k g.g_peers ((g.g_group_order k).getD []).toFinset
      rw [e1] at e2 ⊢
      apply List.filter_eq_self.mpr
      intro i hi
      rw [← e2] at hi
      obtain ⟨p, hp, -, rfl⟩ := newIds_mem_ids k g.g_peers _ i hi
      simpa using ⟨p, hp, rfl⟩
  refine ⟨hform, ?_, ?_, ?_⟩
  · intro k i hi
    have := (keepFirst_mem _ i).mp hi
    simpa using (List.mem_filter.mp this).2
  · intro k seq hk i hi
    rw [ensure_group_order_at] at hk
    split_ifs at hk
    rw [← Option.some.inj hk] at hi
    have := (List.mem_filter.mp hi).2
    simpa using this
  · intro p hp
    rw [hform]
    have hne : ¬ (g.g_group_order p.prof = none ∧ ∀ q ∈ g.g_peers, q.prof ≠ p.prof) :=
      fun h => h.2 p hp rfl
    rw [if_neg hne]
    refine ⟨_, rfl, ?_⟩
    unfold specGroupSequence
    rw [List.mem_append]
    by_cases hold : p.id ∈ (g.g_group_order p.prof).getD []
    · left
      exact List.mem_filter.mpr ⟨hold, by simpa using ⟨p, hp, rfl⟩⟩
    · right
      rw [keepFirst_mem]
      refine List.mem_filter.mpr ⟨List.mem_map.mpr ⟨p, ?_, rfl⟩, by simpa using hold⟩
      exact List.mem_filter.mpr ⟨hp, by simp⟩

/-- Claim C23 on the sample squad: in group 1, ordered `z`, `b`, the id `z` of
no current peer is dropped, `b` is retained and `a`, listed twice among the
peers, is appended once; group 2 is created for peer `c`; group 3 has no
sequence. -/
theorem ensure_gives_spec_sequence_witness :
    (ensure_group_membership_locked sampleSquad).g_group_order 1 = some ["b", "a"] ∧
    (ensure_group_membership_locked sampleSquad).g_group_order 2 = some ["c"] ∧
    (ensure_group_membership_locked sampleSquad).g_group_order 3 = none := by
  have h := (ensure_gives_spec_sequence sampleSquad).1
  refine ⟨?_, ?_, ?_⟩
  · rw [h 1]
    simp [sampleSquad, specGroupSequence, groupPeers, keepFirst]
  · rw [h 2]
    simp [sampleSquad, specGroupSequence, groupPeers, keepFirst]
  · rw [h 3]
    simp [sampleSquad]

/-! ## Helper lemmas on the combat event classifier -/

theorem on_pick_frame (g : EventGlobals) (e : CbtEvent) (skillname : Option String)
    (now : ℚ) :
    (on_pick g e skillname now).1.g_by_skill = g.g_by_skill ∧
    (on_pick g e skillname now).1.g_self = g.g_self ∧
    (on_pick g e skillname now).1.g_squad_accounts = g.g_squad_accounts ∧
    (on_pick g e skillname now).1.g_dead_accounts = g.g_dead_accounts := by
  unfold on_pick
  split_ifs <;> exact ⟨rfl, rfl, rfl, rfl⟩

theorem on_activation_frame (g : EventGlobals) (e : CbtEvent) (skillname : Option String)
    (now : ℚ) :
    (on_activation g e skillname now).g_self = g.g_self ∧
    (on_activation g e skillname now).g_squad_accounts = g.g_squad_accounts ∧
    (on_activation g e skillname now).g_dead_accounts = g.g_dead_accounts := by
  unfold on_activation
  split_ifs <;> exact ⟨rfl, rfl, rfl⟩

theorem on_activation_by_skill_congr (g g' : EventGlobals) (e : CbtEvent)
    (skillname : Option String) (now : ℚ) (h : g.g_by_skill = g'.g_by_skill) :
    (on_activation g e skillname now).g_by_skill =
      (on_activation g' e skillname now).g_by_skill := by
  unfold on_activation
  split_ifs <;> simp only [h]

theorem on_event_state_frame (CBTS_NONE : Nat) (g : EventGlobals) (e : CbtEvent)
    (src dst : Option Ag) :
    (on_event_state CBTS_NONE g e src dst).g_by_skill = g.g_by_skill ∧
    (on_event_state CBTS_NONE g e src dst).g_self.self_instid = g.g_self.self_instid ∧
    (on_event_state CBTS_NONE g e src dst).g_self.subgroup = g.g_self.subgroup := by
  unfold on_event_state
  dsimp only
  split_ifs <;> exact ⟨rfl, rfl, rfl⟩

theorem on_self_event_frame (g : EventGlobals) (e : CbtEvent) (src dst : Option Ag)
    (skillname : Option String) (now : ℚ) :
    (on_self_event g e src dst skillname now).g_by_skill =
      (on_activation g e skillname now).g_by_skill ∧
    (on_self_event g e src dst skillname now).g_self.has_alacrity = g.g_self.has_alacrity ∧
    (on_self_event g e src dst skillname now).g_self.has_chill = g.g_self.has_chill := by
  unfold on_self_event
  dsimp only
  have hA := fun x => on_activation_frame x e skillname now
  have hP := fun x => on_pick_frame x e skillname now
  refine ⟨?_, ?_, ?_⟩
  · have h1 : ∀ x : EventGlobals, x.g_by_skill = g.g_by_skill →
        (on_activation (on_pick x e skillname now).1 e skillname now).g_by_skill =
          (on_activation g e skillname now).g_by_skill := fun x hx =>
      on_activation_by_skill_congr _ _ e skillname now ((hP x).1.trans hx)
    split_ifs <;> exact h1 _ rfl
  · split_ifs <;> simp only [(hA _).1, (hP _).2.1]
  · split_ifs <;> simp only [(hA _).1, (hP _).2.1]

/-- The timer table after an event: only the cooldown block writes it, and only
for an event that involves the local actor. -/
theorem on_combat_by_skill (CBTS_NONE : Nat) (g : EventGlobals) (e : CbtEvent)
    (src dst : Option Ag) (skillname : Option String) (now : ℚ) :
    (on_combat CBTS_NONE g (some e) src dst skillname now).g_by_skill =
      if ag_is_self src = true ∨ ag_is_self dst = true then
        (on_activation g e skillname now).g_by_skill
      else g.g_by_skill := by
  unfold on_combat
  dsimp only
  by_cases hs : ag_is_self src = true ∨ ag_is_self dst = true
  · rw [if_pos hs, if_pos (by simpa using hs), (on_self_event_frame _ e src dst skillname now).1]
    exact on_activation_by_skill_congr _ _ e skillname now
      (on_event_state_frame CBTS_NONE g e src dst).1
  · rw [if_neg hs, if_neg (by simpa using hs)]
    exact (on_event_state_frame CBTS_NONE g e src dst).1

/-- The timer table after the cooldown block, by cases. -/
theorem on_activation_by_skill (g : EventGlobals) (e : CbtEvent) (skillname : Option String)
    (now : ℚ) :
    (on_activation g e skillname now).g_by_skill =
      if e.skillid ≠ 0 ∧ e.is_buff = 0 ∧ is_probable_junk_name skillname = false then
        if e.is_activation = ACTV_START ∨ e.is_activation = ACTV_CANCEL_FIRE then
          Function.update g.g_by_skill e.skillid
            (some ((eventTimer g e.skillid skillname).on_cast now))
        else if e.is_activation = ACTV_CANCEL_CANCEL ∨ e.is_activation = ACTV_RESET then
          Function.update g.g_by_skill e.skillid
            (some ((eventTimer g e.skillid skillname).start_cancel_cd now))
        else g.g_by_skill
      else g.g_by_skill := by
  unfold on_activation
  split_ifs <;> rfl

/-! ## Combat event classifier: the claims -/

/-- Claim C25.  For an event that involves the local actor (`src` or `dst` has
the `self` flag): if its skill id is not 0, its buff flag is 0 and its name is
no junk, then activation `ACTV_START` or `ACTV_CANCEL_FIRE` makes the timer of
that skill id the result of `on_cast(now)`, and activation
`ACTV_CANCEL_CANCEL` or `ACTV_RESET` makes it the result of
`start_cancel_cd(now)`, the call being made on the timer of the table, created
if absent, after its `skillid` and `name` are assigned; any other activation
kind leaves the timer table as it was; an event with skill id 0, a buff flag
or a junk name leaves the timer table as it was; the timers of other skill ids
never change. -/
theorem on_combat_routes_activation (CBTS_NONE : Nat) (g : EventGlobals) (e : CbtEvent)
    (src dst : Option Ag) (skillname : Option String) (now : ℚ)
    (hself : ag_is_self src = true ∨ ag_is_self dst = true) :
    ((e.skillid ≠ 0 ∧ e.is_buff = 0 ∧ is_probable_junk_name skillname = false) →
      ((e.is_activation = ACTV_START ∨ e.is_activation = ACTV_CANCEL_FIRE) →
        (on_combat CBTS_NONE g (some e) src dst skillname now).g_by_skill e.skillid =
          some ((eventTimer g e.skillid skillname).on_cast now)) ∧
      ((e.is_activation = ACTV_CANCEL_CANCEL ∨ e.is_activation = ACTV_RESET) →
        (on_combat CBTS_NONE g (some e) src dst skillname now).g_by_skill e.skillid =
          some ((eventTimer g e.skillid skillname).start_cancel_cd now)) ∧
      ((e.is_activation ≠ ACTV_START ∧ e.is_activation ≠ ACTV_CANCEL_FIRE ∧
          e.is_activation ≠ ACTV_CANCEL_CANCEL ∧ e.is_activation ≠ ACTV_RESET) →
        (on_combat CBTS_NONE g (some e) src dst skillname now).g_by_skill = g.g_by_skill)) ∧
    ((e.skillid = 0 ∨ e.is_buff ≠ 0 ∨ is_probable_junk_name skillname = true) →
      (on_combat CBTS_NONE g (some e) src dst skillname now).g_by_skill = g.g_by_skill) ∧
    (∀ other, other ≠ e.skillid →
      (on_combat CBTS_NONE g (some e) src dst skillname now).g_by_skill other =
        g.g_by_skill other) := by
  rw [on_combat_by_skill, if_pos hself, on_activation_by_skill]
  refine ⟨fun hev => ?_, fun hno => ?_, fun other ho => ?_⟩
  · rw [if_pos hev]
    refine ⟨fun h => ?_, fun h => ?_, fun h => ?_⟩
    · rw [if_pos h, Function.update_same]
    · have hn : ¬ (e.is_activation = ACTV_START ∨ e.is_activation = ACTV_CANCEL_FIRE) := by
        rcases h with h | h <;> rw [h] <;> decide
      rw [if_neg hn, if_pos h, Function.update_same]
    · rw [if_neg (by tauto), if_neg (by tauto)]
  · rw [if_neg]
    rintro ⟨h1, h2, h3⟩
    rcases hno with h | h | h
    · exact h1 h
    · exact h h2
    · rw [h3] at h
      exact Bool.false_ne_true h
  · split_ifs <;> first | rfl | exact Function.update_noteq ho _ _

/-- Claim C25 on the sample globals: a cast start of skill 7, named `Heal`, by
the local actor at time 4 creates its timer as `on_cast(4)` leaves it, and the
timer of skill 100 is as before. -/
theorem on_combat_routes_activation_witness :
    (on_combat 0 sampleEventGlobals (some { skillid := 7, is_activation := 1 })
      (some sampleSelfAgent) none (some "Heal") 4).g_by_skill 7 =
      some { skillid := 7, name := "Heal", last_cast_s := 4, last_update_s := 4 } ∧
    (on_combat 0 sampleEventGlobals (some { skillid := 7, is_activation := 1 })
      (some sampleSelfAgent) none (some "Heal") 4).g_by_skill 100 =
      sampleEventGlobals.g_by_skill 100 := by
  have h := on_combat_routes_activation 0 sampleEventGlobals
    { skillid := 7, is_activation := 1 } (some sampleSelfAgent) none (some "Heal") 4
    (Or.inl (by decide))
  refine ⟨?_, h.2.2 100 (by decide)⟩
  rw [(h.1 ⟨by decide, rfl, by decide⟩).1 (Or.inl rfl)]
  simp [eventTimer, sampleEventGlobals, SlotTimer.on_cast, skill_label]

/-- Claim C26.  For an event without state change (`is_statechange` is
`CBTS_NONE`, a code other than those of down, dead, combat exit and log end)
that is a buff event (`is_buff = 1`) and whose destination is the local
actor: with the alacrity id 30328 `has_alacrity` becomes true on apply
(`is_buffremove = 0`) and false on any remove while `has_chill` is as before;
with the chill id 722 `has_chill` is set the same way while `has_alacrity` is
as before; with any other skill id both flags are as before. -/
theorem on_combat_tracks_buffs (CBTS_NONE : Nat) (g : EventGlobals) (e : CbtEvent)
    (src dst : Option Ag) (skillname : Option String) (now : ℚ)
    (hnone : CBTS_NONE ≠ CBTS_CHANGEDOWN ∧ CBTS_NONE ≠ CBTS_CHANGEDEAD ∧
      CBTS_NONE ≠ CBTS_EXITCOMBAT ∧ CBTS_NONE ≠ CBTS_LOGEND)
    (hsc : e.is_statechange = CBTS_NONE) (hbuff : e.is_buff = 1)
    (hdst : ag_is_self dst = true) :
    (e.skillid = 30328 →
      (on_combat CBTS_NONE g (some e) src dst skillname now).g_self.has_alacrity =
        decide (e.is_buffremove = 0) ∧
      (on_combat CBTS_NONE g (some e) src dst skillname now).g_self.has_chill =
        g.g_self.has_chill) ∧
    (e.skillid = 722 →
      (on_combat CBTS_NONE g (some e) src dst skillname now).g_self.has_chill =
        decide (e.is_buffremove = 0) ∧
      (on_combat CBTS_NONE g (some e) src dst skillname now).g_self.has_alacrity =
        g.g_self.has_alacrity) ∧
    (e.skillid ≠ 30328 → e.skillid ≠ 722 →
      (on_combat CBTS_NONE g (some e) src dst skillname now).g_self.has_alacrity =
        g.g_self.has_alacrity ∧
      (on_combat CBTS_NONE g (some e) src dst skillname now).g_self.has_chill =
        g.g_self.has_chill) := by
  obtain ⟨n1, n2, n3, n4⟩ := hnone
  have hc : on_combat CBTS_NONE g (some e) src dst skillname now =
      on_self_event (on_event_state CBTS_NONE g e src dst) e src dst skillname now := by
    unfold on_combat
    dsimp only
    rw [if_pos (by simp [hdst])]
  have hf := on_self_event_frame (on_event_state CBTS_NONE g e src dst) e src dst skillname now
  rw [hc, hf.2.1, hf.2.2]
  have h3 : ¬ ((e.is_statechange = CBTS_CHANGEDOWN ∨ e.is_statechange = CBTS_CHANGEDEAD) ∧
      ag_is_self dst = true) := by
    rw [hsc]; tauto
  have h4 : ¬ ((e.is_statechange = CBTS_EXITCOMBAT ∨ e.is_statechange = CBTS_LOGEND) ∧
      ag_is_self dst = true) := by
    rw [hsc]; tauto
  have h5 : e.is_statechange = CBTS_NONE ∧ e.is_buff = 1 ∧ ag_is_self dst = true :=
    ⟨hsc, hbuff, hdst⟩
  unfold on_event_state
  dsimp only
  rw [if_neg h3, if_neg h4, if_pos h5]
  refine ⟨fun ha => ?_, fun hch => ?_, fun ha hch => ?_⟩
  · rw [if_pos (show e.skillid = BUFF_ALACRITY from ha)]
    exact ⟨rfl, rfl⟩
  · have hna : e.skillid ≠ BUFF_ALACRITY := by rw [hch]; decide
    rw [if_neg hna, if_pos (show e.skillid = BUFF_CHILL from hch)]
    exact ⟨rfl, rfl⟩
  · rw [if_neg (show e.skillid ≠ BUFF_ALACRITY from ha),
      if_neg (show e.skillid ≠ BUFF_CHILL from hch)]
    exact ⟨rfl, rfl⟩

/-- Claim C26 on the sample globals, where both flags are on: a remove of the
alacrity buff from the local actor turns `has_alacrity` off and leaves
`has_chill` on. -/
theorem on_combat_tracks_buffs_witness :
    (on_combat 0 sampleEventGlobals
      (some { is_buff := 1, is_buffremove := 1, skillid := 30328 })
      none (some sampleSelfAgent) none 4).g_self.has_alacrity = false ∧
    (on_combat 0 sampleEventGlobals
      (some { is_buff := 1, is_buffremove := 1, skillid := 30328 })
      none (some sampleSelfAgent) none 4).g_self.has_chill = true := by
  have h := (on_combat_tracks_buffs 0 sampleEventGlobals
    { is_buff := 1, is_buffremove := 1, skillid := 30328 } none (some sampleSelfAgent) none 4
    (by decide) rfl rfl (by decide)).1 rfl
  exact ⟨h.1.trans (by decide), h.2.trans rfl⟩

/-- Counterexample to claim C27 as stated.  An agent information event tells
the in-session id 7 and the subgroup 3 of the local actor; after the map reset
signal that follows, `SelfContext` still has this id and this subgroup, so it
is not back at its initial value. -/
theorem map_reset_keeps_identity :
    (on_combat 0 (on_combat 0 sampleEventGlobals none none (some sampleSelfAgent) none 1)
      none none none none 2).g_self =
      { self_instid := 7, has_alacrity := false, has_chill := false, subgroup := 3 } ∧
    (on_combat 0 (on_combat 0 sampleEventGlobals none none (some sampleSelfAgent) none 1)
      none none none none 2).g_self ≠ ({} : SelfContext) := by
  have h : (on_combat 0 (on_combat 0 sampleEventGlobals none none (some sampleSelfAgent)
      none 1) none none none none 2).g_self =
      { self_instid := 7, has_alacrity := false, has_chill := false, subgroup := 3 } := by
    simp [on_combat, on_agent_info, sampleSelfAgent, sampleEventGlobals, cstr_nonempty]
  rw [h]
  exact ⟨rfl, by decide⟩

/-- Claim C27, amended.  After a session or map reset signal (null event with
both actor descriptors null) both speed flags of `SelfContext` are false while
its in-session id and its subgroup are as before; the set of known squad
accounts and the set of dead accounts are empty, the own account name is
empty and the map change flag is set; the timer table is as before. -/
theorem map_reset_clears (CBTS_NONE : Nat) (g : EventGlobals) (skillname : Option String)
    (now : ℚ) :
    (on_combat CBTS_NONE g none none none skillname now).g_self =
      { g.g_self with has_alacrity := false, has_chill := false } ∧
    (on_combat CBTS_NONE g none none none skillname now).g_self.has_alacrity = false ∧
    (on_combat CBTS_NONE g none none none skillname now).g_self.has_chill = false ∧
    (on_combat CBTS_NONE g none none none skillname now).g_self.self_instid =
      g.g_self.self_instid ∧
    (on_combat CBTS_NONE g none none none skillname now).g_self.subgroup =
      g.g_self.subgroup ∧
    (on_combat CBTS_NONE g none none none skillname now).g_squad_accounts = ∅ ∧
    (on_combat CBTS_NONE g none none none skillname now).g_dead_accounts = ∅ ∧
    (on_combat CBTS_NONE g none none none skillname now).g_self_accountname = "" ∧
    (on_combat CBTS_NONE g none none none skillname now).g_in_map_change = true ∧
    (on_combat CBTS_NONE g none none none skillname now).g_by_skill = g.g_by_skill := by
  simp [on_combat]

end Cooldowns
